import Mathlib

/-!
# Block allocator and key-value store core

A shallow embedding of `alloc_excerpt.c` (the block allocator) and of
`kvstore_excerpt.c` (the hash-table request handlers and the worker
loop), followed by the properties proved about them.

## Allocator memory model

* `size_t` values are natural numbers below `2 ^ 64`; every `size_t`
  operation that can wrap is reduced modulo `2 ^ 64`.
* The machine is LP64: `sizeof(long) = sizeof(size_t) = 8`.
* Memory is a map from the byte address of an 8-byte cell to the `size_t`
  stored there.  The allocator only ever reads and writes whole cells, the
  block headers and the free-list links.
* Addresses are natural numbers; the program break stays below `2 ^ 63`
  (see `sbrk`), so no address computation of a well-formed heap wraps.
  The increment passed to `sbrk` is read as a signed number, as by the C
  library.
* Loops and the recursion of `coalesce` take a fuel argument and return
  `none` when it runs out.
-/

namespace Alloc

/-! ## Constants and macros -/

/-- `ALIGNMENT` is `sizeof(long)`, 8 on LP64. -/
def ALIGNMENT : Nat := 8

/-- `METADATA_SIZE` is `sizeof(struct obj_metadata)`, one `size_t`. -/
def METADATA_SIZE : Nat := 8

/-- `MIN_ALLOC`, the smallest payload. -/
def MIN_ALLOC : Nat := 24

/-- `FREE_BIT` is `(size_t)1 << (sizeof(size_t) * 8 - 1)`. -/
def FREE_BIT : Nat := 1 <<< (8 * 8 - 1)

/-- `SIZE_MASK` is `~FREE_BIT` on 64 bits. -/
def SIZE_MASK : Nat := (2 ^ 64 - 1) ^^^ FREE_BIT

/-- `ALIGN(size)` is `((size) + (ALIGNMENT - 1)) & ~(ALIGNMENT - 1)` in `size_t`. -/
def ALIGN (size : Nat) : Nat :=
  ((size + (ALIGNMENT - 1)) % 2 ^ 64) &&& ((2 ^ 64 - 1) ^^^ (ALIGNMENT - 1))

/-! ## Allocator state -/

/-- The globals of the allocator together with the memory and the program break. -/
structure AllocState where
  /-- the `size_t` stored in the cell at each byte address -/
  mem : Nat → Nat
  /-- the global `heap_start`, `0` for `NULL` -/
  heap_start : Nat
  /-- the global `free_list`, `0` for `NULL` -/
  free_list : Nat
  /-- the current program break, what `sbrk(0)` returns -/
  brk : Nat

/-- The allocator before its first call: both globals are `NULL`. -/
def empty_heap (brk0 : Nat) (mem0 : Nat → Nat) : AllocState :=
  { mem := mem0, heap_start := 0, free_list := 0, brk := brk0 }

/-- The value `(void *)-1` that `sbrk` returns on failure. -/
def SBRK_FAILED : Nat := 2 ^ 64 - 1

/-- The C library's `sbrk(increment)`, the heap-grow primitive the allocator
consumes.  It is not part of the repository; it is modelled as POSIX and the
C library describe it.  Its parameter is an `intptr_t`: the `size_t` the
allocator passes is read as a signed number, so a value of `2 ^ 63` or more
is the negative increment `increment - 2 ^ 64`.  `sbrk(0)` returns the
break.  A granted call moves the break by the signed increment, up or down,
and returns the old break; a refused call returns `(void *)-1` and changes
nothing.  Whether the system grants a request is the argument `ok`; a
request that would take the break to `2 ^ 63` or beyond, or down to `0` or
below, is never granted. -/
def sbrk (s : AllocState) (increment : Nat) (ok : Bool) : AllocState × Nat :=
  if increment = 0 then (s, s.brk)
  else if increment < 2 ^ 63 then
    if ok = true ∧ s.brk + increment < 2 ^ 63 then
      ({ s with brk := s.brk + increment }, s.brk)
    else (s, SBRK_FAILED)
  else
    if ok = true ∧ 2 ^ 64 - increment < s.brk then
      ({ s with brk := s.brk - (2 ^ 64 - increment) }, s.brk)
    else (s, SBRK_FAILED)

/-! ## Header helpers -/

/-- `get_size(b)` is `b->info & SIZE_MASK`. -/
def get_size (s : AllocState) (b : Nat) : Nat := s.mem b &&& SIZE_MASK

/-- `is_free(b)` is `(b->info & FREE_BIT) != 0`. -/
def is_free (s : AllocState) (b : Nat) : Bool := (s.mem b &&& FREE_BIT) != 0

/-- `set_size_and_status(b, size, free)` stores `size | (free ? FREE_BIT : 0)`. -/
def set_size_and_status (s : AllocState) (b size : Nat) (free : Bool) : AllocState :=
  { s with mem := Function.update s.mem b (size ||| (if free then FREE_BIT else 0)) }

/-- `get_next_freelist(b)` reads the pointer stored right after the header. -/
def get_next_freelist (s : AllocState) (b : Nat) : Nat := s.mem (b + METADATA_SIZE)

/-- `set_next_freelist(b, next)` stores the pointer right after the header. -/
def set_next_freelist (s : AllocState) (b next : Nat) : AllocState :=
  { s with mem := Function.update s.mem (b + METADATA_SIZE) next }

/-! ## Free list -/

/-- `insert_to_freelist(b)`: set the free bit, link in front, move the head. -/
def insert_to_freelist (s : AllocState) (b : Nat) : AllocState :=
  let s1 := set_size_and_status s b (get_size s b) true
  let s2 := set_next_freelist s1 b s1.free_list
  { s2 with free_list := b }

/-- The loop `while (curr && get_next_freelist(curr) != b) curr = get_next_freelist(curr);`
of `remove_from_freelist`; the result is the final `curr`. -/
def find_prev : Nat → AllocState → Nat → Nat → Option Nat
  | 0, _, _, _ => none
  | fuel + 1, s, b, curr =>
    if curr ≠ 0 ∧ get_next_freelist s curr ≠ b then
      find_prev fuel s b (get_next_freelist s curr)
    else some curr

/-- `remove_from_freelist(b)`. -/
def remove_from_freelist (fuel : Nat) (s : AllocState) (b : Nat) : Option AllocState :=
  if s.free_list = 0 then some s
  else if s.free_list = b then
    let s1 := { s with free_list := get_next_freelist s b }
    some (set_size_and_status s1 b (get_size s1 b) false)
  else
    match find_prev fuel s b s.free_list with
    | none => none
    | some curr =>
      if curr ≠ 0 then
        let s1 := set_next_freelist s curr (get_next_freelist s b)
        some (set_size_and_status s1 b (get_size s1 b) false)
      else some s

/-! ## Physical navigation, coalescing and splitting -/

/-- `get_next_physical_block(b)` is `(char *)b + METADATA_SIZE + get_size(b)`. -/
def get_next_physical_block (s : AllocState) (b : Nat) : Nat :=
  b + METADATA_SIZE + get_size s b

/-- `coalesce(b)`: while the physical successor lies below the break and is
free, unlink it and absorb it.  The sum of the sizes is a `size_t`. -/
def coalesce : Nat → AllocState → Nat → Option AllocState
  | 0, _, _ => none
  | fuel + 1, s, b =>
    let next := get_next_physical_block s b
    let heap_end := s.brk
    if next < heap_end ∧ is_free s next = true then
      match remove_from_freelist fuel s next with
      | none => none
      | some s1 =>
        coalesce fuel
          (set_size_and_status s1 b
            ((get_size s1 b + METADATA_SIZE + get_size s1 next) % 2 ^ 64) true) b
    else some s

/-- Subtraction of `size_t` values, which wraps. -/
def sub_size (a b : Nat) : Nat := (a + (2 ^ 64 - b % 2 ^ 64)) % 2 ^ 64

/-- `split_block(b, size)`. -/
def split_block (s : AllocState) (b size : Nat) : AllocState :=
  let total := get_size s b
  if (size + METADATA_SIZE + MIN_ALLOC) % 2 ^ 64 ≤ total then
    let new_block := b + METADATA_SIZE + size
    let s1 := set_size_and_status s new_block (sub_size (sub_size total size) METADATA_SIZE) true
    let s2 := set_size_and_status s1 b size false
    insert_to_freelist s2 new_block
  else s

/-! ## malloc and free -/

/-- The first-fit loop `while (b && (get_size(b) < size)) b = get_next_freelist(b);`;
the result is the final `b`. -/
def first_fit : Nat → AllocState → Nat → Nat → Option Nat
  | 0, _, _, _ => none
  | fuel + 1, s, size, b =>
    if b ≠ 0 ∧ get_size s b < size then first_fit fuel s size (get_next_freelist s b)
    else some b

/-- The size `mymalloc` works with: `ALIGN(size < MIN_ALLOC ? MIN_ALLOC : size)`. -/
def request_size (size : Nat) : Nat := ALIGN (if size < MIN_ALLOC then MIN_ALLOC else size)

/-- `mymalloc(size)`; the result is the new state and the returned pointer
(`0` for `NULL`).  `ok` tells whether the system grants the heap growth,
should the call ask for one. -/
def mymalloc (fuel : Nat) (s : AllocState) (size : Nat) (ok : Bool) :
    Option (AllocState × Nat) :=
  if size = 0 then some (s, 0)
  else
    let size := request_size size
    match first_fit fuel s size s.free_list with
    | none => none
    | some b =>
      if b = 0 then
        let r := sbrk s ((size + METADATA_SIZE) % 2 ^ 64) ok
        let b := r.2
        if b = SBRK_FAILED then some (r.1, 0)
        else
          let s1 := if r.1.heap_start = 0 then { r.1 with heap_start := b } else r.1
          some (set_size_and_status s1 b size false, b + METADATA_SIZE)
      else
        match remove_from_freelist fuel s b with
        | none => none
        | some s1 => some (split_block s1 b size, b + METADATA_SIZE)

/-- `myfree(ptr)`. -/
def myfree (fuel : Nat) (s : AllocState) (ptr : Nat) : Option AllocState :=
  if ptr = 0 then some s
  else
    let b := ptr - METADATA_SIZE
    coalesce fuel (insert_to_freelist s b) b

end Alloc

namespace KV

/-! ## Key-value store: data model -/

/-- `HT_CAPACITY`, the number of buckets. -/
def HT_CAPACITY : Nat := 256

/-- A key is a C string: the bytes before the terminating NUL.  `strcmp`
returns `0` exactly when two keys are the same string. -/
abbrev Key := List Nat

/-- The status codes `send_response` is called with. -/
inductive Status where
  | OK
  | KEY_ERROR
  | STORE_ERROR
  deriving DecidableEq, Repr

/-- The fields of `hash_item_t` the handlers use.  Pointers to items are
natural numbers, `0` for `NULL`; a value buffer is `none` for `NULL`,
otherwise the bytes it holds.  The field `user`, which holds the rwlock of
the item, is not a field of the model: an item linked into a table is taken
to have a valid `user` structure (`del_request` frees it), so the rwlock
calls on a linked item succeed; no statement of the excerpt allocates
one. -/
structure hash_item_t where
  key : Key
  value : Option (List Nat)
  value_size : Nat
  next : Nat
  prev : Nat

/-- The fields of `hashtable_t` the handlers use: the bucket array
`ht->items`, `ht->capacity`, the counter `ht->user->request_count`, and
the memory holding the items (`node p` is the item `p` points to). -/
structure hashtable_t where
  capacity : Nat
  items : Nat → Nat
  node : Nat → hash_item_t
  request_count : Nat

/-- The fields of `struct request` the handlers use. -/
structure request where
  key : Key
  msg_len : Nat
  connection_close : Bool

/-- What a handler does that is visible outside the table: lock
operations and the responses sent, in program order. -/
inductive Event where
  | mutex_lock (bucket : Nat)
  | mutex_unlock (bucket : Nat)
  | rwlock_rdlock (item : Nat)
  | rwlock_wrlock (item : Nat)
  | rwlock_unlock (item : Nat)
  | rwlock_destroy (item : Nat)
  | send_response (status : Status) (len : Nat) (bytes : Option (List Nat))
  deriving DecidableEq

/-- The result of running a handler. -/
structure Outcome where
  ht : hashtable_t
  connection_close : Bool
  ret : Int
  trace : List Event

/-- How a call of `set_request` ends: it returns, or the process dies on a
memory fault; `trace` is what it did before the fault. -/
inductive SetResult where
  | returned (o : Outcome)
  | crashed (trace : List Event)

/-- The table `init_hashtable` builds: `capacity` is `HT_CAPACITY`, every
bucket is `NULL` (`calloc`), the request counter is `0`. -/
def init_hashtable (node0 : Nat → hash_item_t) : hashtable_t :=
  { capacity := HT_CAPACITY, items := fun _ => 0, node := node0, request_count := 0 }

/-- The conversion `(int)got` of a `size_t` at the end of `set_request`. -/
def to_int (n : Nat) : Int :=
  if n % 2 ^ 32 < 2 ^ 31 then ((n % 2 ^ 32 : Nat) : Int) else ((n % 2 ^ 32 : Nat) : Int) - 2 ^ 32

/-- The lookup loop
`while (item && strcmp(item->key, request->key) != 0) item = item->next;`;
the result is the final `item`. -/
def find_item (ht : hashtable_t) (key : Key) : Nat → Nat → Option Nat
  | 0, _ => none
  | fuel + 1, item =>
    if item ≠ 0 ∧ (ht.node item).key ≠ key then find_item ht key fuel (ht.node item).next
    else some item

/-- One call of `read_payload`: the value it returns and the bytes it
stored at `buf + got`. -/
structure ReadResult where
  r : Int
  bytes : List Nat

/-- The loop of `set_request` that fills the buffer.  `reads` are the
results of the successive `read_payload` calls; once they are used up the
peer has closed the connection and `read_payload` returns `0`.  The result
is `none` when a call returns `r <= 0`, otherwise the final `got` and the
bytes read. -/
def read_all (expected : Nat) : List ReadResult → Nat → List Nat → Option (Nat × List Nat)
  | [], got, buf => if got < expected then none else some (got, buf)
  | x :: rest, got, buf =>
    if got < expected then
      if x.r ≤ 0 then none
      else read_all expected rest (got + x.r.toNat) (buf ++ x.bytes)
    else some (got, buf)

/-- What the environment does during one `set_request`: whether `malloc`
of the buffer succeeds, what the `read_payload` calls deliver, what
`check_payload` returns, and the pointer `calloc` returns for a new item
(`0` when it fails). -/
structure SetEnv where
  malloc_ok : Bool
  reads : List ReadResult
  check : Int
  new_item : Nat

section handlers

variable (hash : Key → Nat)

/-- `get_request`.  `malloc_ok` tells whether `malloc` of the copy succeeds. -/
def get_request (fuel : Nat) (ht : hashtable_t) (req : request) (malloc_ok : Bool) :
    Option Outcome :=
  let bucket := hash req.key % ht.capacity
  match find_item ht req.key fuel (ht.items bucket) with
  | none => none
  | some item =>
    if item = 0 then
      some { ht := ht, connection_close := req.connection_close, ret := -1,
             trace := [.mutex_lock bucket, .mutex_unlock bucket,
                       .send_response .KEY_ERROR 0 none] }
    else
      let it := ht.node item
      if it.value ≠ none ∧ 0 < it.value_size then
        if malloc_ok = false then
          some { ht := ht, connection_close := req.connection_close, ret := -1,
                 trace := [.mutex_lock bucket, .rwlock_rdlock item, .mutex_unlock bucket,
                           .rwlock_unlock item, .send_response .STORE_ERROR 0 none] }
        else
          let value := (it.value.getD []).take it.value_size
          some { ht := { ht with request_count := ht.request_count + 1 },
                 connection_close := req.connection_close, ret := 0,
                 trace := [.mutex_lock bucket, .rwlock_rdlock item, .mutex_unlock bucket,
                           .rwlock_unlock item, .send_response .OK it.value_size (some value)] }
      else
        some { ht := { ht with request_count := ht.request_count + 1 },
               connection_close := req.connection_close, ret := 0,
               trace := [.mutex_lock bucket, .rwlock_rdlock item, .mutex_unlock bucket,
                         .rwlock_unlock item, .send_response .OK 0 none] }

/-- `set_request`.  `env` is what the environment does during the call;
`strdup` of the key, whose result the code does not check, is taken to
succeed.  When the key is not in the bucket and `calloc` returns an item,
the item is all zero, so `item->user` is `NULL` and
`pthread_rwlock_init(&item->user->rwlock, NULL)` writes through a null
pointer: the call faults there, with the bucket mutex held and before the
item is linked. -/
def set_request (fuel : Nat) (ht : hashtable_t) (req : request) (env : SetEnv) :
    Option SetResult :=
  let bucket := hash req.key % ht.capacity
  let expected := req.msg_len
  if expected ≠ 0 ∧ env.malloc_ok = false then
    some (.returned { ht := ht, connection_close := req.connection_close, ret := -1,
                      trace := [.send_response .STORE_ERROR 0 none] })
  else
    match read_all expected env.reads 0 [] with
    | none => some (.returned { ht := ht, connection_close := true, ret := -1, trace := [] })
    | some (got, bytes) =>
      if env.check < 0 then
        some (.returned { ht := ht, connection_close := true, ret := -1, trace := [] })
      else
        let buf : Option (List Nat) := if expected ≠ 0 then some bytes else none
        match find_item ht req.key fuel (ht.items bucket) with
        | none => none
        | some item =>
          if item = 0 then
            if env.new_item = 0 then
              some (.returned { ht := ht, connection_close := req.connection_close, ret := -1,
                                trace := [.mutex_lock bucket, .mutex_unlock bucket,
                                          .send_response .STORE_ERROR 0 none] })
            else some (.crashed [.mutex_lock bucket])
          else
            let node1 := Function.update ht.node item
              { ht.node item with value := buf, value_size := got }
            some (.returned
              { ht := { ht with node := node1, request_count := ht.request_count + 1 },
                connection_close := req.connection_close, ret := to_int got,
                trace := [.mutex_lock bucket, .rwlock_wrlock item, .rwlock_unlock item,
                          .mutex_unlock bucket, .send_response .OK 0 none] })

/-- `del_request`. -/
def del_request (fuel : Nat) (ht : hashtable_t) (req : request) : Option Outcome :=
  let bucket := hash req.key % ht.capacity
  match find_item ht req.key fuel (ht.items bucket) with
  | none => none
  | some item =>
    if item = 0 then
      some { ht := ht, connection_close := req.connection_close, ret := -1,
             trace := [.mutex_lock bucket, .mutex_unlock bucket,
                       .send_response .KEY_ERROR 0 none] }
    else
      let it := ht.node item
      let ht1 : hashtable_t :=
        if it.prev ≠ 0 then
          { ht with node := Function.update ht.node it.prev { ht.node it.prev with next := it.next } }
        else { ht with items := Function.update ht.items bucket it.next }
      let ht2 : hashtable_t :=
        if it.next ≠ 0 then
          { ht1 with node := Function.update ht1.node it.next { ht1.node it.next with prev := it.prev } }
        else ht1
      some { ht := { ht2 with request_count := ht2.request_count + 1 },
             connection_close := req.connection_close, ret := 0,
             trace := [.mutex_lock bucket, .rwlock_wrlock item, .rwlock_unlock item,
                       .mutex_unlock bucket, .rwlock_destroy item, .send_response .OK 0 none] }

end handlers

end KV

namespace KV

/-! ## Key-value store: the worker loop -/

/-- The fields of `ht->user` that `worker_thread` uses: the ring buffer
`job_queue` of connection handles (`0` for `NULL`), `queue_head`,
`queue_size` and the flag `shutdown`.  The counters are not negative. -/
structure work_queue where
  job_queue : Nat → Nat
  queue_head : Nat
  queue_size : Nat
  shutdown : Bool

/-- How one iteration of the loop of `worker_thread` ends: blocked in
`pthread_cond_wait` for good, left the loop by `break`, or took the handle
`conn` off the queue, leaving the queue `q`; `dispatched` tells whether
`main_job(conn)` was called. -/
inductive Iteration where
  | blocked
  | stop
  | job (conn : Nat) (dispatched : Bool) (q : work_queue)

/-- The loop
`while (queue_size == 0 && !shutdown) pthread_cond_wait(&queue_cond, &queue_lock);`.
While the worker waits the lock is released, so every return of
`pthread_cond_wait` finds the queue in a state the other threads left:
`wakes` lists these states.  The result is the queue with which the loop
is left, `none` when the worker is never woken again. -/
def wait_loop : work_queue → List work_queue → Option work_queue
  | q, [] => if q.queue_size = 0 ∧ q.shutdown = false then none else some q
  | q, w :: rest =>
    if q.queue_size = 0 ∧ q.shutdown = false then wait_loop w rest else some q

/-- One iteration of the `for (;;)` loop of `worker_thread`, for a queue of
capacity `MAX_QUEUE_SIZE` (a build-time constant). -/
def worker_iteration (MAX_QUEUE_SIZE : Nat) (q : work_queue) (wakes : List work_queue) :
    Iteration :=
  match wait_loop q wakes with
  | none => .blocked
  | some q1 =>
    if q1.shutdown = true ∧ q1.queue_size = 0 then .stop
    else
      let conn := q1.job_queue q1.queue_head
      .job conn (conn != 0)
        { q1 with queue_head := (q1.queue_head + 1) % MAX_QUEUE_SIZE,
                  queue_size := q1.queue_size - 1 }

end KV

namespace Alloc

/-! ## Allocator: specification vocabulary -/

/-- A block of the heap as the specification sees it: the address of its
header, its payload size and whether it is free. -/
structure Block where
  addr : Nat
  size : Nat
  free : Bool

/-- The header word of a block with this payload size and status. -/
def hdr (size : Nat) (free : Bool) : Nat := size + (if free then 2 ^ 63 else 0)

/-- `Tiled a bs e`: the blocks `bs` lie one after the other from `a` to `e`
without gap or overlap, each with a payload of at least `MIN_ALLOC` bytes
that is a multiple of the alignment. -/
def Tiled : Nat → List Block → Nat → Prop
  | a, [], e => a = e
  | a, b :: rest, e =>
    b.addr = a ∧ 24 ≤ b.size ∧ b.size % 8 = 0 ∧ Tiled (a + 8 + b.size) rest e

/-- `FreeChain mem head fl`: following the free-list links from `head`
visits exactly the addresses `fl` and ends at `NULL`. -/
def FreeChain (mem : Nat → Nat) : Nat → List Nat → Prop
  | head, [] => head = 0
  | head, a :: rest => head = a ∧ a ≠ 0 ∧ FreeChain mem (mem (a + 8)) rest

/-- The addresses of the free blocks, in address order. -/
def free_addrs (bs : List Block) : List Nat :=
  (bs.filter (fun b => b.free)).map (fun b => b.addr)

/-- Where the heap begins: `heap_start`, or the break while no block exists. -/
def heap_base (s : AllocState) : Nat := if s.heap_start = 0 then s.brk else s.heap_start

/-- The well-formed heap: the blocks `bs` tile `[heap_start, heap_end)`,
every header in memory records its block's size and status, and the free
list `fl` is a null-terminated chain through exactly the free blocks. -/
structure WF (s : AllocState) (bs : List Block) (fl : List Nat) : Prop where
  base_pos : 0 < heap_base s
  brk_lt : s.brk < 2 ^ 63
  tiled : Tiled (heap_base s) bs s.brk
  headers : ∀ b ∈ bs, s.mem b.addr = hdr b.size b.free
  chain : FreeChain s.mem s.free_list fl
  perm : fl.Perm (free_addrs bs)

/-- The payload a block gets when it absorbs the blocks `run`. -/
def absorbed (size : Nat) (run : List Block) : Nat :=
  size + (run.map (fun y => 8 + y.size)).sum

end Alloc

namespace Alloc

/-! ## Allocator: concrete call sequences -/

/-- The heap before the first call, with the break at 4096 and zeroed memory. -/
def heap0 : AllocState := empty_heap 4096 (fun _ => 0)

/-- The largest `size_t`, `(size_t)-1`. -/
def SIZE_MAX : Nat := 2 ^ 64 - 1

/-- `alloc(16) = p1; alloc(40) = p2; release(p1)` on `heap0`. -/
def heap_one_free : AllocState :=
  ((do
    let r1 ← mymalloc 8 heap0 16 true
    let r2 ← mymalloc 8 r1.1 40 true
    myfree 8 r2.1 r1.2).getD heap0)

/-- `alloc(16) = p1; alloc(40) = p2; release(p1); release(p2)` on `heap0`:
the final state with `p1` and `p2`. -/
def script_two_frees : Option (AllocState × Nat × Nat) := do
  let r1 ← mymalloc 8 heap0 16 true
  let r2 ← mymalloc 8 r1.1 40 true
  let s3 ← myfree 8 r2.1 r1.2
  let s4 ← myfree 8 s3 r2.2
  pure (s4, r1.2, r2.2)

/-- `alloc(100) = a; alloc(8) = b; release(a); alloc(16) = c` from the
state `s0`, with `sbrk` granting: the final state with `a`, `b` and `c`. -/
def script_split_from (s0 : AllocState) : Option (AllocState × Nat × Nat × Nat) := do
  let r1 ← mymalloc 8 s0 100 true
  let r2 ← mymalloc 8 r1.1 8 true
  let s3 ← myfree 8 r2.1 r1.2
  let r4 ← mymalloc 8 s3 16 true
  pure (r4.1, r1.2, r2.2, r4.2)

/-- The script of `script_split_from` on `heap0`. -/
def script_split : Option (AllocState × Nat × Nat × Nat) := script_split_from heap0

/-- `alloc(SIZE_MAX) = p1; alloc(SIZE_MAX) = p2` on `heap0`. -/
def script_two_huge : Option (AllocState × Nat × Nat) := do
  let r1 ← mymalloc 8 heap0 SIZE_MAX true
  let r2 ← mymalloc 8 r1.1 SIZE_MAX true
  pure (r2.1, r1.2, r2.2)

/-- `alloc(SIZE_MAX) = p0; alloc(24) = p1; alloc(24) = p2; release(p2);
release(p0)` on `heap0`: the final state with `p0`, `p1`, `p2`. -/
def script_clobber : Option (AllocState × Nat × Nat × Nat) := do
  let r0 ← mymalloc 8 heap0 SIZE_MAX true
  let r1 ← mymalloc 8 r0.1 24 true
  let r2 ← mymalloc 8 r1.1 24 true
  let s3 ← myfree 8 r2.1 r2.2
  let s4 ← myfree 8 s3 r0.2
  pure (s4, r0.2, r1.2, r2.2)

/-- `alloc(100) = a; release(a); alloc(SIZE_MAX) = p` on `heap0`: the final
state with `a` and `p`. -/
def script_zero_split : Option (AllocState × Nat × Nat) := do
  let r1 ← mymalloc 8 heap0 100 true
  let s2 ← myfree 8 r1.1 r1.2
  let r3 ← mymalloc 8 s2 SIZE_MAX true
  pure (r3.1, r1.2, r3.2)

end Alloc

namespace Alloc

/-! ## Allocator: scans and recursion with their counts -/

/-- The first-fit loop of `mymalloc` as in `first_fit`, returning with the
final `b` the list of the free-list nodes it examined, in order. -/
def first_fit_visits : Nat → AllocState → Nat → Nat → Option (Nat × List Nat)
  | 0, _, _, _ => none
  | fuel + 1, s, size, b =>
    if b ≠ 0 ∧ get_size s b < size then
      (first_fit_visits fuel s size (get_next_freelist s b)).map (fun r => (r.1, b :: r.2))
    else some (b, if b = 0 then [] else [b])

/-- The loop of `remove_from_freelist` as in `find_prev`, returning with the
final `curr` the list of the free-list nodes it examined, in order. -/
def find_prev_visits : Nat → AllocState → Nat → Nat → Option (Nat × List Nat)
  | 0, _, _, _ => none
  | fuel + 1, s, b, curr =>
    if curr ≠ 0 ∧ get_next_freelist s curr ≠ b then
      (find_prev_visits fuel s b (get_next_freelist s curr)).map (fun r => (r.1, curr :: r.2))
    else some (curr, if curr = 0 then [] else [curr])

/-- The recursion of `coalesce` as in `coalesce`, returning with the final
state the number of recursive calls made. -/
def coalesce_calls : Nat → AllocState → Nat → Option (AllocState × Nat)
  | 0, _, _ => none
  | fuel + 1, s, b =>
    let next := get_next_physical_block s b
    let heap_end := s.brk
    if next < heap_end ∧ is_free s next = true then
      match remove_from_freelist fuel s next with
      | none => none
      | some s1 =>
        (coalesce_calls fuel
          (set_size_and_status s1 b
            ((get_size s1 b + METADATA_SIZE + get_size s1 next) % 2 ^ 64) true) b).map
          (fun r => (r.1, r.2 + 1))
    else some (s, 0)

/-! ## Allocator: further scripts -/

/-- `alloc(SIZE_MAX) = p0; alloc(24) = p1; release(p1); release(p0)` on
`heap0`: the final state with `p0` and `p1`. -/
def script_stale_link : Option (AllocState × Nat × Nat) := do
  let r0 ← mymalloc 8 heap0 SIZE_MAX true
  let r1 ← mymalloc 8 r0.1 24 true
  let s2 ← myfree 8 r1.1 r1.2
  let s3 ← myfree 8 s2 r0.2
  pure (s3, r0.2, r1.2)

/-- `alloc(100) = a; alloc(8) = b; release(a)` on `heap0`: a free block of
payload 104 followed by an allocated block of payload 24. -/
def heap_big_free : AllocState :=
  ((do
    let r1 ← mymalloc 8 heap0 100 true
    let r2 ← mymalloc 8 r1.1 8 true
    myfree 8 r2.1 r1.2).getD heap0)

/-- `alloc(24) = a; alloc(24) = x; alloc(24) = y; alloc(24) = z; release(y);
release(a)` on `heap0`: four blocks of payload 24 at 4096, 4128, 4160 and
4192, the first and the third free, with the free list `4096 -> 4160`. -/
def heap_four : AllocState :=
  ((do
    let r1 ← mymalloc 8 heap0 24 true
    let r2 ← mymalloc 8 r1.1 24 true
    let r3 ← mymalloc 8 r2.1 24 true
    let r4 ← mymalloc 8 r3.1 24 true
    let s5 ← myfree 8 r4.1 r3.2
    myfree 8 s5 r1.2).getD heap0)

/-- `alloc(100) = p; alloc(2^64 - 24) = q; release(q); alloc(2^64 - 24) = r`
on `heap0`, with `sbrk` granting: the final state with `p`, `q` and `r`. -/
def script_negative_grow : Option (AllocState × Nat × Nat × Nat) := do
  let r0 ← mymalloc 8 heap0 100 true
  let r1 ← mymalloc 8 r0.1 (2 ^ 64 - 24) true
  let s2 ← myfree 8 r1.1 r1.2
  let r3 ← mymalloc 8 s2 (2 ^ 64 - 24) true
  pure (r3.1, r0.2, r1.2, r3.2)

end Alloc

namespace KV

/-! ## Key-value store: specification vocabulary -/

/-- `IsChain ht prev head l`: following `next` from `head` visits exactly the
items of `l` and ends at `NULL`, and every item's `prev` points to the
item before it (`prev` for the first one). -/
def IsChain (ht : hashtable_t) : Nat → Nat → List Nat → Prop
  | _, head, [] => head = 0
  | prev, head, p :: rest =>
    head = p ∧ p ≠ 0 ∧ (ht.node p).prev = prev ∧ IsChain ht p (ht.node p).next rest

/-- The table invariant, for the bucket contents `ch`: every bucket is a
well-formed doubly-linked chain, its items hash to it, and no key occurs
twice in it. -/
structure TableInv (hash : Key → Nat) (ht : hashtable_t) (ch : Nat → List Nat) : Prop where
  cap : ht.capacity = HT_CAPACITY
  chains : ∀ b, b < HT_CAPACITY → IsChain ht 0 (ht.items b) (ch b)
  hashed : ∀ b, b < HT_CAPACITY → ∀ p ∈ ch b, hash (ht.node p).key % HT_CAPACITY = b
  unique : ∀ b, b < HT_CAPACITY → ((ch b).map (fun p => (ht.node p).key)).Nodup

/-- The item `p` is linked into some bucket of the table. -/
def InTable (ht : hashtable_t) (p : Nat) : Prop :=
  ∃ b l, b < HT_CAPACITY ∧ IsChain ht 0 (ht.items b) l ∧ p ∈ l

/-- Some item of the table has key `k`. -/
def HasKey (ht : hashtable_t) (k : Key) : Prop :=
  ∃ p, InTable ht p ∧ (ht.node p).key = k

/-- The table holds, under key `k`, an item with this value and size. -/
def Holds (ht : hashtable_t) (k : Key) (value : Option (List Nat)) (size : Nat) : Prop :=
  ∃ p, InTable ht p ∧ (ht.node p).key = k ∧ (ht.node p).value = value ∧
    (ht.node p).value_size = size

/-- The tables the handlers can produce from the empty table, whatever the
environment does: a table is produced by a call that returns. -/
inductive Reachable (hash : Key → Nat) : hashtable_t → Prop where
  | init (node0 : Nat → hash_item_t) : Reachable hash (init_hashtable node0)
  | get {ht : hashtable_t} {o : Outcome} (fuel : Nat) (req : request) (ok : Bool) :
      Reachable hash ht → get_request hash fuel ht req ok = some o → Reachable hash o.ht
  | set {ht : hashtable_t} {o : Outcome} (fuel : Nat) (req : request) (env : SetEnv) :
      Reachable hash ht → set_request hash fuel ht req env = some (.returned o) →
      Reachable hash o.ht
  | del {ht : hashtable_t} {o : Outcome} (fuel : Nat) (req : request) :
      Reachable hash ht → del_request hash fuel ht req = some o → Reachable hash o.ht

/-- The three kinds of request. -/
inductive Op where
  | get
  | set
  | del

/-- `Steps hash allow ht ht2`: the table `ht2` results from `ht` by a
sequence of get, set and del requests, each of a kind and on a key that
`allow` admits. -/
inductive Steps (hash : Key → Nat) (allow : Op → Key → Prop) :
    hashtable_t → hashtable_t → Prop where
  | refl (ht : hashtable_t) : Steps hash allow ht ht
  | get {ht ht1 : hashtable_t} {o : Outcome} (fuel : Nat) (req : request) (ok : Bool) :
      Steps hash allow ht ht1 → allow Op.get req.key →
      get_request hash fuel ht1 req ok = some o → Steps hash allow ht o.ht
  | set {ht ht1 : hashtable_t} {o : Outcome} (fuel : Nat) (req : request) (env : SetEnv) :
      Steps hash allow ht ht1 → allow Op.set req.key →
      set_request hash fuel ht1 req env = some (.returned o) → Steps hash allow ht o.ht
  | del {ht ht1 : hashtable_t} {o : Outcome} (fuel : Nat) (req : request) :
      Steps hash allow ht ht1 → allow Op.del req.key →
      del_request hash fuel ht1 req = some o → Steps hash allow ht o.ht

/-- The `read_payload` calls deliver the payload `v`: every call returns
the positive number of bytes it stored, and the bytes of all calls
together are `v`. -/
def Delivers (reads : List ReadResult) (v : List Nat) : Prop :=
  (∀ x ∈ reads, 0 < x.r ∧ x.r = (x.bytes.length : Int)) ∧
    (reads.map (fun x => x.bytes)).flatten = v

/-- The responses a handler sent: status, length and the bytes (none for `NULL`). -/
def responses : List Event → List (Status × Nat × List Nat)
  | [] => []
  | .send_response st len bytes :: rest => (st, len, bytes.getD []) :: responses rest
  | _ :: rest => responses rest

/-- The buffer `malloc` is asked for cannot be had: `msg_len` is not `0`
and `malloc` returns `NULL`. -/
def BufferFails (req : request) (env : SetEnv) : Prop :=
  req.msg_len ≠ 0 ∧ env.malloc_ok = false

/-- The payload does not arrive: a `read_payload` call returns `r <= 0`
before `msg_len` bytes are read, or `check_payload` returns a negative
value. -/
def PayloadFails (req : request) (env : SetEnv) : Prop :=
  read_all req.msg_len env.reads 0 [] = none ∨ env.check < 0

/-- The call of `set_request` reaches the creation of a new item and
`calloc` returns one: the buffer is there, the payload arrived, and no item
of the table has the key. -/
def CreatesItem (ht : hashtable_t) (req : request) (env : SetEnv) : Prop :=
  ¬ BufferFails req env ∧ ¬ PayloadFails req env ∧ ¬ HasKey ht req.key ∧ env.new_item ≠ 0

end KV

namespace KV

/-! ## Key-value store: the table invariant in the words of the data model -/

/-- The chain `l` of a bucket is a well-formed doubly-linked list: the
`prev` of its head is `NULL`, the `next` of its tail is `NULL`, and every
other item `x` is the `next` of the item `x->prev`, which is in the chain. -/
def WellLinked (ht : hashtable_t) (l : List Nat) : Prop :=
  (∀ h, l.head? = some h → (ht.node h).prev = 0) ∧
    (∀ t, l.getLast? = some t → (ht.node t).next = 0) ∧
    ∀ x ∈ l, l.head? ≠ some x →
      (ht.node x).prev ∈ l ∧ (ht.node (ht.node x).prev).next = x

/-- The table invariant of the data model: `ch b` lists the items reachable
from bucket `b`; every chain is a well-formed doubly-linked list whose items
hash to its bucket, and no two items of the table have the same key. -/
def TableOK (hash : Key → Nat) (ht : hashtable_t) : Prop :=
  ht.capacity = HT_CAPACITY ∧
  ∃ ch : Nat → List Nat,
    (∀ b, b < HT_CAPACITY →
      IsChain ht 0 (ht.items b) (ch b) ∧ WellLinked ht (ch b) ∧
        ∀ p ∈ ch b, hash (ht.node p).key % HT_CAPACITY = b) ∧
    ∀ b1 b2, b1 < HT_CAPACITY → b2 < HT_CAPACITY → ∀ p ∈ ch b1, ∀ q ∈ ch b2,
      (ht.node p).key = (ht.node q).key → p = q

/-! ## Key-value store: lock discipline -/

/-- The item `i` is in the chain of bucket `b`. -/
def InBucket (ht : hashtable_t) (b i : Nat) : Prop :=
  ∃ l, IsChain ht 0 (ht.items b) l ∧ i ∈ l

/-- The item `i` is in the chain of bucket `b` of the table `ht` the handler
starts on or of the table `ht2` it returns (a `del_request` unlinks an
item). -/
def ItemOf (ht ht2 : hashtable_t) (b i : Nat) : Prop :=
  InBucket ht b i ∨ InBucket ht2 b i

/-- The lock discipline of a handler, checked along its trace.  `ms` are
the bucket mutexes held and `rs` the item rwlocks held; `inb b i` says that
item `i` belongs to bucket `b`.  A bucket mutex is taken only while no lock
at all is held; an item rwlock is taken only while the mutex of the
item's bucket is held; a lock is released only while held; and at the end
of the trace nothing is held. -/
def LockOK (inb : Nat → Nat → Prop) : List Nat → List Nat → List Event → Prop
  | ms, rs, [] => ms = [] ∧ rs = []
  | ms, rs, .mutex_lock b :: t => ms = [] ∧ rs = [] ∧ LockOK inb [b] rs t
  | ms, rs, .mutex_unlock b :: t => b ∈ ms ∧ LockOK inb (ms.erase b) rs t
  | ms, rs, .rwlock_rdlock i :: t =>
    (∃ b ∈ ms, inb b i) ∧ i ∉ rs ∧ LockOK inb ms (i :: rs) t
  | ms, rs, .rwlock_wrlock i :: t =>
    (∃ b ∈ ms, inb b i) ∧ i ∉ rs ∧ LockOK inb ms (i :: rs) t
  | ms, rs, .rwlock_unlock i :: t => i ∈ rs ∧ LockOK inb ms (rs.erase i) t
  | ms, rs, .rwlock_destroy i :: t => i ∉ rs ∧ LockOK inb ms rs t
  | ms, rs, .send_response _ _ _ :: t => LockOK inb ms rs t

/-- The bucket mutexes held after the lock operations of `trace`, starting
with `ms` held. -/
def held_mutexes : List Nat → List Event → List Nat
  | ms, [] => ms
  | ms, .mutex_lock b :: t => held_mutexes (b :: ms) t
  | ms, .mutex_unlock b :: t => held_mutexes (ms.erase b) t
  | ms, _ :: t => held_mutexes ms t

/-! ## Key-value store: which request gets which response -/

/-- The copy `get_request` makes cannot be had: the table holds a
non-empty value under `k` and `malloc` returns `NULL`. -/
def CopyFails (ht : hashtable_t) (k : Key) (malloc_ok : Bool) : Prop :=
  malloc_ok = false ∧ ∃ v s, Holds ht k v s ∧ v ≠ none ∧ 0 < s

/-! ## Key-value store: the queue as a list -/

/-- The worker has to wait on the queue `s`: it is empty and `shutdown` is
not set. -/
def must_wait (s : work_queue) : Bool := s.queue_size == 0 && !s.shutdown

/-- The queue an iteration acts on: the first of the states the worker sees
under the lock, `q` on entry and then `wakes` after each wait, on which it
does not have to wait; `none` when there is none. -/
def observed (q : work_queue) (wakes : List work_queue) : Option work_queue :=
  (q :: wakes).find? (fun s => !must_wait s)


/-- The handles waiting in the ring buffer, oldest first. -/
def pending (MAX_QUEUE_SIZE : Nat) (q : work_queue) : List Nat :=
  (List.range q.queue_size).map (fun i => q.job_queue ((q.queue_head + i) % MAX_QUEUE_SIZE))

/-- `n` iterations of the worker with no other thread touching the queue:
the handles taken, in order, and the queue that is left.  The run ends
early when an iteration blocks or leaves the loop. -/
def drain (MAX_QUEUE_SIZE : Nat) : Nat → work_queue → List Nat × work_queue
  | 0, q => ([], q)
  | n + 1, q =>
    match worker_iteration MAX_QUEUE_SIZE q [] with
    | .job conn _ q1 => (conn :: (drain MAX_QUEUE_SIZE n q1).1, (drain MAX_QUEUE_SIZE n q1).2)
    | _ => ([], q)

end KV

namespace KV

/-! ## Key-value store: a concrete table -/

/-- The bytes of the key `x`. -/
def key_x : Key := [120]

/-- A hash function for the examples: the sum of the bytes. -/
def demo_hash : Key → Nat := fun k => k.sum

/-- The environment of `set("x", "hello")`: one read delivers the five bytes,
`calloc` returns the address `8`. -/
def demo_env_hello : SetEnv :=
  { malloc_ok := true, reads := [{ r := 5, bytes := [104, 101, 108, 108, 111] }],
    check := 0, new_item := 8 }

/-- The environment of `set("x", "hi")`: two reads of one byte each. -/
def demo_env_hi : SetEnv :=
  { malloc_ok := true, reads := [{ r := 1, bytes := [104] }, { r := 1, bytes := [105] }],
    check := 0, new_item := 0 }

/-- A request for the key `x`. -/
def demo_req : request := { key := key_x, msg_len := 0, connection_close := false }

/-- The memory of the examples where no item is stored. -/
def demo_node0 : Nat → hash_item_t :=
  fun _ => { key := [], value := none, value_size := 0, next := 0, prev := 0 }

/-- The empty table. -/
def demo_empty : hashtable_t := init_hashtable demo_node0

/-- The table that holds `x -> hello`: the item at address `8` is the only
item of bucket `120`. -/
def demo_table : hashtable_t :=
  { capacity := HT_CAPACITY,
    items := fun b => if b = 120 then 8 else 0,
    node := fun p =>
      if p = 8 then
        { key := key_x, value := some [104, 101, 108, 108, 111], value_size := 5,
          next := 0, prev := 0 }
      else demo_node0 p,
    request_count := 0 }

/-- The buckets of `demo_table`. -/
def demo_chains : Nat → List Nat := fun b => if b = 120 then [8] else []

end KV

namespace KV

/-! ## Key-value store: further concrete inputs -/

/-- A `set_request` whose peer closes the connection after two of five
bytes: the second `read_payload` returns `0`. -/
def env_short : SetEnv :=
  { malloc_ok := true, reads := [{ r := 2, bytes := [104, 101] }, { r := 0, bytes := [] }],
    check := 0, new_item := 0 }

/-- The request `set("x", ...)` announcing five bytes. -/
def req_set5 : request := { key := key_x, msg_len := 5, connection_close := false }

/-- A queue of capacity 4 holding two handles, at slots 3 and 0, with
`shutdown` set. -/
def demo_queue : work_queue :=
  { job_queue := fun i => i + 10, queue_head := 3, queue_size := 2, shutdown := true }

/-- An empty queue of capacity 4 without `shutdown`: the worker waits. -/
def demo_idle : work_queue :=
  { job_queue := fun _ => 0, queue_head := 1, queue_size := 0, shutdown := false }

end KV

namespace Alloc

/-! ## Allocator: bit-level facts -/

theorem FREE_BIT_eq : FREE_BIT = 2 ^ 63 := by decide

theorem SIZE_MASK_eq : SIZE_MASK = 2 ^ 63 - 1 := by decide

theorem land_low_mask (x : Nat) (h : x < 2 ^ 64) : x &&& (2 ^ 64 - 8) = x - x % 8 := by
  have e1 : (2:Nat) ^ 64 - 8 = 2 ^ 3 * (2 ^ 61 - 1) := by norm_num
  have e2 : x - x % 8 = 2 ^ 3 * (x >>> 3) := by
    rw [Nat.shiftRight_eq_div_pow]; norm_num; omega
  rw [e1, e2]
  apply Nat.eq_of_testBit_eq
  intro i
  rw [Nat.testBit_and, Nat.testBit_mul_pow_two, Nat.testBit_mul_pow_two, Nat.testBit_shiftRight,
    Nat.testBit_two_pow_sub_one]
  by_cases h3 : i ≥ 3
  · have : 3 + (i - 3) = i := by omega
    rw [this]
    by_cases h64 : i < 64
    · have : i - 3 < 61 := by omega
      simp [h3, this]
    · have hx : x.testBit i = false := by
        apply Nat.testBit_lt_two_pow
        calc x < 2 ^ 64 := h
          _ ≤ 2 ^ i := Nat.pow_le_pow_right (by norm_num) (by omega)
      simp [hx]
  · simp [h3]

theorem ALIGN_eq (x : Nat) : ALIGN x = (x + 7) % 2 ^ 64 - (x + 7) % 2 ^ 64 % 8 := by
  have h : (x + 7) % 2 ^ 64 < 2 ^ 64 := Nat.mod_lt _ (by norm_num)
  have e : (2 ^ 64 - 1) ^^^ (ALIGNMENT - 1) = 2 ^ 64 - 8 := by decide
  simp only [ALIGN, e]
  exact land_low_mask _ h

theorem lor_free_bit (x : Nat) (h : x < 2 ^ 63) : x ||| 2 ^ 63 = x + 2 ^ 63 := by
  have := Nat.mul_add_lt_is_or h 1
  rw [Nat.mul_one] at this
  rw [Nat.or_comm]; omega

theorem land_size_mask (x : Nat) : x &&& SIZE_MASK = x % 2 ^ 63 := by
  rw [SIZE_MASK_eq]; exact Nat.and_pow_two_sub_one_eq_mod x 63

theorem land_free_bit_lt (x : Nat) (h : x < 2 ^ 63) : x &&& FREE_BIT = 0 := by
  rw [FREE_BIT_eq, Nat.and_two_pow, Nat.testBit_lt_two_pow h]; rfl

theorem lor_status (size : Nat) (free : Bool) (h : size < 2 ^ 63) :
    size ||| (if free then FREE_BIT else 0) = hdr size free := by
  cases free with
  | false => simp [hdr]
  | true =>
    simp only [hdr, FREE_BIT_eq, if_true]
    exact lor_free_bit size h

theorem hdr_size (size : Nat) (free : Bool) (h : size < 2 ^ 63) :
    hdr size free &&& SIZE_MASK = size := by
  rw [land_size_mask]
  cases free with
  | false => simp [hdr]; omega
  | true => simp [hdr]; omega

theorem hdr_free (size : Nat) (free : Bool) (h : size < 2 ^ 63) :
    ((hdr size free &&& FREE_BIT) != 0) = free := by
  cases free with
  | false =>
    rw [land_free_bit_lt _ (by simp [hdr]; omega)]
    rfl
  | true =>
    have hb : (hdr size true).testBit 63 = true := by
      simp only [hdr, if_true]
      rw [Nat.add_comm, Nat.testBit_two_pow_add_eq, Nat.testBit_lt_two_pow h]; rfl
    rw [FREE_BIT_eq, Nat.and_two_pow, hb]
    decide

/-! ## Allocator: tilings and free chains -/

theorem Tiled_append (l2 : List Block) (e : Nat) :
    ∀ (l1 : List Block) (a : Nat),
      Tiled a (l1 ++ l2) e ↔ ∃ m, Tiled a l1 m ∧ Tiled m l2 e := by
  intro l1
  induction l1 with
  | nil =>
    intro a
    constructor
    · intro h; exact ⟨a, rfl, h⟩
    · rintro ⟨m, hm, h⟩
      have : a = m := hm
      rw [this]; exact h
  | cons b t ih =>
    intro a
    constructor
    · rintro ⟨h1, h2, h3, h4⟩
      obtain ⟨m, hm, h⟩ := (ih _).mp h4
      exact ⟨m, ⟨h1, h2, h3, hm⟩, h⟩
    · rintro ⟨m, ⟨h1, h2, h3, hm⟩, h⟩
      exact ⟨h1, h2, h3, (ih _).mpr ⟨m, hm, h⟩⟩

theorem Tiled_le : ∀ (bs : List Block) (a e : Nat), Tiled a bs e → a ≤ e := by
  intro bs
  induction bs with
  | nil => intro a e h; exact le_of_eq h
  | cons b t ih =>
    intro a e h
    obtain ⟨_, _, _, h4⟩ := h
    have := ih _ _ h4
    omega

theorem Tiled_mem : ∀ (bs : List Block) (a e : Nat), Tiled a bs e →
    ∀ b ∈ bs, a ≤ b.addr ∧ b.addr + 8 + b.size ≤ e ∧ 24 ≤ b.size ∧ b.size % 8 = 0 := by
  intro bs
  induction bs with
  | nil => intro _ _ _ b hb; simp at hb
  | cons c t ih =>
    intro a e h b hb
    obtain ⟨h1, h2, h3, h4⟩ := h
    rcases List.mem_cons.mp hb with rfl | hb
    · have := Tiled_le _ _ _ h4
      exact ⟨by omega, by omega, h2, h3⟩
    · have := ih _ _ h4 b hb
      exact ⟨by omega, this.2.1, this.2.2.1, this.2.2.2⟩

theorem Tiled_split {a e : Nat} {l1 l2 : List Block} {x : Block} :
    Tiled a (l1 ++ x :: l2) e ↔
      Tiled a l1 x.addr ∧ 24 ≤ x.size ∧ x.size % 8 = 0 ∧ Tiled (x.addr + 8 + x.size) l2 e := by
  rw [Tiled_append]
  constructor
  · rintro ⟨m, hm, h1, h2, h3, h4⟩
    rw [h1]
    exact ⟨hm, h2, h3, h4⟩
  · rintro ⟨hm, h2, h3, h4⟩
    exact ⟨x.addr, hm, rfl, h2, h3, h4⟩

/-- Every other block of a tiling lies wholly before or wholly after `x`. -/
theorem Tiled_sep {a e : Nat} {l1 l2 : List Block} {x : Block}
    (h : Tiled a (l1 ++ x :: l2) e) :
    ∀ y ∈ l1 ++ l2, 24 ≤ y.size ∧
      (y.addr + 8 + y.size ≤ x.addr ∨ x.addr + 8 + x.size ≤ y.addr) := by
  obtain ⟨h1, _, _, h4⟩ := Tiled_split.mp h
  intro y hy
  rcases List.mem_append.mp hy with hy | hy
  · have := Tiled_mem _ _ _ h1 y hy
    exact ⟨this.2.2.1, Or.inl this.2.1⟩
  · have := Tiled_mem _ _ _ h4 y hy
    exact ⟨this.2.2.1, Or.inr this.1⟩

theorem free_addrs_append (l1 l2 : List Block) :
    free_addrs (l1 ++ l2) = free_addrs l1 ++ free_addrs l2 := by
  simp [free_addrs]

theorem free_addrs_cons (x : Block) (l : List Block) :
    free_addrs (x :: l) = if x.free = true then x.addr :: free_addrs l else free_addrs l := by
  by_cases h : x.free = true <;> simp [free_addrs, List.filter_cons, h]

theorem mem_free_addrs {bs : List Block} {a : Nat} :
    a ∈ free_addrs bs ↔ ∃ b ∈ bs, b.free = true ∧ b.addr = a := by
  simp [free_addrs, and_assoc]

theorem free_addrs_length (bs : List Block) : (free_addrs bs).length ≤ bs.length := by
  simp only [free_addrs, List.length_map]
  exact List.length_filter_le _ _

theorem FreeChain_frame (mem mem2 : Nat → Nat) :
    ∀ (fl : List Nat) (head : Nat), (∀ a ∈ fl, mem2 (a + 8) = mem (a + 8)) →
      FreeChain mem head fl → FreeChain mem2 head fl := by
  intro fl
  induction fl with
  | nil => intro _ _ h; exact h
  | cons a t ih =>
    intro head hag h
    obtain ⟨h1, h2, h3⟩ := h
    refine ⟨h1, h2, ?_⟩
    rw [hag a (List.mem_cons_self _ _)]
    exact ih _ (fun b hb => hag b (List.mem_cons_of_mem _ hb)) h3

theorem FreeChain_ne_zero (mem : Nat → Nat) :
    ∀ (fl : List Nat) (head : Nat), FreeChain mem head fl → ∀ a ∈ fl, a ≠ 0 := by
  intro fl
  induction fl with
  | nil => intro _ _ a ha; simp at ha
  | cons b t ih =>
    intro head h a ha
    obtain ⟨_, h2, h3⟩ := h
    rcases List.mem_cons.mp ha with rfl | ha
    · exact h2
    · exact ih _ h3 a ha

theorem FreeChain_append (mem : Nat → Nat) (l2 : List Nat) :
    ∀ (l1 : List Nat) (head : Nat), FreeChain mem head (l1 ++ l2) →
      ∃ m, FreeChain mem m l2 ∧
        (l1 = [] → m = head) ∧ (∀ c, l1.getLast? = some c → m = mem (c + 8)) := by
  intro l1
  induction l1 with
  | nil => intro head h; exact ⟨head, h, fun _ => rfl, fun c hc => by simp at hc⟩
  | cons a t ih =>
    intro head h
    obtain ⟨h1, h2, h3⟩ := h
    obtain ⟨m, hm, hnil, hlast⟩ := ih _ h3
    refine ⟨m, hm, fun e => by simp at e, ?_⟩
    intro c hc
    cases t with
    | nil =>
      simp at hc
      rw [← hc]; exact hnil rfl
    | cons b t2 =>
      apply hlast
      simpa [List.getLast?_cons_cons] using hc

/-! ## Allocator: reading headers -/

theorem get_size_hdr {s : AllocState} {b size : Nat} {free : Bool}
    (h : s.mem b = hdr size free) (hs : size < 2 ^ 63) : get_size s b = size := by
  rw [get_size, h]; exact hdr_size size free hs

theorem is_free_hdr {s : AllocState} {b size : Nat} {free : Bool}
    (h : s.mem b = hdr size free) (hs : size < 2 ^ 63) : is_free s b = free := by
  rw [is_free, h]; exact hdr_free size free hs

theorem WF_block {s : AllocState} {bs : List Block} {fl : List Nat} (h : WF s bs fl)
    {x : Block} (hx : x ∈ bs) :
    0 < x.addr ∧ x.addr + 8 + x.size ≤ s.brk ∧ 24 ≤ x.size ∧ x.size % 8 = 0 ∧
      x.size < 2 ^ 63 ∧ get_size s x.addr = x.size ∧ is_free s x.addr = x.free := by
  have hm := Tiled_mem _ _ _ h.tiled x hx
  have hb := h.brk_lt
  have hp := h.base_pos
  have hs : x.size < 2 ^ 63 := by omega
  exact ⟨by omega, hm.2.1, hm.2.2.1, hm.2.2.2, hs, get_size_hdr (h.headers x hx) hs,
    is_free_hdr (h.headers x hx) hs⟩

theorem WF_free_mem {s : AllocState} {bs : List Block} {fl : List Nat} (h : WF s bs fl)
    {a : Nat} : a ∈ fl ↔ ∃ b ∈ bs, b.free = true ∧ b.addr = a := by
  rw [h.perm.mem_iff, mem_free_addrs]

theorem WF_fl_length {s : AllocState} {bs : List Block} {fl : List Nat} (h : WF s bs fl) :
    fl.length ≤ bs.length := by
  rw [h.perm.length_eq]; exact free_addrs_length bs

theorem Tiled_pairwise : ∀ (bs : List Block) (a e : Nat), Tiled a bs e →
    bs.Pairwise (fun x y => x.addr + 8 + x.size ≤ y.addr) := by
  intro bs
  induction bs with
  | nil => intro _ _ _; exact List.Pairwise.nil
  | cons b t ih =>
    intro a e h
    obtain ⟨h1, _, _, h4⟩ := h
    refine List.Pairwise.cons ?_ (ih _ _ h4)
    intro y hy
    have := (Tiled_mem _ _ _ h4 y hy).1
    omega

theorem Tiled_addr_nodup {bs : List Block} {a e : Nat} (h : Tiled a bs e) :
    (bs.map (fun b => b.addr)).Nodup := by
  rw [List.Nodup, List.pairwise_map]
  refine List.Pairwise.imp ?_ (Tiled_pairwise bs a e h)
  intro x y hxy; omega

theorem free_addrs_nodup {bs : List Block} {a e : Nat} (h : Tiled a bs e) :
    (free_addrs bs).Nodup :=
  List.Nodup.sublist (List.Sublist.map _ (List.filter_sublist _)) (Tiled_addr_nodup h)

theorem WF_fl_nodup {s : AllocState} {bs : List Block} {fl : List Nat} (h : WF s bs fl) :
    fl.Nodup :=
  (List.Perm.nodup_iff h.perm).mpr (free_addrs_nodup h.tiled)

theorem Tiled_status {a e : Nat} {l1 l2 : List Block} (x y : Block)
    (ha : y.addr = x.addr) (hs : y.size = x.size) :
    Tiled a (l1 ++ x :: l2) e → Tiled a (l1 ++ y :: l2) e := by
  rw [Tiled_split, Tiled_split, ha, hs]
  exact id

@[simp] theorem set_size_and_status_mem (s : AllocState) (b size : Nat) (free : Bool) :
    (set_size_and_status s b size free).mem =
      Function.update s.mem b (size ||| (if free then FREE_BIT else 0)) := rfl

@[simp] theorem set_size_and_status_brk (s : AllocState) (b size : Nat) (free : Bool) :
    (set_size_and_status s b size free).brk = s.brk := rfl

@[simp] theorem set_size_and_status_heap_start (s : AllocState) (b size : Nat) (free : Bool) :
    (set_size_and_status s b size free).heap_start = s.heap_start := rfl

@[simp] theorem set_size_and_status_free_list (s : AllocState) (b size : Nat) (free : Bool) :
    (set_size_and_status s b size free).free_list = s.free_list := rfl

@[simp] theorem insert_to_freelist_mem (s : AllocState) (b : Nat) :
    (insert_to_freelist s b).mem =
      Function.update (Function.update s.mem b (get_size s b ||| FREE_BIT)) (b + 8)
        s.free_list := rfl

@[simp] theorem insert_to_freelist_brk (s : AllocState) (b : Nat) :
    (insert_to_freelist s b).brk = s.brk := rfl

@[simp] theorem insert_to_freelist_heap_start (s : AllocState) (b : Nat) :
    (insert_to_freelist s b).heap_start = s.heap_start := rfl

@[simp] theorem insert_to_freelist_free_list (s : AllocState) (b : Nat) :
    (insert_to_freelist s b).free_list = b := rfl

theorem heap_base_congr {s s2 : AllocState} (h1 : s2.heap_start = s.heap_start)
    (h2 : s2.brk = s.brk) : heap_base s2 = heap_base s := by
  simp [heap_base, h1, h2]

theorem mem_middle {α : Type} {l1 l2 : List α} {x y : α} :
    y ∈ l1 ++ x :: l2 ↔ y = x ∨ y ∈ l1 ++ l2 := by
  simp only [List.mem_append, List.mem_cons]
  tauto

theorem free_addrs_middle (l1 l2 : List Block) (x : Block) :
    free_addrs (l1 ++ x :: l2) =
      free_addrs l1 ++ (if x.free = true then [x.addr] else []) ++ free_addrs l2 := by
  rw [free_addrs_append, free_addrs_cons]
  by_cases h : x.free = true <;> simp [h]

/-- The free-list nodes of a heap in which `x` is allocated are other blocks. -/
theorem WF_fl_other {s : AllocState} {l1 l2 : List Block} {x : Block} {fl : List Nat}
    (h : WF s (l1 ++ x :: l2) fl) (hx : x.free = false) :
    ∀ a ∈ fl, ∃ y ∈ l1 ++ l2, y.free = true ∧ y.addr = a := by
  intro a ha
  obtain ⟨y, hy, hyf, hya⟩ := (WF_free_mem h).mp ha
  rcases mem_middle.mp hy with rfl | hy
  · rw [hx] at hyf; exact absurd hyf (by simp)
  · exact ⟨y, hy, hyf, hya⟩

/-- Pushing an allocated block on the free list keeps the heap well formed. -/
theorem insert_WF {s : AllocState} {l1 l2 : List Block} {x : Block} {fl : List Nat}
    (h : WF s (l1 ++ x :: l2) fl) (hx : x.free = false) :
    WF (insert_to_freelist s x.addr)
      (l1 ++ { addr := x.addr, size := x.size, free := true } :: l2) (x.addr :: fl) := by
  have hxm : x ∈ l1 ++ x :: l2 := by simp
  obtain ⟨hx0, hxe, hx24, hx8, hxs, hgs, _⟩ := WF_block h hxm
  have hsep := Tiled_sep h.tiled
  have hbase : heap_base (insert_to_freelist s x.addr) = heap_base s := heap_base_congr rfl rfl
  have hfl := WF_fl_other h hx
  have hw : x.size ||| FREE_BIT = hdr x.size true := lor_status x.size true hxs
  refine ⟨by rw [hbase]; exact h.base_pos, h.brk_lt, ?_, ?_, ?_, ?_⟩
  · rw [hbase]
    exact Tiled_status x _ rfl rfl h.tiled
  · intro y hy
    simp only [insert_to_freelist_mem, hgs, hw]
    rcases mem_middle.mp hy with rfl | hy
    · rw [Function.update_apply, if_neg (by simp), Function.update_same]
    · have := hsep y hy
      rw [Function.update_apply, if_neg (by omega), Function.update_apply, if_neg (by omega)]
      exact h.headers y (mem_middle.mpr (Or.inr hy))
  · refine ⟨rfl, by omega, ?_⟩
    simp only [insert_to_freelist_mem, Function.update_same]
    apply FreeChain_frame s.mem _ fl _ _ h.chain
    intro a ha
    obtain ⟨y, hy, _, rfl⟩ := hfl a ha
    have := hsep y hy
    rw [Function.update_apply, if_neg (by omega), Function.update_apply, if_neg (by omega)]
  · rw [free_addrs_middle]
    simp only [if_true]
    have := h.perm
    rw [free_addrs_middle, hx] at this
    simp only [Bool.false_eq_true, if_false, List.append_nil] at this
    refine List.Perm.trans (List.Perm.cons _ this) ?_
    simp only [List.append_assoc, List.singleton_append]
    exact List.perm_middle.symm

theorem Tiled_apart {bs : List Block} {a e : Nat} (h : Tiled a bs e) :
    ∀ y ∈ bs, ∀ z ∈ bs, y = z ∨ y.addr + 8 + y.size ≤ z.addr ∨ z.addr + 8 + z.size ≤ y.addr := by
  have hp := Tiled_pairwise bs a e h
  have hp2 : bs.Pairwise (fun y z => y = z ∨ y.addr + 8 + y.size ≤ z.addr ∨
      z.addr + 8 + z.size ≤ y.addr) :=
    List.Pairwise.imp (fun hyz => Or.inr (Or.inl hyz)) hp
  intro y hy z hz
  refine List.Pairwise.forall_of_forall ?_ ?_ hp2 hy hz
  · intro u v huv
    rcases huv with h1 | h1 | h1
    · exact Or.inl h1.symm
    · exact Or.inr (Or.inr h1)
    · exact Or.inr (Or.inl h1)
  · intro u _; exact Or.inl rfl

theorem find_prev_spec (s : AllocState) (b c : Nat) (f2 : List Nat) :
    ∀ (g : List Nat) (head fuel : Nat), FreeChain s.mem head (g ++ c :: b :: f2) →
      b ∉ g → b ≠ c → g.length < fuel → find_prev fuel s b head = some c := by
  intro g
  induction g with
  | nil =>
    intro head fuel h _ hbc hf
    obtain ⟨h1, h2, h3, _⟩ := h
    obtain ⟨f, rfl⟩ : ∃ f, fuel = f + 1 := ⟨fuel - 1, by simp at hf; omega⟩
    have hn : get_next_freelist s c = b := by rw [get_next_freelist]; exact h3
    simp [find_prev, h1, hn]
  | cons d t ih =>
    intro head fuel h hbg hbc hf
    obtain ⟨h1, h2, h3⟩ := h
    obtain ⟨f, rfl⟩ : ∃ f, fuel = f + 1 := ⟨fuel - 1, by simp at hf; omega⟩
    have hbt : b ∉ t := fun hm => hbg (List.mem_cons_of_mem _ hm)
    have hbd : b ≠ d := fun e => hbg (e ▸ List.mem_cons_self _ _)
    have hnext : get_next_freelist s d ≠ b := by
      rw [get_next_freelist]
      show s.mem (d + 8) ≠ b
      cases t with
      | nil => obtain ⟨e, _⟩ := h3; rw [e]; exact Ne.symm hbc
      | cons u t2 =>
        obtain ⟨e, _⟩ := h3; rw [e]
        exact fun e2 => hbt (e2 ▸ List.mem_cons_self _ _)
    have := ih (s.mem (d + 8)) f h3 hbt hbc (by simp at hf; omega)
    simp only [find_prev, h1]
    rw [if_pos ⟨h2, hnext⟩]
    exact this

theorem FreeChain_unlink (mem : Nat → Nat) (b c : Nat) (f2 : List Nat) :
    ∀ (g : List Nat) (head : Nat), FreeChain mem head (g ++ c :: b :: f2) →
      (g ++ c :: b :: f2).Nodup →
      FreeChain (Function.update mem (c + 8) (mem (b + 8))) head (g ++ c :: f2) := by
  intro g
  induction g with
  | nil =>
    intro head h hnd
    obtain ⟨h1, h2, _, _, h5⟩ := h
    refine ⟨h1, h2, ?_⟩
    rw [Function.update_same]
    apply FreeChain_frame mem _ f2 _ _ h5
    intro a ha
    have hac : a ≠ c := by
      rintro rfl
      simp at hnd
      exact hnd.1.2 ha
    rw [Function.update_apply, if_neg (by omega)]
  | cons d t ih =>
    intro head h hnd
    obtain ⟨h1, h2, h3⟩ := h
    have hdc : d ≠ c := by
      rintro rfl
      simp at hnd
    refine ⟨h1, h2, ?_⟩
    rw [Function.update_apply, if_neg (by omega)]
    exact ih _ h3 (List.nodup_cons.mp hnd).2

/-- The link cell of a free-list node is never the header of a block. -/
theorem WF_cell_ne {s : AllocState} {bs : List Block} {fl : List Nat} (h : WF s bs fl) :
    ∀ a ∈ fl, ∀ y ∈ bs, y.addr ≠ a + 8 := by
  intro a ha y hy
  obtain ⟨z, hz, _, rfl⟩ := (WF_free_mem h).mp ha
  have hz24 := (Tiled_mem _ _ _ h.tiled z hz).2.2.1
  rcases Tiled_apart h.tiled y hy z hz with rfl | h1 | h1 <;> omega

theorem lor_zero_hdr (size : Nat) : size ||| (if false = true then FREE_BIT else 0) = hdr size false := by
  simp [hdr]

/-- Unlinking a free block keeps the heap well formed: the block becomes
allocated and the other nodes keep their order. -/
theorem remove_WF {s : AllocState} {l1 l2 : List Block} {x : Block} {fl : List Nat}
    (h : WF s (l1 ++ x :: l2) fl) (hx : x.free = true) {fuel : Nat} (hf : fl.length ≤ fuel) :
    ∃ s2 f1 f2, remove_from_freelist fuel s x.addr = some s2 ∧ fl = f1 ++ x.addr :: f2 ∧
      WF s2 (l1 ++ { addr := x.addr, size := x.size, free := false } :: l2) (f1 ++ f2) ∧
      s2.brk = s.brk ∧ s2.heap_start = s.heap_start ∧
      (f1 ≠ [] → s2.free_list = s.free_list) ∧
      (f1 = [] → s2.free_list = s.mem (x.addr + 8)) ∧
      s2.mem x.addr = hdr x.size false ∧
      (∀ a, a ≠ x.addr → (∀ c ∈ f1, a ≠ c + 8) → s2.mem a = s.mem a) := by
  have hxm : x ∈ l1 ++ x :: l2 := by simp
  obtain ⟨hx0, hxe, hx24, hx8, hxs, hgs, _⟩ := WF_block h hxm
  have hsep := Tiled_sep h.tiled
  have hxfl : x.addr ∈ fl := (WF_free_mem h).mpr ⟨x, hxm, hx, rfl⟩
  obtain ⟨f1, f2, hfl⟩ := List.append_of_mem hxfl
  have hnd := WF_fl_nodup h
  have hchain := h.chain
  have hcell := WF_cell_ne h
  have hperm := h.perm
  rw [hfl] at hnd hchain hcell hperm hf
  -- the nodes other than `x` are blocks other than `x`
  have hother : ∀ a ∈ f1 ++ f2, ∃ y ∈ l1 ++ l2, y.addr = a := by
    intro a ha
    have ha2 : a ∈ fl := by
      rw [hfl]
      rcases List.mem_append.mp ha with ha | ha
      · exact List.mem_append_left _ ha
      · exact List.mem_append_right _ (List.mem_cons_of_mem _ ha)
    obtain ⟨y, hy, _, hya⟩ := (WF_free_mem h).mp ha2
    rcases mem_middle.mp hy with rfl | hy
    · exfalso
      have := List.nodup_middle.mp hnd
      rw [hya] at this
      exact (List.nodup_cons.mp this).1 ha
    · exact ⟨y, hy, hya⟩
  have hperm2 : (f1 ++ f2).Perm
      (free_addrs (l1 ++ { addr := x.addr, size := x.size, free := false } :: l2)) := by
    rw [free_addrs_middle] at hperm ⊢
    simp only [hx, if_true, Bool.false_eq_true, if_false, List.append_nil] at hperm ⊢
    have h1 : (x.addr :: (f1 ++ f2)).Perm (x.addr :: (free_addrs l1 ++ free_addrs l2)) := by
      refine List.Perm.trans List.perm_middle.symm (List.Perm.trans hperm ?_)
      simp only [List.append_assoc, List.singleton_append]
      exact List.perm_middle
    exact List.Perm.cons_inv h1
  have hfl0 : s.free_list ≠ 0 := by
    cases f1 with
    | nil => obtain ⟨e, h0, _⟩ := hchain; rw [e]; exact h0
    | cons d t => obtain ⟨e, h0, _⟩ := hchain; rw [e]; exact h0
  rcases List.eq_nil_or_concat f1 with hnil | ⟨g, c, hcat⟩
  · -- `x` is the head of the list
    subst hnil
    obtain ⟨e, _, hrest⟩ := hchain
    simp only [List.nil_append] at hrest hother hperm2 ⊢
    refine ⟨set_size_and_status { s with free_list := get_next_freelist s x.addr } x.addr
      (get_size s x.addr) false, [], f2, ?_, hfl, ?_, rfl, rfl, fun hne => absurd rfl hne,
      fun _ => rfl, ?_, ?_⟩
    · simp only [remove_from_freelist]
      rw [if_neg hfl0, if_pos e]
      rfl
    · refine ⟨h.base_pos, h.brk_lt, Tiled_status x _ rfl rfl h.tiled, ?_, ?_, hperm2⟩
      · intro y hy
        simp only [set_size_and_status_mem, hgs, lor_zero_hdr]
        rcases mem_middle.mp hy with rfl | hy
        · rw [Function.update_same]
        · have := hsep y hy
          rw [Function.update_apply, if_neg (by omega)]
          exact h.headers y (mem_middle.mpr (Or.inr hy))
      · show FreeChain _ (s.mem (x.addr + 8)) f2
        apply FreeChain_frame s.mem _ f2 _ _ hrest
        intro a ha
        obtain ⟨y, hy, rfl⟩ := hother a ha
        have := hsep y hy
        simp only [set_size_and_status_mem]
        rw [Function.update_apply, if_neg (by omega)]
    · simp only [set_size_and_status_mem, hgs, lor_zero_hdr, Function.update_same]
    · intro a ha _
      simp only [set_size_and_status_mem]
      rw [Function.update_apply, if_neg ha]
  · -- `x` follows the node `c`
    rw [List.concat_eq_append] at hcat
    subst hcat
    simp only [List.append_assoc, List.singleton_append] at hchain hnd hcell hf hother hperm2
    have hcm : c ∈ g ++ c :: x.addr :: f2 := by simp
    have hc0 : c ≠ 0 := FreeChain_ne_zero _ _ _ hchain c hcm
    have hxc : x.addr ≠ c + 8 := hcell c hcm x hxm
    have hxg : x.addr ∉ g := by
      intro hm
      have := List.nodup_append.mp hnd
      exact this.2.2 hm (by simp)
    have hxnc : x.addr ≠ c := by
      rintro e
      have := (List.nodup_append.mp hnd).2.1
      rw [e] at this
      simp at this
    have hhead : s.free_list ≠ x.addr := by
      cases g with
      | nil => obtain ⟨e, _⟩ := hchain; rw [e]; exact Ne.symm hxnc
      | cons d t =>
        obtain ⟨e, _⟩ := hchain; rw [e]
        exact fun e2 => hxg (e2 ▸ List.mem_cons_self _ _)
    have hfind := find_prev_spec s x.addr c f2 g s.free_list fuel hchain hxg hxnc
      (by simp at hf; omega)
    have hgs1 : get_size (set_next_freelist s c (get_next_freelist s x.addr)) x.addr = x.size := by
      rw [← hgs]
      simp only [get_size, set_next_freelist, METADATA_SIZE]
      rw [Function.update_apply, if_neg hxc]
    refine ⟨set_size_and_status (set_next_freelist s c (get_next_freelist s x.addr)) x.addr
      x.size false, g ++ [c], f2, ?_, by simp [hfl], ?_, rfl, rfl, fun _ => rfl,
      fun e => by simp at e, ?_, ?_⟩
    · simp only [remove_from_freelist, hfl0, if_false, hhead, hfind, hc0, ne_eq, not_false_eq_true,
        if_true, hgs1]
    · have hunlink := FreeChain_unlink s.mem x.addr c f2 g s.free_list hchain hnd
      refine ⟨h.base_pos, h.brk_lt, Tiled_status x _ rfl rfl h.tiled, ?_, ?_, by simpa using hperm2⟩
      · intro y hy
        simp only [set_size_and_status_mem, lor_zero_hdr, set_next_freelist, METADATA_SIZE]
        rcases mem_middle.mp hy with rfl | hy
        · rw [Function.update_same]
        · have := hsep y hy
          have hyc := hcell c hcm y (mem_middle.mpr (Or.inr hy))
          rw [Function.update_apply, if_neg (by omega), Function.update_apply, if_neg hyc]
          exact h.headers y (mem_middle.mpr (Or.inr hy))
      · simp only [List.append_assoc, List.singleton_append]
        apply FreeChain_frame _ _ _ _ _ hunlink
        intro a ha
        obtain ⟨y, hy, rfl⟩ := hother a ha
        have := hsep y hy
        simp only [set_size_and_status_mem, set_next_freelist, METADATA_SIZE, get_next_freelist]
        rw [Function.update_apply, if_neg (by omega)]
    · simp only [set_size_and_status_mem, lor_zero_hdr, Function.update_same]
    · intro a ha hac
      have : a ≠ c + 8 := hac c (by simp)
      simp only [set_size_and_status_mem, set_next_freelist, METADATA_SIZE]
      rw [Function.update_apply, if_neg ha, Function.update_apply, if_neg this]

/-- Absorbing the allocated successor `y` into the free block `x`. -/
theorem merge_WF {s : AllocState} {l1 l2 : List Block} {x y : Block} {fl : List Nat}
    (h : WF s (l1 ++ x :: y :: l2) fl) (hx : x.free = true) (hy : y.free = false) :
    WF (set_size_and_status s x.addr ((get_size s x.addr + METADATA_SIZE + get_size s y.addr) % 2 ^ 64)
        true)
      (l1 ++ { addr := x.addr, size := x.size + 8 + y.size, free := true } :: l2) fl := by
  have hxm : x ∈ l1 ++ x :: y :: l2 := by simp
  have hym : y ∈ l1 ++ x :: y :: l2 := by simp
  obtain ⟨hx0, hxe, hx24, hx8, hxs, hgx, _⟩ := WF_block h hxm
  obtain ⟨hy0, hye, hy24, hy8, hys, hgy, _⟩ := WF_block h hym
  have hbrk := h.brk_lt
  obtain ⟨ht1, _, _, ht2⟩ := Tiled_split.mp h.tiled
  obtain ⟨hya, _, _, ht3⟩ := ht2
  have hsum : (x.size + 8 + y.size) % 2 ^ 64 = x.size + 8 + y.size := by omega
  have hmem : (set_size_and_status s x.addr
      ((get_size s x.addr + METADATA_SIZE + get_size s y.addr) % 2 ^ 64) true).mem =
      Function.update s.mem x.addr (hdr (x.size + 8 + y.size) true) := by
    rw [set_size_and_status_mem, hgx, hgy, show METADATA_SIZE = 8 from rfl, hsum,
      lor_status _ true (by omega)]
  have hsep := Tiled_sep h.tiled
  have hsub : ∀ z ∈ l1 ++ l2, z ∈ l1 ++ x :: y :: l2 ∧ z.addr ≠ x.addr := by
    intro z hz
    have hz2 : z ∈ l1 ++ y :: l2 := mem_middle.mpr (Or.inr hz)
    have := hsep z hz2
    exact ⟨mem_middle.mpr (Or.inr hz2), by omega⟩
  refine ⟨h.base_pos, h.brk_lt, ?_, ?_, ?_, ?_⟩
  · apply Tiled_split.mpr
    refine ⟨ht1, by simp only; omega, by simp only; omega, ?_⟩
    have e : x.addr + 8 + (x.size + 8 + y.size) = x.addr + 8 + x.size + 8 + y.size := by omega
    simp only [set_size_and_status_brk]
    rw [e]; exact ht3
  · intro z hz
    rw [hmem]
    rcases mem_middle.mp hz with rfl | hz
    · rw [Function.update_same]
    · rw [Function.update_apply, if_neg (hsub z hz).2]
      exact h.headers z (hsub z hz).1
  · apply FreeChain_frame s.mem _ fl _ _ h.chain
    intro a ha
    have := WF_cell_ne h a ha x hxm
    rw [hmem, Function.update_apply, if_neg (by omega)]
  · have := h.perm
    rw [free_addrs_middle, free_addrs_cons, hx, hy] at this
    rw [free_addrs_middle]
    simpa using this

/-- Writing the two headers of a split turns the allocated block `x` into
two allocated blocks. -/
theorem carve_WF {s : AllocState} {l1 l2 : List Block} {x : Block} {fl : List Nat}
    (h : WF s (l1 ++ x :: l2) fl) (hx : x.free = false) {R : Nat} (hR : 24 ≤ R)
    (hR8 : R % 8 = 0) (hfit : R + 32 ≤ x.size) :
    WF (set_size_and_status (set_size_and_status s (x.addr + 8 + R) (x.size - R - 8) false)
        x.addr R false)
      (l1 ++ { addr := x.addr, size := R, free := false } ::
        { addr := x.addr + 8 + R, size := x.size - R - 8, free := false } :: l2) fl := by
  have hxm : x ∈ l1 ++ x :: l2 := by simp
  obtain ⟨hx0, hxe, hx24, hx8, hxs, hgx, _⟩ := WF_block h hxm
  obtain ⟨ht1, _, _, ht2⟩ := Tiled_split.mp h.tiled
  have hsep := Tiled_sep h.tiled
  have hfl := WF_fl_other h hx
  refine ⟨h.base_pos, h.brk_lt, ?_, ?_, ?_, ?_⟩
  · apply Tiled_split.mpr
    refine ⟨ht1, hR, hR8, rfl, by simp only; omega, by simp only; omega, ?_⟩
    have e : x.addr + 8 + R + 8 + (x.size - R - 8) = x.addr + 8 + x.size := by omega
    simp only [set_size_and_status_brk]
    rw [e]; exact ht2
  · intro z hz
    simp only [set_size_and_status_mem, lor_zero_hdr]
    rcases mem_middle.mp hz with rfl | hz
    · rw [Function.update_same]
    · rcases mem_middle.mp hz with rfl | hz2
      · rw [Function.update_apply, if_neg (by simp only; omega), Function.update_same]
      · have := hsep z hz2
        rw [Function.update_apply, if_neg (by omega), Function.update_apply, if_neg (by omega)]
        exact h.headers z (mem_middle.mpr (Or.inr hz2))
  · apply FreeChain_frame s.mem _ fl _ _ h.chain
    intro a ha
    obtain ⟨z, hz, _, rfl⟩ := hfl a ha
    have := hsep z hz
    simp only [set_size_and_status_mem]
    rw [Function.update_apply, if_neg (by omega), Function.update_apply, if_neg (by omega)]
  · have := h.perm
    rw [free_addrs_middle, hx] at this
    rw [free_addrs_middle, free_addrs_cons]
    simpa using this

/-- Appending a block obtained from `sbrk`. -/
theorem grow_WF {s : AllocState} {bs : List Block} {fl : List Nat} (h : WF s bs fl)
    {R : Nat} (hR : 24 ≤ R) (hR8 : R % 8 = 0) (hlt : s.brk + (R + 8) < 2 ^ 63) :
    WF (set_size_and_status
        (if s.heap_start = 0 then
          { mem := s.mem, heap_start := s.brk, free_list := s.free_list, brk := s.brk + (R + 8) }
        else { mem := s.mem, heap_start := s.heap_start, free_list := s.free_list,
               brk := s.brk + (R + 8) })
        s.brk R false)
      (bs ++ [{ addr := s.brk, size := R, free := false }]) fl := by
  have hpos := h.base_pos
  have hle := Tiled_le _ _ _ h.tiled
  have hbrk0 : 0 < s.brk := by omega
  have hb : heap_base (set_size_and_status
        (if s.heap_start = 0 then
          { mem := s.mem, heap_start := s.brk, free_list := s.free_list, brk := s.brk + (R + 8) }
        else { mem := s.mem, heap_start := s.heap_start, free_list := s.free_list,
               brk := s.brk + (R + 8) })
        s.brk R false) = heap_base s := by
    by_cases h0 : s.heap_start = 0
    · simp [heap_base, h0]; omega
    · simp [heap_base, h0]
  have hbrk : (set_size_and_status
        (if s.heap_start = 0 then
          { mem := s.mem, heap_start := s.brk, free_list := s.free_list, brk := s.brk + (R + 8) }
        else { mem := s.mem, heap_start := s.heap_start, free_list := s.free_list,
               brk := s.brk + (R + 8) })
        s.brk R false).brk = s.brk + (R + 8) := by
    by_cases h0 : s.heap_start = 0 <;> simp [h0]
  have hmem : (set_size_and_status
        (if s.heap_start = 0 then
          { mem := s.mem, heap_start := s.brk, free_list := s.free_list, brk := s.brk + (R + 8) }
        else { mem := s.mem, heap_start := s.heap_start, free_list := s.free_list,
               brk := s.brk + (R + 8) })
        s.brk R false).mem = Function.update s.mem s.brk (hdr R false) := by
    by_cases h0 : s.heap_start = 0 <;> simp [h0, hdr]
  have hfl : (set_size_and_status
        (if s.heap_start = 0 then
          { mem := s.mem, heap_start := s.brk, free_list := s.free_list, brk := s.brk + (R + 8) }
        else { mem := s.mem, heap_start := s.heap_start, free_list := s.free_list,
               brk := s.brk + (R + 8) })
        s.brk R false).free_list = s.free_list := by
    by_cases h0 : s.heap_start = 0 <;> simp [h0]
  refine ⟨by rw [hb]; exact hpos, by rw [hbrk]; exact hlt, ?_, ?_, ?_, ?_⟩
  · rw [hb, hbrk]
    apply (Tiled_append _ _ _ _).mpr
    exact ⟨s.brk, h.tiled, rfl, hR, hR8, by show s.brk + 8 + R = s.brk + (R + 8); omega⟩
  · intro z hz
    rw [hmem]
    rcases List.mem_append.mp hz with hz | hz
    · have := (Tiled_mem _ _ _ h.tiled z hz).2.1
      rw [Function.update_apply, if_neg (by omega)]
      exact h.headers z hz
    · simp only [List.mem_singleton] at hz
      subst hz
      rw [Function.update_same]
  · rw [hmem, hfl]
    apply FreeChain_frame s.mem _ fl _ _ h.chain
    intro a ha
    obtain ⟨z, hz, _, rfl⟩ := (WF_free_mem h).mp ha
    have := Tiled_mem _ _ _ h.tiled z hz
    rw [Function.update_apply, if_neg (by omega)]
  · rw [free_addrs_append]
    simpa [free_addrs] using h.perm

/-! ## Allocator: the pieces of `mymalloc` -/

theorem request_size_bounds {n : Nat} (hn : n ≤ 2 ^ 64 - 8) :
    24 ≤ request_size n ∧ request_size n % 8 = 0 ∧ n ≤ request_size n ∧
      request_size n ≤ 2 ^ 64 - 8 ∧ (n ≤ 2 ^ 64 - 16 → request_size n ≤ 2 ^ 64 - 16) := by
  by_cases h : n < 24
  · simp only [request_size, MIN_ALLOC, h, if_true, ALIGN_eq]
    omega
  · simp only [request_size, MIN_ALLOC, h, if_false, ALIGN_eq]
    omega

theorem request_size_wrap {n : Nat} (hn : 2 ^ 64 - 8 < n) (hlt : n < 2 ^ 64) :
    request_size n = 0 := by
  have h : ¬ n < 24 := by omega
  simp only [request_size, MIN_ALLOC, h, if_false, ALIGN_eq]
  omega

/-- For a request of at most `2 ^ 63 - 16` bytes the increment passed to
`sbrk` is not negative. -/
theorem request_size_small {n : Nat} (hn : n ≤ 2 ^ 63 - 16) :
    request_size n + 8 < 2 ^ 63 := by
  by_cases h : n < 24
  · simp only [request_size, MIN_ALLOC, h, if_true, ALIGN_eq]
    omega
  · simp only [request_size, MIN_ALLOC, h, if_false, ALIGN_eq]
    omega

theorem first_fit_spec (s : AllocState) (R : Nat) :
    ∀ (fl : List Nat) (head fuel : Nat), FreeChain s.mem head fl → fl.length < fuel →
      ∃ b, first_fit fuel s R head = some b ∧
        ((b = 0 ∧ ∀ a ∈ fl, get_size s a < R) ∨
          (b ≠ 0 ∧ ∃ f1 f2, fl = f1 ++ b :: f2 ∧ (∀ a ∈ f1, get_size s a < R) ∧
            R ≤ get_size s b)) := by
  intro fl
  induction fl with
  | nil =>
    intro head fuel h hf
    have h0 : head = 0 := h
    obtain ⟨f, rfl⟩ : ∃ f, fuel = f + 1 := ⟨fuel - 1, by simp at hf; omega⟩
    exact ⟨0, by simp [first_fit, h0], Or.inl ⟨rfl, by simp⟩⟩
  | cons a t ih =>
    intro head fuel h hf
    obtain ⟨h1, h2, h3⟩ := h
    obtain ⟨f, rfl⟩ : ∃ f, fuel = f + 1 := ⟨fuel - 1, by simp at hf; omega⟩
    subst h1
    by_cases hfit : get_size s head < R
    · obtain ⟨b, hb, hcase⟩ := ih _ f h3 (by simp at hf; omega)
      refine ⟨b, ?_, ?_⟩
      · simp only [first_fit]
        rw [if_pos ⟨h2, hfit⟩]
        exact hb
      · rcases hcase with ⟨hb0, hall⟩ | ⟨hb0, f1, f2, hfl, hall, hge⟩
        · left
          refine ⟨hb0, ?_⟩
          intro c hc
          rcases List.mem_cons.mp hc with rfl | hc
          · exact hfit
          · exact hall c hc
        · right
          refine ⟨hb0, head :: f1, f2, by rw [hfl]; rfl, ?_, hge⟩
          intro c hc
          rcases List.mem_cons.mp hc with rfl | hc
          · exact hfit
          · exact hall c hc
    · refine ⟨head, ?_, Or.inr ⟨h2, [], t, rfl, by simp, by omega⟩⟩
      simp only [first_fit]
      rw [if_neg (fun hc => hfit hc.2)]

theorem sbrk_cases (s : AllocState) (inc : Nat) (ok : Bool) :
    (inc = 0 ∧ sbrk s inc ok = (s, s.brk)) ∨
      (inc ≠ 0 ∧ inc < 2 ^ 63 ∧ ok = true ∧ s.brk + inc < 2 ^ 63 ∧
        sbrk s inc ok = ({ s with brk := s.brk + inc }, s.brk)) ∨
      (2 ^ 63 ≤ inc ∧ ok = true ∧ 2 ^ 64 - inc < s.brk ∧
        sbrk s inc ok = ({ s with brk := s.brk - (2 ^ 64 - inc) }, s.brk)) ∨
      (inc ≠ 0 ∧ sbrk s inc ok = (s, SBRK_FAILED)) := by
  by_cases h0 : inc = 0
  · left; exact ⟨h0, by simp [sbrk, h0]⟩
  · by_cases hpos : inc < 2 ^ 63
    · by_cases hok : ok = true ∧ s.brk + inc < 2 ^ 63
      · right; left
        refine ⟨h0, hpos, hok.1, hok.2, ?_⟩
        simp only [sbrk]
        rw [if_neg h0, if_pos hpos, if_pos hok]
      · right; right; right
        refine ⟨h0, ?_⟩
        simp only [sbrk]
        rw [if_neg h0, if_pos hpos, if_neg hok]
    · by_cases hok : ok = true ∧ 2 ^ 64 - inc < s.brk
      · right; right; left
        refine ⟨by omega, hok.1, hok.2, ?_⟩
        simp only [sbrk]
        rw [if_neg h0, if_neg hpos, if_pos hok]
      · right; right; right
        refine ⟨h0, ?_⟩
        simp only [sbrk]
        rw [if_neg h0, if_neg hpos, if_neg hok]

/-- The answers of `sbrk` to an increment that is not negative. -/
theorem sbrk_pos_cases (s : AllocState) (inc : Nat) (ok : Bool) (hpos : inc < 2 ^ 63) :
    (inc = 0 ∧ sbrk s inc ok = (s, s.brk)) ∨
      (inc ≠ 0 ∧ ok = true ∧ s.brk + inc < 2 ^ 63 ∧
        sbrk s inc ok = ({ s with brk := s.brk + inc }, s.brk)) ∨
      (inc ≠ 0 ∧ ¬ (ok = true ∧ s.brk + inc < 2 ^ 63) ∧ sbrk s inc ok = (s, SBRK_FAILED)) := by
  by_cases h0 : inc = 0
  · left; exact ⟨h0, by simp [sbrk, h0]⟩
  · by_cases hok : ok = true ∧ s.brk + inc < 2 ^ 63
    · right; left
      refine ⟨h0, hok.1, hok.2, ?_⟩
      simp only [sbrk]
      rw [if_neg h0, if_pos hpos, if_pos hok]
    · right; right
      refine ⟨h0, hok, ?_⟩
      simp only [sbrk]
      rw [if_neg h0, if_pos hpos, if_neg hok]

theorem sub_size_eq {a b : Nat} (hb : b ≤ a) (ha : a < 2 ^ 64) : sub_size a b = a - b := by
  simp only [sub_size]
  omega

theorem set_free_mem (s : AllocState) (b size : Nat) :
    (set_size_and_status s b size true).mem = Function.update s.mem b (size ||| FREE_BIT) := rfl

theorem set_used_mem (s : AllocState) (b size : Nat) :
    (set_size_and_status s b size false).mem = Function.update s.mem b size := by
  simp [set_size_and_status]

theorem insert_to_freelist_congr {t t2 : AllocState} {nb : Nat}
    (h1 : t.heap_start = t2.heap_start) (h2 : t.brk = t2.brk) (h3 : t.free_list = t2.free_list)
    (h4 : get_size t nb = get_size t2 nb) (h5 : ∀ a, a ≠ nb → t.mem a = t2.mem a) :
    insert_to_freelist t nb = insert_to_freelist t2 nb := by
  have hmem : (insert_to_freelist t nb).mem = (insert_to_freelist t2 nb).mem := by
    funext a
    simp only [insert_to_freelist_mem, h3, h4, Function.update_apply]
    by_cases ha8 : a = nb + 8
    · rw [if_pos ha8, if_pos ha8]
    · rw [if_neg ha8, if_neg ha8]
      by_cases ha : a = nb
      · rw [if_pos ha, if_pos ha]
      · rw [if_neg ha, if_neg ha]
        exact h5 a ha
  have e : ∀ u : AllocState, u = ⟨u.mem, u.heap_start, u.free_list, u.brk⟩ := fun u => rfl
  rw [e (insert_to_freelist t nb), e (insert_to_freelist t2 nb), hmem]
  simp only [insert_to_freelist_heap_start, insert_to_freelist_brk,
    insert_to_freelist_free_list, h1, h2]

/-- When it splits, `split_block` is the two header writes followed by the
insertion of the remainder into the free list. -/
theorem split_block_eq {s : AllocState} {b R total : Nat} (hts : get_size s b = total)
    (ht : total < 2 ^ 63) (hfit : R + 32 ≤ total) :
    split_block s b R =
      insert_to_freelist
        (set_size_and_status (set_size_and_status s (b + 8 + R) (total - R - 8) false) b R false)
        (b + 8 + R) := by
  have hguard : (R + METADATA_SIZE + MIN_ALLOC) % 2 ^ 64 ≤ get_size s b := by
    rw [hts]; simp only [METADATA_SIZE, MIN_ALLOC]; omega
  have hsub : sub_size (sub_size total R) METADATA_SIZE = total - R - 8 := by
    simp only [sub_size, METADATA_SIZE]; omega
  have hlt : total - R - 8 < 2 ^ 63 := by omega
  simp only [split_block]
  rw [if_pos hguard, hts, hsub]
  have hne : b + 8 + R ≠ b := by omega
  simp only [METADATA_SIZE]
  refine insert_to_freelist_congr ?_ ?_ ?_ ?_ ?_
  · rfl
  · rfl
  · rfl
  · simp only [get_size, set_free_mem, set_used_mem]
    rw [Function.update_apply, if_neg hne, Function.update_same,
      Function.update_apply, if_neg hne, Function.update_same]
    rw [show total - R - 8 ||| FREE_BIT = hdr (total - R - 8) true from lor_status _ true hlt,
      hdr_size _ _ hlt]
    rw [land_size_mask]; omega
  · intro a ha
    simp only [set_free_mem, set_used_mem]
    by_cases hab : a = b
    · rw [hab, Function.update_same, Function.update_same]
    · rw [Function.update_apply, if_neg hab, Function.update_apply, if_neg ha,
        Function.update_apply, if_neg hab, Function.update_apply, if_neg ha]

/-- Splitting an allocated block of a well-formed heap. -/
theorem split_WF {s : AllocState} {l1 l2 : List Block} {x : Block} {fl : List Nat}
    (h : WF s (l1 ++ x :: l2) fl) (hx : x.free = false) {R : Nat} (hR : 24 ≤ R)
    (hR8 : R % 8 = 0) (hfit : R + 32 ≤ x.size) :
    WF (split_block s x.addr R)
      (l1 ++ { addr := x.addr, size := R, free := false } ::
        { addr := x.addr + 8 + R, size := x.size - R - 8, free := true } :: l2)
      ((x.addr + 8 + R) :: fl) := by
  have hxm : x ∈ l1 ++ x :: l2 := by simp
  obtain ⟨_, _, _, _, hxs, hgx, _⟩ := WF_block h hxm
  rw [split_block_eq hgx hxs hfit]
  have hc := carve_WF h hx hR hR8 hfit
  have hc2 : WF (set_size_and_status (set_size_and_status s (x.addr + 8 + R) (x.size - R - 8) false)
        x.addr R false)
      ((l1 ++ [{ addr := x.addr, size := R, free := false }]) ++
        { addr := x.addr + 8 + R, size := x.size - R - 8, free := false } :: l2) fl := by
    simpa using hc
  have := insert_WF hc2 rfl
  simpa using this

theorem split_block_none {s : AllocState} {b R : Nat} (hfit : get_size s b < R + 32)
    (hR : R + 32 < 2 ^ 64) : split_block s b R = s := by
  have hguard : ¬ (R + METADATA_SIZE + MIN_ALLOC) % 2 ^ 64 ≤ get_size s b := by
    simp only [METADATA_SIZE, MIN_ALLOC]; omega
  simp only [split_block]
  rw [if_neg hguard]

/-! ## Allocator: `coalesce` and `myfree` -/

theorem block_eta (x : Block) {f : Bool} (hx : x.free = f) :
    ({ addr := x.addr, size := x.size, free := f } : Block) = x := by
  cases x; simp only at hx; rw [hx]

theorem head_of_chain {mem : Nat → Nat} {head a : Nat} {fl : List Nat}
    (h : FreeChain mem head (a :: fl)) : head = a := h.1

/-- `coalesce` on a free block `x` of a well-formed heap absorbs the
maximal run of free blocks that follow `x`. -/
theorem coalesce_spec :
    ∀ (l2 : List Block) (s : AllocState) (l1 : List Block) (x : Block) (fl : List Nat)
      (fuel : Nat), WF s (l1 ++ x :: l2) fl → x.free = true → l2.length + fl.length < fuel →
      ∃ s2 run rest fl2, coalesce fuel s x.addr = some s2 ∧ l2 = run ++ rest ∧
        (∀ y ∈ run, y.free = true) ∧ (∀ y, rest.head? = some y → y.free = false) ∧
        WF s2 (l1 ++ { addr := x.addr, size := absorbed x.size run, free := true } :: rest) fl2 ∧
        fl2.Sublist fl ∧ s2.brk = s.brk ∧ s2.heap_start = s.heap_start ∧
        (s.free_list = x.addr → s2.free_list = x.addr) := by
  intro l2
  induction l2 with
  | nil =>
    intro s l1 x fl fuel h hx hf
    obtain ⟨f, rfl⟩ : ∃ f, fuel = f + 1 := ⟨fuel - 1, by omega⟩
    have hxm : x ∈ l1 ++ [x] := by simp
    obtain ⟨_, _, _, _, _, hgx, _⟩ := WF_block h hxm
    obtain ⟨_, _, _, hend⟩ := Tiled_split.mp h.tiled
    have hend2 : x.addr + 8 + x.size = s.brk := hend
    refine ⟨s, [], [], fl, ?_, rfl, by simp, by simp, ?_, List.Sublist.refl _, rfl, rfl, id⟩
    · simp only [coalesce, get_next_physical_block, hgx, METADATA_SIZE]
      rw [if_neg (by omega)]
    · simpa [absorbed, block_eta x hx] using h
  | cons y t ih =>
    intro s l1 x fl fuel h hx hf
    obtain ⟨f, rfl⟩ : ∃ f, fuel = f + 1 := ⟨fuel - 1, by omega⟩
    have hxm : x ∈ l1 ++ x :: y :: t := by simp
    have hym : y ∈ l1 ++ x :: y :: t := by simp
    obtain ⟨_, _, _, _, _, hgx, _⟩ := WF_block h hxm
    obtain ⟨_, hye, _, _, _, _, hfy⟩ := WF_block h hym
    obtain ⟨_, _, _, hya, _⟩ := Tiled_split.mp h.tiled
    have hya2 : y.addr = x.addr + 8 + x.size := hya
    have hnext : get_next_physical_block s x.addr = y.addr := by
      simp only [get_next_physical_block, hgx, METADATA_SIZE]; omega
    by_cases hy : y.free = true
    · -- the successor is free: unlink it, absorb it, go on
      have h2 : WF s ((l1 ++ [x]) ++ y :: t) fl := by simpa using h
      obtain ⟨s1, f1, f2, hrem, hfl, hwf1, hbrk1, hhs1, hfl1, _, _, _⟩ :=
        remove_WF h2 hy (show fl.length ≤ f by omega)
      have hwf1b : WF s1 (l1 ++ x :: { addr := y.addr, size := y.size, free := false } :: t)
          (f1 ++ f2) := by simpa using hwf1
      have hmerge := merge_WF hwf1b hx rfl
      have hlen : t.length + (f1 ++ f2).length < f := by
        rw [hfl] at hf
        simp only [List.length_cons, List.length_append] at hf ⊢
        omega
      obtain ⟨s2, run, rest, fl2, hco, ht, hrun, hrest, hwf2, hsub, hbrk2, hhs2, hfl2⟩ :=
        ih _ l1 { addr := x.addr, size := x.size + 8 + y.size, free := true } (f1 ++ f2) f
          hmerge rfl hlen
      refine ⟨s2, y :: run, rest, fl2, ?_, by rw [ht]; rfl, ?_, hrest, ?_, ?_, ?_, ?_, ?_⟩
      · simp only [coalesce, hnext]
        rw [if_pos ⟨by omega, by rw [hfy]; exact hy⟩, hrem]
        exact hco
      · intro z hz
        rcases List.mem_cons.mp hz with rfl | hz
        · exact hy
        · exact hrun z hz
      · have e : absorbed x.size (y :: run) = absorbed (x.size + 8 + y.size) run := by
          simp only [absorbed, List.map_cons, List.sum_cons]; omega
        rw [e]; exact hwf2
      · rw [hfl]
        exact hsub.trans (List.Sublist.append_left (List.sublist_cons_self _ _) _)
      · rw [hbrk2]; simp only [set_size_and_status_brk]; exact hbrk1
      · rw [hhs2]; simp only [set_size_and_status_heap_start]; exact hhs1
      · intro hhead
        apply hfl2
        simp only [set_size_and_status_free_list]
        have hf1 : f1 ≠ [] := by
          rintro rfl
          have hc := h.chain
          rw [hfl] at hc
          have := head_of_chain hc
          omega
        rw [hfl1 hf1]; exact hhead
    · -- the successor is allocated: nothing to do
      simp only [Bool.not_eq_true] at hy
      refine ⟨s, [], y :: t, fl, ?_, rfl, by simp, ?_, ?_, List.Sublist.refl _, rfl, rfl, id⟩
      · simp only [coalesce, hnext]
        rw [if_neg (by rw [hfy, hy]; simp)]
      · intro z hz
        simp only [List.head?_cons, Option.some.injEq] at hz
        rw [← hz]; exact hy
      · simpa [absorbed, block_eta x hx] using h

/-- `myfree` on the payload pointer of an allocated block `x` of a
well-formed heap: `x` becomes the head of the free list and absorbs the
maximal run of free blocks that follow it. -/
theorem myfree_spec {s : AllocState} {l1 l2 : List Block} {x : Block} {fl : List Nat}
    (h : WF s (l1 ++ x :: l2) fl) (hx : x.free = false) {fuel : Nat}
    (hf : l2.length + fl.length + 1 < fuel) :
    ∃ s2 run rest fl2, myfree fuel s (x.addr + 8) = some s2 ∧ l2 = run ++ rest ∧
      (∀ y ∈ run, y.free = true) ∧ (∀ y, rest.head? = some y → y.free = false) ∧
      WF s2 (l1 ++ { addr := x.addr, size := absorbed x.size run, free := true } :: rest) fl2 ∧
      fl2.Sublist (x.addr :: fl) ∧ s2.brk = s.brk ∧ s2.heap_start = s.heap_start ∧
      s2.free_list = x.addr := by
  have hins := insert_WF h hx
  obtain ⟨s2, run, rest, fl2, hco, hl2, hrun, hrest, hwf, hsub, hbrk, hhs, hfl⟩ :=
    coalesce_spec l2 _ l1 { addr := x.addr, size := x.size, free := true } (x.addr :: fl) fuel
      hins rfl (by simp only [List.length_cons]; omega)
  refine ⟨s2, run, rest, fl2, ?_, hl2, hrun, hrest, hwf, hsub, hbrk, hhs, hfl rfl⟩
  simp only [myfree, METADATA_SIZE]
  rw [if_neg (by omega), Nat.add_sub_cancel]
  exact hco

theorem nodup_split_unique {α : Type} {x : α} :
    ∀ (a1 a2 b1 b2 : List α), a1 ++ x :: a2 = b1 ++ x :: b2 → (a1 ++ x :: a2).Nodup →
      a1 = b1 ∧ a2 = b2 := by
  intro a1
  induction a1 with
  | nil =>
    intro a2 b1 b2 he hnd
    cases b1 with
    | nil => simp at he; exact ⟨rfl, he⟩
    | cons c t =>
      simp only [List.nil_append, List.cons_append, List.cons.injEq] at he
      obtain ⟨rfl, rfl⟩ := he
      simp at hnd
  | cons d t ih =>
    intro a2 b1 b2 he hnd
    cases b1 with
    | nil =>
      simp only [List.nil_append, List.cons_append, List.cons.injEq] at he
      obtain ⟨rfl, rfl⟩ := he
      simp at hnd
    | cons c t2 =>
      simp only [List.cons_append, List.cons.injEq] at he
      obtain ⟨rfl, he2⟩ := he
      obtain ⟨e1, e2⟩ := ih a2 t2 b2 he2 (List.nodup_cons.mp hnd).2
      exact ⟨by rw [e1], e2⟩

/-- The two ways `mymalloc` can go on a well-formed heap: no node of the free
list fits, or the first node that fits is the block `x`. -/
theorem first_fit_WF {s : AllocState} {bs : List Block} {fl : List Nat} (h : WF s bs fl)
    (R : Nat) {fuel : Nat} (hf : fl.length < fuel) :
    (first_fit fuel s R s.free_list = some 0 ∧ ∀ a ∈ fl, get_size s a < R) ∨
      ∃ l1 x l2 f1 f2, bs = l1 ++ x :: l2 ∧ fl = f1 ++ x.addr :: f2 ∧ x.free = true ∧
        x.addr ≠ 0 ∧ first_fit fuel s R s.free_list = some x.addr ∧
        (∀ a ∈ f1, get_size s a < R) ∧ R ≤ x.size := by
  obtain ⟨b, hb, hcase⟩ := first_fit_spec s R fl s.free_list fuel h.chain hf
  rcases hcase with ⟨rfl, hall⟩ | ⟨hb0, f1, f2, hfl, hall, hge⟩
  · exact Or.inl ⟨hb, hall⟩
  · right
    have hbm : b ∈ fl := by rw [hfl]; simp
    obtain ⟨x, hxm, hxf, rfl⟩ := (WF_free_mem h).mp hbm
    obtain ⟨l1, l2, hbs⟩ := List.append_of_mem hxm
    have hgs := (WF_block h hxm).2.2.2.2.2.1
    exact ⟨l1, x, l2, f1, f2, hbs, hfl, hxf, hb0, hb, hall, by omega⟩

/-- `mymalloc` when no node of the free list fits: the result of the `sbrk` path. -/
theorem mymalloc_nofit {s : AllocState} {n fuel : Nat} (ok : Bool) (hn : n ≠ 0)
    (hff : first_fit fuel s (request_size n) s.free_list = some 0) :
    mymalloc fuel s n ok =
      some (if (sbrk s ((request_size n + 8) % 2 ^ 64) ok).2 = SBRK_FAILED then
          ((sbrk s ((request_size n + 8) % 2 ^ 64) ok).1, 0)
        else
          (set_size_and_status
            (if (sbrk s ((request_size n + 8) % 2 ^ 64) ok).1.heap_start = 0 then
              { (sbrk s ((request_size n + 8) % 2 ^ 64) ok).1 with
                heap_start := (sbrk s ((request_size n + 8) % 2 ^ 64) ok).2 }
            else (sbrk s ((request_size n + 8) % 2 ^ 64) ok).1)
            (sbrk s ((request_size n + 8) % 2 ^ 64) ok).2 (request_size n) false,
           (sbrk s ((request_size n + 8) % 2 ^ 64) ok).2 + 8)) := by
  simp only [mymalloc, METADATA_SIZE]
  rw [if_neg hn, hff]
  simp only [if_true]
  split <;> rfl

/-- `mymalloc` when the first fitting node is `b`. -/
theorem mymalloc_fit {s s1 : AllocState} {n fuel b : Nat} (ok : Bool) (hn : n ≠ 0) (hb : b ≠ 0)
    (hff : first_fit fuel s (request_size n) s.free_list = some b)
    (hrem : remove_from_freelist fuel s b = some s1) :
    mymalloc fuel s n ok = some (split_block s1 b (request_size n), b + 8) := by
  simp only [mymalloc, METADATA_SIZE]
  rw [if_neg hn, hff]
  simp only [hb, if_false, hrem]

theorem get_size_lt (s : AllocState) (b : Nat) : get_size s b < 2 ^ 63 := by
  rw [get_size, land_size_mask]; omega

theorem get_size_eq_mod (s : AllocState) (b : Nat) : get_size s b = s.mem b % 2 ^ 63 := by
  rw [get_size, land_size_mask]

theorem insert_get_size (s : AllocState) (b : Nat) :
    get_size (insert_to_freelist s b) b = get_size s b := by
  have hlt := get_size_lt s b
  rw [get_size_eq_mod (insert_to_freelist s b), insert_to_freelist_mem, Function.update_apply,
    if_neg (by omega), Function.update_same,
    show get_size s b ||| FREE_BIT = hdr (get_size s b) true from lor_status _ true hlt]
  simp only [hdr, if_true]
  omega

theorem coalesce_stop {s : AllocState} {b fuel : Nat} (hf : 0 < fuel)
    (hstop : ¬ (get_next_physical_block s b < s.brk ∧
      is_free s (get_next_physical_block s b) = true)) :
    coalesce fuel s b = some s := by
  obtain ⟨f, rfl⟩ : ∃ f, fuel = f + 1 := ⟨fuel - 1, by omega⟩
  simp only [coalesce]
  rw [if_neg hstop]

theorem myfree_unfold {s : AllocState} {p fuel : Nat} (hp : p ≠ 0) :
    myfree fuel s p = coalesce fuel (insert_to_freelist s (p - 8)) (p - 8) := by
  simp only [myfree, METADATA_SIZE]
  rw [if_neg hp]

theorem split_block_brk (s : AllocState) (b R : Nat) : (split_block s b R).brk = s.brk := by
  simp only [split_block]
  split <;> rfl

/-- When the head of the free list fits, `mymalloc` returns its payload and
does not move the break. -/
theorem mymalloc_head {s : AllocState} {n fuel : Nat} (ok : Bool) (hn : n ≠ 0)
    (hb : s.free_list ≠ 0) (hfit : request_size n ≤ get_size s s.free_list) (hf : 0 < fuel) :
    ∃ s3, mymalloc fuel s n ok = some (s3, s.free_list + 8) ∧ s3.brk = s.brk := by
  obtain ⟨f, rfl⟩ : ∃ f, fuel = f + 1 := ⟨fuel - 1, by omega⟩
  have hff : first_fit (f + 1) s (request_size n) s.free_list = some s.free_list := by
    simp only [first_fit]
    rw [if_neg (by omega)]
  have hrem : remove_from_freelist (f + 1) s s.free_list =
      some (set_size_and_status { s with free_list := get_next_freelist s s.free_list }
        s.free_list (get_size s s.free_list) false) := by
    simp only [remove_from_freelist]
    rw [if_neg hb, if_pos trivial]
    rfl
  rw [mymalloc_fit ok hn hb hff hrem]
  exact ⟨_, rfl, by rw [split_block_brk]; rfl⟩

/-- Freeing a block that was just obtained from `sbrk`: nothing follows it,
so it is only pushed on the free list. -/
theorem free_after_grow {s s1 : AllocState} {R : Nat} (fuel : Nat) (hbrk : s.brk < 2 ^ 63)
    (hpos : 0 < s.brk) (hm1 : s1.mem s.brk = R) (hb1 : s1.brk = s.brk + (R + 8) % 2 ^ 64)
    (hR : R + 8 < 2 ^ 63 ∨ R = 2 ^ 64 - 8) (hf : 0 < fuel) :
    myfree fuel s1 (s.brk + 8) = some (insert_to_freelist s1 s.brk) := by
  rw [myfree_unfold (by omega), Nat.add_sub_cancel]
  apply coalesce_stop hf
  intro hc
  have hlt := hc.1
  simp only [get_next_physical_block, insert_get_size, insert_to_freelist_brk,
    METADATA_SIZE, hb1] at hlt
  rw [get_size_eq_mod, hm1] at hlt
  rcases hR with hR | hR
  · omega
  · rw [hR] at hlt; omega

/-- The state `mymalloc` builds around a block obtained from `sbrk`. -/
theorem grown_state_fields (X : AllocState) (b R : Nat) :
    (set_size_and_status (if X.heap_start = 0 then { X with heap_start := b } else X) b R
        false).mem = Function.update X.mem b R ∧
      (set_size_and_status (if X.heap_start = 0 then { X with heap_start := b } else X) b R
        false).brk = X.brk ∧
      (set_size_and_status (if X.heap_start = 0 then { X with heap_start := b } else X) b R
        false).free_list = X.free_list := by
  by_cases h0 : X.heap_start = 0 <;> simp [h0, set_used_mem]

/-- Reuse after an allocation that grew the heap: `s1` is the heap with the
new block of payload `request_size n` at the old break. -/
theorem reuse_grown {s : AllocState} {bs : List Block} {fl : List Nat} (h : WF s bs fl)
    {n fuel : Nat} (hn : n ≠ 0) (hf : bs.length + 2 ≤ fuel) (s1 : AllocState)
    (hm1 : s1.mem = Function.update s.mem s.brk (request_size n))
    (hf1 : s1.free_list = s.free_list)
    (hb1 : s1.brk = s.brk + (request_size n + 8) % 2 ^ 64)
    (hR : request_size n + 8 < 2 ^ 63 ∨ request_size n = 2 ^ 64 - 8) :
    ∃ s2, myfree fuel s1 (s.brk + 8) = some s2 ∧
      ∀ ok2, ∃ s3, mymalloc fuel s2 n ok2 = some (s3, s.brk + 8) ∧ s3.brk = s2.brk := by
  have hbrk := h.brk_lt
  have hpos : 0 < s.brk := by
    have := h.base_pos
    have := Tiled_le _ _ _ h.tiled
    omega
  have hfree := free_after_grow fuel hbrk hpos (by rw [hm1, Function.update_same]) hb1 hR
    (by omega)
  refine ⟨_, hfree, fun ok2 => ?_⟩
  have hgs2 : get_size (insert_to_freelist s1 s.brk) s.brk = request_size n % 2 ^ 63 := by
    rw [insert_get_size, get_size_eq_mod, hm1, Function.update_same]
  have hfl2 : (insert_to_freelist s1 s.brk).free_list = s.brk := rfl
  rcases hR with hR | hR
  · -- the block fits the request: it is the head of the free list
    have := mymalloc_head ok2 hn (show (insert_to_freelist s1 s.brk).free_list ≠ 0 by
      rw [hfl2]; omega) (show request_size n ≤ get_size (insert_to_freelist s1 s.brk)
        (insert_to_freelist s1 s.brk).free_list by rw [hfl2, hgs2]; omega)
      (show 0 < fuel by omega)
    rw [hfl2] at this
    exact this
  · -- the request wrapped to a zero increment: `sbrk(0)` returns the same address
    obtain ⟨f, rfl⟩ : ∃ f, fuel = f + 1 := ⟨fuel - 1, by omega⟩
    have hflen := WF_fl_length h
    have hcell : ∀ a ∈ fl, a + 8 < s.brk := by
      intro a ha
      obtain ⟨y, hy, _, rfl⟩ := (WF_free_mem h).mp ha
      have := WF_block h hy
      omega
    have hmem2 : ∀ a, a < s.brk → (insert_to_freelist s1 s.brk).mem a = s.mem a := by
      intro a ha
      rw [insert_to_freelist_mem, Function.update_apply, if_neg (by omega),
        Function.update_apply, if_neg (by omega), hm1, Function.update_apply,
        if_neg (by omega)]
    have hchain2 : FreeChain (insert_to_freelist s1 s.brk).mem s.free_list fl := by
      apply FreeChain_frame s.mem _ fl _ _ h.chain
      intro a ha
      exact hmem2 _ (hcell a ha)
    obtain ⟨b, hb, hcase⟩ := first_fit_spec _ (request_size n) fl s.free_list f hchain2
      (by omega)
    have hb0 : b = 0 := by
      rcases hcase with ⟨h0, _⟩ | ⟨_, f1, f2, hfl, _, hge⟩
      · exact h0
      · exfalso
        have h1 := get_size_lt (insert_to_freelist s1 s.brk) b
        omega
    subst hb0
    have hnext : get_next_freelist (insert_to_freelist s1 s.brk) s.brk = s.free_list := by
      simp only [get_next_freelist, METADATA_SIZE, insert_to_freelist_mem,
        Function.update_same, hf1]
    have hff : first_fit (f + 1) (insert_to_freelist s1 s.brk) (request_size n)
        (insert_to_freelist s1 s.brk).free_list = some 0 := by
      rw [hfl2]
      simp only [first_fit]
      rw [if_pos ⟨by omega, by rw [hgs2]; omega⟩, hnext]
      exact hb
    rw [mymalloc_nofit ok2 hn hff]
    have hinc : (request_size n + 8) % 2 ^ 64 = 0 := by rw [hR]; norm_num
    have hsb : ∀ t : AllocState, sbrk t 0 ok2 = (t, t.brk) := by
      intro t; simp [sbrk]
    rw [hinc, hsb]
    have hbrk2 : (insert_to_freelist s1 s.brk).brk = s.brk := by
      rw [insert_to_freelist_brk, hb1, hinc]; rfl
    simp only [hbrk2]
    have hne : s.brk ≠ SBRK_FAILED := by simp only [SBRK_FAILED]; omega
    rw [if_neg hne]
    refine ⟨_, rfl, ?_⟩
    have hb3 : s1.brk = s.brk := by rw [hb1, hinc]; rfl
    by_cases h0 : s1.heap_start = 0 <;> simp [h0, hb3]

theorem absorbed_ge (size : Nat) (run : List Block) : size ≤ absorbed size run := by
  simp [absorbed]

/-- Reuse after an allocation that left the heap well formed. -/
theorem reuse_wellformed {s1 : AllocState} {l1 l2 : List Block} {x : Block} {fl1 : List Nat}
    (h : WF s1 (l1 ++ x :: l2) fl1) (hx : x.free = false) {n fuel : Nat} (hn : n ≠ 0)
    (hfit : request_size n ≤ x.size) (hf : l2.length + fl1.length + 1 < fuel) :
    ∃ s2, myfree fuel s1 (x.addr + 8) = some s2 ∧
      ∀ ok2, ∃ s3, mymalloc fuel s2 n ok2 = some (s3, x.addr + 8) ∧ s3.brk = s2.brk := by
  obtain ⟨s2, run, rest, fl2, hfree, _, _, _, hwf, _, _, _, hhead⟩ := myfree_spec h hx hf
  refine ⟨s2, hfree, fun ok2 => ?_⟩
  have hblk := WF_block hwf (show ({ addr := x.addr, size := absorbed x.size run, free := true }
    : Block) ∈ l1 ++ { addr := x.addr, size := absorbed x.size run, free := true } :: rest by simp)
  simp only at hblk
  have hge := absorbed_ge x.size run
  have := mymalloc_head ok2 hn (show s2.free_list ≠ 0 by rw [hhead]; omega)
    (show request_size n ≤ get_size s2 s2.free_list by rw [hhead, hblk.2.2.2.2.2.1]; omega)
    (show 0 < fuel by omega)
  rw [hhead] at this
  exact this

/-- Reuse after a request that wrapped to the size zero and split the block
`x`: the split leaves `x` a header with payload zero. -/
theorem reuse_split_zero {s1 : AllocState} {l1 l2 : List Block} {x : Block} {fl1 : List Nat}
    (h : WF s1 (l1 ++ x :: l2) fl1) {n fuel : Nat} (hn : n ≠ 0)
    (hR : request_size n = 0) (hbig : 32 ≤ x.size) (hf : 0 < fuel) :
    ∃ s2, myfree fuel (split_block s1 x.addr 0) (x.addr + 8) = some s2 ∧
      ∀ ok2, ∃ s3, mymalloc fuel s2 n ok2 = some (s3, x.addr + 8) ∧ s3.brk = s2.brk := by
  have hxm : x ∈ l1 ++ x :: l2 := by simp
  obtain ⟨hx0, hxe, _, _, hxs, hgx, _⟩ := WF_block h hxm
  have hbrk := h.brk_lt
  rw [split_block_eq hgx hxs (show 0 + 32 ≤ x.size by omega)]
  simp only [Nat.add_zero]
  -- the heap after the split
  have hm1 : (insert_to_freelist (set_size_and_status (set_size_and_status s1 (x.addr + 8)
      (x.size - 0 - 8) false) x.addr 0 false) (x.addr + 8)).mem x.addr = 0 := by
    rw [insert_to_freelist_mem, Function.update_apply, if_neg (by omega),
      Function.update_apply, if_neg (by omega), set_used_mem, Function.update_same]
  have hgs1 : get_size (insert_to_freelist (set_size_and_status (set_size_and_status s1
      (x.addr + 8) (x.size - 0 - 8) false) x.addr 0 false) (x.addr + 8)) x.addr = 0 := by
    rw [get_size_eq_mod, hm1]; rfl
  rw [myfree_unfold (by omega), Nat.add_sub_cancel]
  have hstop : coalesce fuel (insert_to_freelist (insert_to_freelist (set_size_and_status
      (set_size_and_status s1 (x.addr + 8) (x.size - 0 - 8) false) x.addr 0 false)
      (x.addr + 8)) x.addr) x.addr = some (insert_to_freelist (insert_to_freelist
      (set_size_and_status (set_size_and_status s1 (x.addr + 8) (x.size - 0 - 8) false)
      x.addr 0 false) (x.addr + 8)) x.addr) := by
    apply coalesce_stop hf
    intro hc
    have hfr := hc.2
    simp only [get_next_physical_block, insert_get_size, hgs1, METADATA_SIZE, Nat.add_zero,
      is_free] at hfr
    rw [insert_to_freelist_mem, Function.update_same, insert_to_freelist_free_list,
      land_free_bit_lt _ (by omega)] at hfr
    simp at hfr
  refine ⟨_, hstop, fun ok2 => ?_⟩
  have := mymalloc_head ok2 hn
    (show (insert_to_freelist (insert_to_freelist (set_size_and_status
      (set_size_and_status s1 (x.addr + 8) (x.size - 0 - 8) false) x.addr 0 false)
      (x.addr + 8)) x.addr).free_list ≠ 0 by rw [insert_to_freelist_free_list]; omega)
    (by rw [hR]; exact Nat.zero_le _) hf
  rw [insert_to_freelist_free_list] at this
  exact this

/-- The whole of `mymalloc` on a well-formed heap, for a request of at most
`2 ^ 63 - 16` bytes (the normalized size and the increment for `sbrk` are
then in range): with no fitting node the heap grows by the
new allocated block at the old break, or `sbrk` refuses and nothing
changes; otherwise the first fitting block `x` in free-list order is
unlinked, and split when its payload is at least `R + 8 + 24`. -/
theorem mymalloc_spec {s : AllocState} {bs : List Block} {fl : List Nat} (h : WF s bs fl)
    {n : Nat} (hn : 0 < n) (hle : n ≤ 2 ^ 63 - 16) (ok : Bool) {fuel : Nat}
    (hf : bs.length < fuel) :
    ((∀ a ∈ fl, get_size s a < request_size n) ∧
      ((ok = true ∧ s.brk + (request_size n + 8) < 2 ^ 63 ∧
          ∃ s2, mymalloc fuel s n ok = some (s2, s.brk + 8) ∧
            WF s2 (bs ++ [{ addr := s.brk, size := request_size n, free := false }]) fl ∧
            s2.brk = s.brk + (request_size n + 8) ∧ s2.free_list = s.free_list) ∨
        (¬ (ok = true ∧ s.brk + (request_size n + 8) < 2 ^ 63) ∧
          mymalloc fuel s n ok = some (s, 0)))) ∨
      ∃ l1 x l2 f1 f2, bs = l1 ++ x :: l2 ∧ fl = f1 ++ x.addr :: f2 ∧ x.free = true ∧
        (∀ a ∈ f1, get_size s a < request_size n) ∧ request_size n ≤ x.size ∧
        ∃ s2, mymalloc fuel s n ok = some (s2, x.addr + 8) ∧ s2.brk = s.brk ∧
          ((request_size n + 32 ≤ x.size ∧
              WF s2 (l1 ++ { addr := x.addr, size := request_size n, free := false } ::
                { addr := x.addr + 8 + request_size n, size := x.size - request_size n - 8,
                  free := true } :: l2) ((x.addr + 8 + request_size n) :: (f1 ++ f2))) ∨
            (x.size < request_size n + 32 ∧
              WF s2 (l1 ++ { addr := x.addr, size := x.size, free := false } :: l2)
                (f1 ++ f2))) := by
  have hn0 : n ≠ 0 := by omega
  have hbrk := h.brk_lt
  have hflen := WF_fl_length h
  obtain ⟨hR24, hR8, hnR, _, hRle⟩ := request_size_bounds (show n ≤ 2 ^ 64 - 8 by omega)
  have hRle2 := hRle (show n ≤ 2 ^ 64 - 16 by omega)
  have hsmall := request_size_small hle
  have hne : s.brk ≠ SBRK_FAILED := by simp only [SBRK_FAILED]; omega
  rcases first_fit_WF h (request_size n) (show fl.length < fuel by omega) with
    ⟨hff, hall⟩ | ⟨l1, x, l2, f1, f2, hbs, hfl, hxf, hx0, hff, hfirst, hfit⟩
  · left
    refine ⟨hall, ?_⟩
    rw [mymalloc_nofit ok hn0 hff]
    have hinc : (request_size n + 8) % 2 ^ 64 = request_size n + 8 := by omega
    rcases sbrk_pos_cases s ((request_size n + 8) % 2 ^ 64) ok (by omega) with
      ⟨h0, _⟩ | ⟨_, hok, hroom, hr⟩ | ⟨_, hno, hr⟩
    · omega
    · left
      rw [hr]
      simp only [hne, if_false]
      rw [hinc] at hroom ⊢
      have hg := grow_WF h hR24 hR8 hroom
      refine ⟨hok, hroom, _, rfl, hg, ?_, ?_⟩
      · by_cases h0 : s.heap_start = 0 <;> simp [h0]
      · by_cases h0 : s.heap_start = 0 <;> simp [h0]
    · right
      rw [hr]
      simp only [if_true]
      rw [hinc] at hno
      exact ⟨hno, trivial⟩
  · right
    subst hbs
    obtain ⟨s1, g1, g2, hrem, hfl2, hwf1, hb1, _⟩ :=
      remove_WF h hxf (show fl.length ≤ fuel by omega)
    have hnd := WF_fl_nodup h
    have hxs := (WF_block h (show x ∈ l1 ++ x :: l2 by simp)).2.2.2.2.1
    rw [hfl2] at hnd
    obtain ⟨e1, e2⟩ := nodup_split_unique g1 g2 f1 f2 (by rw [← hfl2, hfl]) hnd
    subst e1; subst e2
    rw [mymalloc_fit ok hn0 hx0 hff hrem]
    have hgs1 := (WF_block hwf1 (show ({ addr := x.addr, size := x.size, free := false } : Block)
      ∈ l1 ++ { addr := x.addr, size := x.size, free := false } :: l2 by simp)).2.2.2.2.2.1
    simp only at hgs1
    refine ⟨l1, x, l2, g1, g2, rfl, hfl, hxf, hfirst, hfit, ?_⟩
    by_cases hsplit : request_size n + 32 ≤ x.size
    · have hwf2 := split_WF hwf1 rfl hR24 hR8 (show request_size n + 32 ≤
        ({ addr := x.addr, size := x.size, free := false } : Block).size from hsplit)
      simp only at hwf2
      exact ⟨_, rfl, by rw [split_block_brk, hb1], Or.inl ⟨hsplit, hwf2⟩⟩
    · rw [split_block_none (by rw [hgs1]; omega) (by omega)]
      exact ⟨_, rfl, hb1, Or.inr ⟨by omega, hwf1⟩⟩

/-- For a request of at most `2 ^ 63 - 16` bytes `mymalloc` keeps the heap
well formed: it returns `NULL` and changes nothing, or it returns the payload of
an allocated block `x` of at least `n` bytes, and every block that was
allocated before is still there, allocated, and is not `x`. -/
theorem mymalloc_WF {s : AllocState} {bs : List Block} {fl : List Nat} (h : WF s bs fl)
    {n : Nat} (hn : 0 < n) (hle : n ≤ 2 ^ 63 - 16) (ok : Bool) {fuel : Nat}
    (hf : bs.length < fuel) :
    ∃ s2 p, mymalloc fuel s n ok = some (s2, p) ∧
      ((p = 0 ∧ s2 = s) ∨
        ∃ l1 x l2 fl2, WF s2 (l1 ++ x :: l2) fl2 ∧ p = x.addr + 8 ∧ x.free = false ∧
          n ≤ x.size ∧ (∀ y ∈ bs, y.free = false → y ∈ l1 ++ l2) ∧
          (l1 ++ x :: l2).length ≤ bs.length + 1) := by
  have hn0 : n ≠ 0 := by omega
  have hbrk := h.brk_lt
  have hflen := WF_fl_length h
  obtain ⟨hR24, hR8, hnR, _, hRle⟩ := request_size_bounds (show n ≤ 2 ^ 64 - 8 by omega)
  have hRle2 := hRle (show n ≤ 2 ^ 64 - 16 by omega)
  have hsmall := request_size_small hle
  have hne : s.brk ≠ SBRK_FAILED := by simp only [SBRK_FAILED]; omega
  rcases first_fit_WF h (request_size n) (show fl.length < fuel by omega) with
    ⟨hff, _⟩ | ⟨l1, x, l2, f1, f2, hbs, hfl, hxf, hx0, hff, _, hfit⟩
  · rw [mymalloc_nofit ok hn0 hff]
    have hinc : (request_size n + 8) % 2 ^ 64 = request_size n + 8 := by omega
    rcases sbrk_pos_cases s ((request_size n + 8) % 2 ^ 64) ok (by omega) with
      ⟨h0, _⟩ | ⟨_, _, hroom, hr⟩ | ⟨_, _, hr⟩
    · omega
    · rw [hr]
      simp only [hne, if_false]
      rw [hinc] at hroom ⊢
      have hg := grow_WF h hR24 hR8 hroom
      refine ⟨_, _, rfl, Or.inr ⟨bs, { addr := s.brk, size := request_size n, free := false },
        [], fl, hg, rfl, rfl, hnR, ?_, by simp⟩⟩
      intro y hy _
      simpa using hy
    · rw [hr]
      simp only [if_true]
      exact ⟨_, _, rfl, Or.inl ⟨rfl, rfl⟩⟩
  · subst hbs
    obtain ⟨s1, g1, g2, hrem, _, hwf1, _⟩ := remove_WF h hxf (show fl.length ≤ fuel by omega)
    rw [mymalloc_fit ok hn0 hx0 hff hrem]
    have hxs := (WF_block h (show x ∈ l1 ++ x :: l2 by simp)).2.2.2.2.1
    have hgs1 := (WF_block hwf1 (show ({ addr := x.addr, size := x.size, free := false } : Block)
      ∈ l1 ++ { addr := x.addr, size := x.size, free := false } :: l2 by simp)).2.2.2.2.2.1
    simp only at hgs1
    have hold : ∀ y ∈ l1 ++ x :: l2, y.free = false → y ∈ l1 ++ l2 := by
      intro y hy hyf
      rcases mem_middle.mp hy with rfl | hy
      · rw [hxf] at hyf; exact absurd hyf (by simp)
      · exact hy
    by_cases hsplit : request_size n + 32 ≤ x.size
    · have hwf2 := split_WF hwf1 rfl hR24 hR8 (show request_size n + 32 ≤
        ({ addr := x.addr, size := x.size, free := false } : Block).size from hsplit)
      simp only at hwf2
      refine ⟨_, _, rfl, Or.inr ⟨l1, { addr := x.addr, size := request_size n, free := false },
        _, _, hwf2, rfl, rfl, hnR, ?_,
        by simp only [List.length_append, List.length_cons]; omega⟩⟩
      intro y hy hyf
      have := hold y hy hyf
      rcases List.mem_append.mp this with h1 | h1
      · exact List.mem_append_left _ h1
      · exact List.mem_append_right _ (List.mem_cons_of_mem _ h1)
    · rw [split_block_none (by rw [hgs1]; omega) (by omega)]
      exact ⟨_, _, rfl, Or.inr ⟨l1, { addr := x.addr, size := x.size, free := false }, l2, _,
        hwf1, rfl, rfl, by simp only; omega, hold, by simp⟩⟩

/-- `myfree` on the payload pointer of an allocated block keeps the heap
well formed, and every other allocated block is still there, allocated. -/
theorem myfree_WF {s : AllocState} {l1 l2 : List Block} {x : Block} {fl : List Nat}
    (h : WF s (l1 ++ x :: l2) fl) (hx : x.free = false) {fuel : Nat}
    (hf : l2.length + fl.length + 1 < fuel) :
    ∃ s2 bs2 fl2, myfree fuel s (x.addr + 8) = some s2 ∧ WF s2 bs2 fl2 ∧
      bs2.length ≤ (l1 ++ x :: l2).length ∧ s2.brk = s.brk ∧ s2.heap_start = s.heap_start ∧
      (∀ y ∈ l1 ++ l2, y.free = false → y ∈ bs2) ∧
      (∀ y ∈ bs2, y.free = false → y ∈ l1 ++ l2) := by
  obtain ⟨s2, run, rest, fl2, hfree, hl2, hrun, _, hwf, _, hbrk, hhs, _⟩ := myfree_spec h hx hf
  refine ⟨s2, _, fl2, hfree, hwf, ?_, hbrk, hhs, ?_, ?_⟩
  · rw [hl2]; simp only [List.length_append, List.length_cons]; omega
  · intro y hy hyf
    rw [hl2] at hy
    simp only [List.mem_append, List.mem_cons] at hy ⊢
    rcases hy with h1 | h1 | h1
    · exact Or.inl h1
    · rw [hrun y h1] at hyf; exact absurd hyf (by simp)
    · exact Or.inr (Or.inr h1)
  · intro y hy hyf
    rw [hl2]
    simp only [List.mem_append, List.mem_cons] at hy ⊢
    rcases hy with h1 | h1 | h1
    · exact Or.inl h1
    · rw [h1] at hyf; exact absurd hyf (by simp)
    · exact Or.inr (Or.inr h1)

theorem request_size_100 : request_size 100 = 104 := by rfl
theorem request_size_8 : request_size 8 = 24 := by rfl
theorem request_size_16 : request_size 16 = 24 := by rfl

end Alloc

namespace Alloc

/-! ## Allocator: the contract of `mymalloc` and `myfree` -/

theorem empty_heap_WF (brk0 : Nat) (mem0 : Nat → Nat) (h0 : 0 < brk0) (hlt : brk0 < 2 ^ 63) :
    WF (empty_heap brk0 mem0) [] [] :=
  ⟨by simp [heap_base, empty_heap]; exact h0, hlt, by simp [heap_base, empty_heap, Tiled],
    by simp, rfl, by simp [free_addrs]⟩

/-- C6: on a well-formed heap `mymalloc(n)` returns (for fuel beyond the
number of blocks), and it returns `NULL` exactly when `n = 0`, or when no
node of the free list has a payload of at least the normalized request and
`sbrk` fails; when it returns `NULL` the allocator state is unchanged. -/
theorem mymalloc_null_iff {s : AllocState} {bs : List Block} {fl : List Nat}
    (h : WF s bs fl) (n : Nat) (ok : Bool) (fuel : Nat) (hf : bs.length < fuel) :
    ∃ s2 p, mymalloc fuel s n ok = some (s2, p) ∧
      (p = 0 ↔ n = 0 ∨ ((∀ a ∈ fl, get_size s a < request_size n) ∧
        (sbrk s ((request_size n + METADATA_SIZE) % 2 ^ 64) ok).2 = SBRK_FAILED)) ∧
      (p = 0 → s2 = s) := by
  have hbrk := h.brk_lt
  have hflen := WF_fl_length h
  by_cases hn : n = 0
  · refine ⟨s, 0, by simp [mymalloc, hn], by simp [hn], fun _ => rfl⟩
  · rcases first_fit_WF h (request_size n) (show fl.length < fuel by omega) with
      ⟨hff, hall⟩ | ⟨l1, x, l2, f1, f2, hbs, hfl, hxf, hx0, hff, _, hfit⟩
    · rw [mymalloc_nofit ok hn hff]
      simp only [METADATA_SIZE]
      rcases sbrk_cases s ((request_size n + 8) % 2 ^ 64) ok with
        ⟨_, hr⟩ | ⟨_, _, _, _, hr⟩ | ⟨_, _, _, hr⟩ | ⟨_, hr⟩
      · rw [hr]
        have hne : s.brk ≠ SBRK_FAILED := by simp only [SBRK_FAILED]; omega
        simp only [hne, if_false]
        exact ⟨_, _, rfl, by simp [hn, hne], fun hp => by omega⟩
      · rw [hr]
        have hne : s.brk ≠ SBRK_FAILED := by simp only [SBRK_FAILED]; omega
        simp only [hne, if_false]
        exact ⟨_, _, rfl, by simp [hn, hne], fun hp => by omega⟩
      · rw [hr]
        have hne : s.brk ≠ SBRK_FAILED := by simp only [SBRK_FAILED]; omega
        simp only [hne, if_false]
        exact ⟨_, _, rfl, by simp [hn, hne], fun hp => by omega⟩
      · rw [hr]
        simp only [if_true]
        exact ⟨_, _, rfl, by simp [hn]; exact hall, fun _ => rfl⟩
    · subst hbs
      obtain ⟨s1, _, _, hrem, _⟩ := remove_WF h hxf (show fl.length ≤ fuel by omega)
      rw [mymalloc_fit ok hn hx0 hff hrem]
      refine ⟨_, _, rfl, ?_, fun hp => by omega⟩
      have hxm : x.addr ∈ fl := by rw [hfl]; simp
      have hgs := (WF_block h (show x ∈ l1 ++ x :: l2 by simp)).2.2.2.2.2.1
      constructor
      · intro hp; omega
      · rintro (h0 | ⟨hall, _⟩)
        · exact absurd h0 hn
        · have := hall x.addr hxm
          omega

/-- LIFO reuse for requests whose increment for `sbrk` is not negative.  On a
well-formed heap, when `mymalloc(n)` returns a non-null pointer `p`,
`myfree(p)` returns, and the next `mymalloc(n)` returns the same `p`
without moving the program break, whether or not `sbrk` would grant a
growth. -/
theorem lifo_reuse_in_range {s : AllocState} {bs : List Block} {fl : List Nat}
    (h : WF s bs fl) {n : Nat} (hn : 0 < n) (hlt : n < 2 ^ 64)
    (hinc : (request_size n + 8) % 2 ^ 64 < 2 ^ 63) {fuel : Nat}
    (hf : 2 * bs.length + 4 ≤ fuel) (ok : Bool) {s1 : AllocState} {p : Nat}
    (hm : mymalloc fuel s n ok = some (s1, p)) (hp : p ≠ 0) :
    ∃ s2, myfree fuel s1 p = some s2 ∧
      ∀ ok2, ∃ s3, mymalloc fuel s2 n ok2 = some (s3, p) ∧ s3.brk = s2.brk := by
  have hn0 : n ≠ 0 := by omega
  have hbrk := h.brk_lt
  have hflen := WF_fl_length h
  have hne : s.brk ≠ SBRK_FAILED := by simp only [SBRK_FAILED]; omega
  -- the normalized request is a multiple of 8 from 24 on, or it wrapped to 0
  have hRcases : (24 ≤ request_size n ∧ request_size n % 8 = 0 ∧
      request_size n ≤ 2 ^ 64 - 8) ∨ request_size n = 0 := by
    by_cases hsmall : n ≤ 2 ^ 64 - 8
    · have := request_size_bounds hsmall
      exact Or.inl ⟨this.1, this.2.1, this.2.2.2.1⟩
    · exact Or.inr (request_size_wrap (by omega) hlt)
  rcases first_fit_WF h (request_size n) (show fl.length < fuel by omega) with
    ⟨hff, _⟩ | ⟨l1, x, l2, f1, f2, hbs, hfl, hxf, hx0, hff, _, hfit⟩
  · -- the heap grows
    rw [mymalloc_nofit ok hn0 hff] at hm
    rcases sbrk_pos_cases s ((request_size n + 8) % 2 ^ 64) ok hinc with
      ⟨hinc, hr⟩ | ⟨hinc, _, hroom, hr⟩ | ⟨_, _, hr⟩
    · rw [hr] at hm
      simp only [hne, if_false, Option.some.injEq, Prod.mk.injEq] at hm
      obtain ⟨rfl, rfl⟩ := hm
      obtain ⟨hm1, hb1, hf1⟩ := grown_state_fields s s.brk (request_size n)
      exact reuse_grown h hn0 (by omega) _ hm1 hf1 (by rw [hb1, hinc]; rfl)
        (by rcases hRcases with ⟨_, _, _⟩ | h0 <;> omega)
    · rw [hr] at hm
      simp only [hne, if_false, Option.some.injEq, Prod.mk.injEq] at hm
      obtain ⟨rfl, rfl⟩ := hm
      obtain ⟨hm1, hb1, hf1⟩ := grown_state_fields
        { s with brk := s.brk + (request_size n + 8) % 2 ^ 64 } s.brk (request_size n)
      exact reuse_grown h hn0 (by omega) _ hm1 hf1 hb1
        (by rcases hRcases with ⟨_, _, _⟩ | h0 <;> omega)
    · rw [hr] at hm
      simp only [if_true, Option.some.injEq, Prod.mk.injEq] at hm
      exact absurd hm.2.symm hp
  · -- the block `x` of the free list is reused
    subst hbs
    have hlen : (l1 ++ x :: l2).length = l1.length + l2.length + 1 := by simp; omega
    obtain ⟨s1b, g1, g2, hrem, hflg, hwf1, _⟩ :=
      remove_WF h hxf (show fl.length ≤ fuel by omega)
    rw [mymalloc_fit ok hn0 hx0 hff hrem] at hm
    simp only [Option.some.injEq, Prod.mk.injEq] at hm
    obtain ⟨rfl, rfl⟩ := hm
    have hfl1 : (g1 ++ g2).length + 1 = fl.length := by rw [hflg]; simp; omega
    have hxs := (WF_block h (show x ∈ l1 ++ x :: l2 by simp)).2.2.2.2.1
    have hgs1 := (WF_block hwf1 (show ({ addr := x.addr, size := x.size, free := false } : Block)
      ∈ l1 ++ { addr := x.addr, size := x.size, free := false } :: l2 by simp)).2.2.2.2.2.1
    simp only at hgs1
    by_cases hsplit : request_size n + 32 ≤ x.size
    · rcases hRcases with ⟨hR24, hR8, _⟩ | hR0
      · -- an ordinary split
        have hwf2 := split_WF hwf1 rfl hR24 hR8 (show request_size n + 32 ≤
          ({ addr := x.addr, size := x.size, free := false } : Block).size from hsplit)
        simp only at hwf2
        exact reuse_wellformed hwf2 rfl hn0 (le_refl _)
          (by simp only [List.length_cons]; omega)
      · -- the request wrapped to zero
        rw [hR0]
        exact reuse_split_zero hwf1 hn0 hR0 (show 32 ≤
          ({ addr := x.addr, size := x.size, free := false } : Block).size by
            simp only; omega) (by omega)
    · rw [split_block_none (by rw [hgs1]; omega) (by omega)]
      exact reuse_wellformed hwf1 rfl hn0 hfit (by omega)

/-- C4 (as stated, refuted): after `alloc(16) = p1; alloc(40) = p2;
release(p1); release(p2)` the blocks of `p1` (payload 24) and `p2`
(payload 40) are both free and physically adjacent: the heap does not
hold one free block spanning both payloads. -/
theorem two_adjacent_free_blocks :
    script_two_frees.map (fun r => (r.2.1, r.2.2, is_free r.1 (r.2.1 - 8),
      get_size r.1 (r.2.1 - 8), get_next_physical_block r.1 (r.2.1 - 8), r.1.brk,
      is_free r.1 (r.2.2 - 8), get_size r.1 (r.2.2 - 8))) =
    some (4104, 4136, true, 24, 4128, 4176, true, 40) := by rfl

/-- C4 (amended): on a well-formed heap, `myfree` on the payload pointer of
an allocated block `x` returns, leaves the heap well formed, leaves `x`
free, and the block that physically follows `x` below the break, if there
is one, allocated.  Coalescing is forward-only: a free block directly
before `x` stays separate, which is how the script `alloc(16) = p1;
alloc(40) = p2; release(p1); release(p2)` ends with two adjacent free
blocks of payload 24 and 40. -/
theorem myfree_forward_coalesce {s : AllocState} {l1 l2 : List Block} {x : Block}
    {fl : List Nat} (h : WF s (l1 ++ x :: l2) fl) (hx : x.free = false) {fuel : Nat}
    (hf : l2.length + fl.length + 1 < fuel) :
    (∃ s2, myfree fuel s (x.addr + 8) = some s2 ∧ (∃ bs2 fl2, WF s2 bs2 fl2) ∧
      is_free s2 x.addr = true ∧
      (get_next_physical_block s2 x.addr < s2.brk →
        is_free s2 (get_next_physical_block s2 x.addr) = false)) ∧
    script_two_frees.map (fun r => (is_free r.1 (r.2.1 - 8), get_size r.1 (r.2.1 - 8),
      get_next_physical_block r.1 (r.2.1 - 8) == r.2.2 - 8,
      is_free r.1 (r.2.2 - 8), get_size r.1 (r.2.2 - 8))) =
      some (true, 24, true, true, 40) := by
  refine ⟨?_, by rfl⟩
  obtain ⟨s2, run, rest, fl2, hfree, _, _, hrest, hwf, _, _, _, _⟩ := myfree_spec h hx hf
  refine ⟨s2, hfree, ⟨_, _, hwf⟩, ?_, ?_⟩
  · have := WF_block hwf (show ({ addr := x.addr, size := absorbed x.size run, free := true }
      : Block) ∈ l1 ++ { addr := x.addr, size := absorbed x.size run, free := true } :: rest
      by simp)
    exact this.2.2.2.2.2.2
  · intro hlt
    have hb := WF_block hwf (show ({ addr := x.addr, size := absorbed x.size run, free := true }
      : Block) ∈ l1 ++ { addr := x.addr, size := absorbed x.size run, free := true } :: rest
      by simp)
    have hgs := hb.2.2.2.2.2.1
    simp only at hgs
    obtain ⟨_, _, _, ht⟩ := Tiled_split.mp hwf.tiled
    simp only at ht
    simp only [get_next_physical_block, METADATA_SIZE, hgs] at hlt ⊢
    cases rest with
    | nil =>
      have : x.addr + 8 + absorbed x.size run = s2.brk := ht
      omega
    | cons y t =>
      obtain ⟨hya, _⟩ := ht
      rw [← hya]
      have hy := WF_block hwf (show y ∈ l1 ++
        { addr := x.addr, size := absorbed x.size run, free := true } :: y :: t by simp)
      rw [hy.2.2.2.2.2.2]
      exact hrest y rfl

theorem heap_one_free_WF :
    WF heap_one_free
      ([{ addr := 4096, size := 24, free := true }] ++
        { addr := 4128, size := 40, free := false } :: []) [4096] := by
  refine ⟨by decide, by decide, ⟨rfl, by decide, by decide, rfl, by decide, by decide, rfl⟩,
    ?_, ⟨rfl, by decide, rfl⟩, List.Perm.refl _⟩
  intro b hb
  simp only [List.singleton_append, List.mem_cons, List.mem_singleton, List.not_mem_nil,
    or_false] at hb
  rcases hb with rfl | rfl <;> rfl

/-- C4 witness: `release(p2)` after `alloc(16) = p1; alloc(40) = p2; release(p1)`. -/
theorem myfree_forward_coalesce_witness :
    (∃ s2, myfree 8 heap_one_free (4128 + 8) = some s2 ∧ (∃ bs2 fl2, WF s2 bs2 fl2) ∧
      is_free s2 4128 = true ∧
      (get_next_physical_block s2 4128 < s2.brk →
        is_free s2 (get_next_physical_block s2 4128) = false)) ∧
    script_two_frees.map (fun r => (is_free r.1 (r.2.1 - 8), get_size r.1 (r.2.1 - 8),
      get_next_physical_block r.1 (r.2.1 - 8) == r.2.2 - 8,
      is_free r.1 (r.2.2 - 8), get_size r.1 (r.2.2 - 8))) =
      some (true, 24, true, true, 40) :=
  myfree_forward_coalesce heap_one_free_WF rfl (by decide)

/-- C3 (failing input): `alloc(SIZE_MAX)` twice on the empty heap.  Both
calls return non-null pointers, `p1 = 4104` and `p2 = 4112`, while the heap
is `[4096, 4112)`: the range `[p1, p1 + SIZE_MAX)` runs past `heap_end`,
and it contains `p2` and the header of the second block at `p2 - 8`. -/
theorem huge_requests_overlap :
    script_two_huge.map (fun r => (r.2.1, r.2.2, r.1.heap_start, r.1.brk,
      decide (r.1.brk < r.2.1 + SIZE_MAX),
      decide (r.2.1 ≤ r.2.2 - METADATA_SIZE ∧ r.2.2 < r.2.1 + SIZE_MAX))) =
    some (4104, 4112, 4096, 4112, true, true) := by rfl

/-- C5 (failing input): `mymalloc(SIZE_MAX)` on the empty heap returns the
non-null pointer 4104 to a block whose recorded payload size is 0, because
the normalized size `ALIGN(SIZE_MAX)` wraps to 0. -/
theorem huge_request_zero_payload :
    (mymalloc 8 heap0 SIZE_MAX true).map (fun r => (r.2, get_size r.1 (r.2 - METADATA_SIZE),
      r.1.brk)) = some (4104, 0, 4104) ∧ request_size SIZE_MAX = 0 := by
  constructor <;> rfl

/-- C7 (failing input): after `alloc(SIZE_MAX) = p0; alloc(24) = p1;
alloc(24) = p2; release(p2); release(p0)` the heap is `[4096, 4168)`, the
walk from `heap_start` goes from 4096 to 4104, and from there, where the
header of the live block of `p1 = 4112` now holds the pointer 4136, to
8248, past `heap_end`. -/
theorem heap_walk_overshoots :
    script_clobber.map (fun r => (r.2.1, r.2.2.1, r.2.2.2, r.1.heap_start, r.1.brk,
      get_next_physical_block r.1 r.1.heap_start, r.1.mem (r.2.2.1 - METADATA_SIZE),
      get_next_physical_block r.1 (get_next_physical_block r.1 r.1.heap_start))) =
    some (4104, 4112, 4144, 4096, 4168, 4104, 4136, 8248) := by rfl

/-- C8 (failing input): after `alloc(100) = a; release(a); alloc(SIZE_MAX) = p`
the block at `heap_start` is allocated with recorded payload 0, below
`MIN_ALLOC`, and the returned pointer 4104 is the address of the header
of the free block the split created (payload 96). -/
theorem wrapped_request_splits_empty_block :
    script_zero_split.map (fun r => (r.2.1, r.2.2, r.1.heap_start,
      get_size r.1 r.1.heap_start, is_free r.1 r.1.heap_start, r.1.free_list,
      get_size r.1 r.1.free_list, is_free r.1 r.1.free_list)) =
    some (4104, 4104, 4096, 0, false, 4104, 96, true) := by rfl

/-- C10 (as stated, refuted): after `alloc(100) = a; alloc(8) = b;
release(a); alloc(16) = c` the free block has payload 72, not
`100 - 16 - header`. -/
theorem split_remainder_payload :
    script_split.map (fun r => (r.1.free_list, get_size r.1 r.1.free_list)) = some (4128, 72) ∧
      (72 : Nat) ≠ 100 - 16 - METADATA_SIZE := by
  constructor
  · rfl
  · decide

/-- C10 (amended): on the empty heap, at any break `brk0` with room for 144
bytes and any memory contents, the script `alloc(100) = a; alloc(8) = b;
release(a); alloc(16) = c` returns `c = a`; afterwards the heap is the
allocated block of `a` with payload 24, the free block at
`a + header + 16` with payload 72, and the allocated block of `b` with
payload 24, and the free list holds the free block alone. -/
theorem script_split_result (brk0 : Nat) (mem0 : Nat → Nat) (h0 : 0 < brk0)
    (hroom : brk0 + 144 < 2 ^ 63) :
    ∃ s a b c, script_split_from (empty_heap brk0 mem0) = some (s, a, b, c) ∧ c = a ∧
      a = brk0 + METADATA_SIZE ∧
      WF s ([{ addr := a - METADATA_SIZE, size := 24, free := false }] ++
        { addr := a + METADATA_SIZE + 16, size := 72, free := true } ::
        [{ addr := b - METADATA_SIZE, size := 24, free := false }])
        [a + METADATA_SIZE + 16] := by
  have hW0 := empty_heap_WF brk0 mem0 h0 (by omega)
  have hb0 : (empty_heap brk0 mem0).brk = brk0 := rfl
  -- alloc(100) grows the heap
  rcases mymalloc_spec hW0 (show 0 < 100 by decide) (by decide) true
      (show ([] : List Block).length < 8 by decide) with
    ⟨_, ⟨_, _, s1, hm1, hW1, hb1, _⟩ | ⟨hno, _⟩⟩ | ⟨l1, x, l2, _, _, hbs, _⟩
  rotate_left
  · exact absurd ⟨rfl, by rw [hb0, request_size_100]; omega⟩ hno
  · cases l1 <;> simp at hbs
  rw [request_size_100, hb0] at hW1 hb1
  rw [hb0] at hm1
  simp only [List.nil_append] at hW1
  -- alloc(8) grows it again
  rcases mymalloc_spec hW1 (show 0 < 8 by decide) (by decide) true
      (show [({ addr := brk0, size := 104, free := false } : Block)].length < 8 by simp) with
    ⟨_, ⟨_, _, s2, hm2, hW2, hb2, _⟩ | ⟨hno, _⟩⟩ | ⟨l1, x, l2, f1, _, _, hfl, _⟩
  rotate_left
  · exact absurd ⟨rfl, by rw [hb1, request_size_8]; omega⟩ hno
  · cases f1 <;> simp at hfl
  rw [request_size_8, hb1] at hW2 hb2
  rw [hb1] at hm2
  -- release(a) absorbs nothing: the next block is allocated
  obtain ⟨s3, run, rest, fl3, hfree, hl2, hrun, _, hW3, hsub, hb3, _, _⟩ :=
    myfree_spec (show WF s2 ([] ++ ({ addr := brk0, size := 104, free := false } : Block) ::
      [{ addr := brk0 + (104 + 8), size := 24, free := false }]) [] from hW2) rfl
      (show [({ addr := brk0 + (104 + 8), size := 24, free := false } : Block)].length +
        ([] : List Nat).length + 1 < 8 by simp)
  have hrun0 : run = [] := by
    cases run with
    | nil => rfl
    | cons y t =>
      simp only [List.cons_append, List.cons.injEq] at hl2
      have := hrun y (List.mem_cons_self _ _)
      rw [← hl2.1] at this
      exact absurd this (by simp)
  subst hrun0
  simp only [List.nil_append] at hl2
  subst hl2
  simp only [List.nil_append, absorbed] at hW3
  simp only [List.map_nil, List.sum_nil, Nat.add_zero] at hW3 hfree
  have hfl3 : fl3 = [brk0] := by
    have hp := hW3.perm
    simp only [free_addrs, List.filter, List.map] at hp
    exact List.perm_singleton.mp hp
  subst hfl3
  -- alloc(16) takes the block of a from the free list and splits it
  rcases mymalloc_spec hW3 (show 0 < 16 by decide) (by decide) true
      (show [({ addr := brk0, size := 104, free := true } : Block),
        { addr := brk0 + (104 + 8), size := 24, free := false }].length < 8 by simp) with
    ⟨hall, _⟩ | ⟨l1, x, l2, f1, f2, hbs, hfl, hxf, _, _, s4, hm4, _, hcase⟩
  · have := hall brk0 (List.mem_singleton.mpr rfl)
    rw [(WF_block hW3 (show ({ addr := brk0, size := 104, free := true } : Block) ∈ _ from
      List.mem_cons_self _ _)).2.2.2.2.2.1, request_size_16] at this
    exact absurd this (by simp)
  have hf1 : f1 = [] ∧ f2 = [] := by
    cases f1 with
    | nil => simp only [List.nil_append, List.cons.injEq] at hfl; exact ⟨rfl, hfl.2.symm⟩
    | cons c t => cases t <;> simp at hfl
  have hl1 : l1 = [] ∧ x = { addr := brk0, size := 104, free := true } ∧
      l2 = [{ addr := brk0 + (104 + 8), size := 24, free := false }] := by
    cases l1 with
    | nil =>
      simp only [List.nil_append, List.cons.injEq] at hbs
      exact ⟨rfl, hbs.1.symm, hbs.2.symm⟩
    | cons c t =>
      cases t with
      | nil =>
        simp only [List.cons_append, List.nil_append, List.cons.injEq] at hbs
        rw [← hbs.2.1] at hxf
        exact absurd hxf (by simp)
      | cons d u => cases u <;> simp at hbs
  obtain ⟨rfl, rfl⟩ := hf1
  obtain ⟨rfl, rfl, rfl⟩ := hl1
  rw [request_size_16] at hcase
  rcases hcase with ⟨_, hW4⟩ | ⟨hlt, _⟩
  rotate_left
  · exact absurd hlt (by simp)
  refine ⟨s4, brk0 + 8, brk0 + (104 + 8) + 8, brk0 + 8, ?_, rfl, rfl, ?_⟩
  · simp only [script_split_from, hm1, hm2, hfree, hm4, Option.bind_eq_bind, Option.some_bind,
      Option.pure_def]
  · simpa only [METADATA_SIZE, Nat.add_sub_cancel, List.nil_append, List.singleton_append]
      using hW4

/-- C10 witness: the script on the empty heap with break 4096 and zeroed
memory. -/
theorem script_split_result_witness :
    ∃ s a b c, script_split_from (empty_heap 4096 (fun _ => 0)) = some (s, a, b, c) ∧ c = a ∧
      a = 4096 + METADATA_SIZE ∧
      WF s ([{ addr := a - METADATA_SIZE, size := 24, free := false }] ++
        { addr := a + METADATA_SIZE + 16, size := 72, free := true } ::
        [{ addr := b - METADATA_SIZE, size := 24, free := false }])
        [a + METADATA_SIZE + 16] :=
  script_split_result 4096 (fun _ => 0) (by decide) (by decide)

/-- C6 witness: on the heap with one free block of payload 24, a request
for 100 bytes that `sbrk` refuses. -/
theorem mymalloc_null_iff_witness :
    ∃ s2 p, mymalloc 8 heap_one_free 100 false = some (s2, p) ∧
      (p = 0 ↔ 100 = 0 ∨ ((∀ a ∈ [4096], get_size heap_one_free a < request_size 100) ∧
        (sbrk heap_one_free ((request_size 100 + METADATA_SIZE) % 2 ^ 64) false).2 =
          SBRK_FAILED)) ∧
      (p = 0 → s2 = heap_one_free) :=
  mymalloc_null_iff heap_one_free_WF 100 false 8 (by decide)

/-- C9 (failing input): after `alloc(100)`, the request `n = 2^64 - 24` is
its own normalized size and `n + 8` is the increment `-16` for `sbrk`, which
grants it and moves the break down from 4208 to 4192: `alloc(n)` returns
`p = 4216`.  After `release(p)` the block at 4208 is on the free list with
the recorded payload `2^63 - 24`, which is less than `n`, so the next
`alloc(n)` does not take it: it calls `sbrk(-16)` again, the break moves
down to 4176, and it returns `q = 4200`, not `p`. -/
theorem huge_request_not_reused :
    script_negative_grow.map (fun r => (r.2.1, r.2.2.1, r.2.2.2, r.1.brk, r.1.free_list,
      get_size r.1 r.1.free_list)) =
    some (4104, 4216, 4200, 4176, 4208, 2 ^ 63 - 24) := by rfl

end Alloc

namespace Alloc

/-! ## Allocator: selection, splitting, release and termination -/

/-- What `split_block` leaves in memory when it splits. -/
theorem split_block_reads {s : AllocState} {b R total : Nat} (hts : get_size s b = total)
    (ht : total < 2 ^ 63) (hfit : R + 32 ≤ total) :
    get_size (split_block s b R) b = R ∧ is_free (split_block s b R) b = false ∧
      (split_block s b R).free_list = b + 8 + R ∧
      get_size (split_block s b R) (b + 8 + R) = total - R - 8 ∧
      is_free (split_block s b R) (b + 8 + R) = true ∧
      get_next_freelist (split_block s b R) (b + 8 + R) = s.free_list := by
  rw [split_block_eq hts ht hfit]
  have hb : (insert_to_freelist
      (set_size_and_status (set_size_and_status s (b + 8 + R) (total - R - 8) false) b R false)
      (b + 8 + R)).mem b = hdr R false := by
    simp only [insert_to_freelist_mem, set_size_and_status_mem]
    rw [Function.update_apply, if_neg (by omega), Function.update_apply, if_neg (by omega),
      Function.update_same, lor_zero_hdr]
  have hgn : get_size
      (set_size_and_status (set_size_and_status s (b + 8 + R) (total - R - 8) false) b R false)
      (b + 8 + R) = total - R - 8 := by
    refine @get_size_hdr _ _ _ false ?_ (by omega)
    simp only [set_size_and_status_mem]
    rw [Function.update_apply, if_neg (by omega), Function.update_same, lor_zero_hdr]
  have hn : (insert_to_freelist
      (set_size_and_status (set_size_and_status s (b + 8 + R) (total - R - 8) false) b R false)
      (b + 8 + R)).mem (b + 8 + R) = hdr (total - R - 8) true := by
    simp only [insert_to_freelist_mem]
    rw [Function.update_apply, if_neg (by omega), Function.update_same, hgn, FREE_BIT_eq,
      lor_free_bit _ (by omega)]
    simp [hdr]
  refine ⟨get_size_hdr hb (by omega), is_free_hdr hb (by omega), rfl,
    get_size_hdr hn (by omega), is_free_hdr hn (by omega), ?_⟩
  simp only [get_next_freelist, METADATA_SIZE, insert_to_freelist_mem, Function.update_same]
  rfl

theorem run_addr_apart {a e : Nat} {l1 run rest : List Block} {x : Block}
    (h : Tiled a (l1 ++ x :: (run ++ rest)) e) :
    ∀ y ∈ run, (∀ b ∈ l1, b.addr < y.addr) ∧ x.addr < y.addr ∧ ∀ b ∈ rest, y.addr < b.addr := by
  intro y hy
  have hp := Tiled_pairwise _ _ _ h
  rw [List.pairwise_append] at hp
  obtain ⟨_, hp2, hp3⟩ := hp
  rw [List.pairwise_cons] at hp2
  obtain ⟨hp4, hp5⟩ := hp2
  rw [List.pairwise_append] at hp5
  obtain ⟨_, _, hp6⟩ := hp5
  refine ⟨?_, ?_, ?_⟩
  · intro b hb
    have := hp3 b hb y (by simp [hy])
    omega
  · have := hp4 y (by simp [hy])
    omega
  · intro b hb
    have := hp6 y hy b hb
    omega

theorem first_fit_visits_fst : ∀ (fuel : Nat) (s : AllocState) (size b : Nat),
    (first_fit_visits fuel s size b).map Prod.fst = first_fit fuel s size b := by
  intro fuel
  induction fuel with
  | zero => intro s size b; rfl
  | succ f ih =>
    intro s size b
    simp only [first_fit_visits, first_fit]
    split
    · rw [← ih, Option.map_map]; rfl
    · rfl

theorem find_prev_visits_fst : ∀ (fuel : Nat) (s : AllocState) (b curr : Nat),
    (find_prev_visits fuel s b curr).map Prod.fst = find_prev fuel s b curr := by
  intro fuel
  induction fuel with
  | zero => intro s b curr; rfl
  | succ f ih =>
    intro s b curr
    simp only [find_prev_visits, find_prev]
    split
    · rw [← ih, Option.map_map]; rfl
    · rfl

theorem coalesce_calls_fst : ∀ (fuel : Nat) (s : AllocState) (b : Nat),
    (coalesce_calls fuel s b).map Prod.fst = coalesce fuel s b := by
  intro fuel
  induction fuel with
  | zero => intro s b; rfl
  | succ f ih =>
    intro s b
    simp only [coalesce_calls, coalesce]
    split
    · cases remove_from_freelist f s (get_next_physical_block s b) with
      | none => rfl
      | some s1 =>
        simp only
        rw [← ih, Option.map_map]; rfl
    · rfl

/-- A scan along a free-list chain examines a prefix of the chain. -/
theorem first_fit_visits_chain (s : AllocState) (R : Nat) :
    ∀ (fl : List Nat) (head fuel : Nat), FreeChain s.mem head fl → fl.length < fuel →
      ∃ r, first_fit_visits fuel s R head = some r ∧ r.2 <+: fl := by
  intro fl
  induction fl with
  | nil =>
    intro head fuel hc hf
    obtain ⟨f, rfl⟩ : ∃ f, fuel = f + 1 := ⟨fuel - 1, by omega⟩
    have h0 : head = 0 := hc
    simp only [first_fit_visits]
    rw [if_neg (by simp [h0])]
    exact ⟨_, rfl, by simp [h0]⟩
  | cons a rest ih =>
    intro head fuel hc hf
    obtain ⟨f, rfl⟩ : ∃ f, fuel = f + 1 := ⟨fuel - 1, by omega⟩
    obtain ⟨rfl, ha0, hrest⟩ := hc
    simp only [first_fit_visits]
    by_cases hc2 : head ≠ 0 ∧ get_size s head < R
    · rw [if_pos hc2]
      obtain ⟨r, hr, hp⟩ := ih (s.mem (head + 8)) f hrest
        (by simp only [List.length_cons] at hf; omega)
      have hr2 : first_fit_visits f s R (get_next_freelist s head) = some r := hr
      rw [hr2]
      exact ⟨_, rfl, by simpa using hp⟩
    · rw [if_neg hc2]
      refine ⟨_, rfl, ?_⟩
      simp only [if_neg ha0]
      exact ⟨rest, rfl⟩

theorem find_prev_visits_chain (s : AllocState) (b : Nat) :
    ∀ (fl : List Nat) (head fuel : Nat), FreeChain s.mem head fl → fl.length < fuel →
      ∃ r, find_prev_visits fuel s b head = some r ∧ r.2 <+: fl := by
  intro fl
  induction fl with
  | nil =>
    intro head fuel hc hf
    obtain ⟨f, rfl⟩ : ∃ f, fuel = f + 1 := ⟨fuel - 1, by omega⟩
    have h0 : head = 0 := hc
    simp only [find_prev_visits]
    rw [if_neg (by simp [h0])]
    exact ⟨_, rfl, by simp [h0]⟩
  | cons a rest ih =>
    intro head fuel hc hf
    obtain ⟨f, rfl⟩ : ∃ f, fuel = f + 1 := ⟨fuel - 1, by omega⟩
    obtain ⟨rfl, ha0, hrest⟩ := hc
    simp only [find_prev_visits]
    by_cases hc2 : head ≠ 0 ∧ get_next_freelist s head ≠ b
    · rw [if_pos hc2]
      obtain ⟨r, hr, hp⟩ := ih (s.mem (head + 8)) f hrest
        (by simp only [List.length_cons] at hf; omega)
      have hr2 : find_prev_visits f s b (get_next_freelist s head) = some r := hr
      rw [hr2]
      exact ⟨_, rfl, by simpa using hp⟩
    · rw [if_neg hc2]
      refine ⟨_, rfl, ?_⟩
      simp only [if_neg ha0]
      exact ⟨rest, rfl⟩

/-- The number of recursive calls of `coalesce` on a free block `x` of a
well-formed heap is the length of the run of free blocks that follow `x`. -/
theorem coalesce_calls_spec :
    ∀ (l2 : List Block) (s : AllocState) (l1 : List Block) (x : Block) (fl : List Nat)
      (fuel : Nat), WF s (l1 ++ x :: l2) fl → x.free = true → l2.length + fl.length < fuel →
      ∃ r run rest, coalesce_calls fuel s x.addr = some r ∧ l2 = run ++ rest ∧
        r.2 = run.length ∧ (∀ y ∈ run, y.free = true) ∧
        (∀ y, rest.head? = some y → y.free = false) := by
  intro l2
  induction l2 with
  | nil =>
    intro s l1 x fl fuel h hx hf
    obtain ⟨f, rfl⟩ : ∃ f, fuel = f + 1 := ⟨fuel - 1, by omega⟩
    have hxm : x ∈ l1 ++ [x] := by simp
    obtain ⟨_, _, _, _, _, hgx, _⟩ := WF_block h hxm
    obtain ⟨_, _, _, hend⟩ := Tiled_split.mp h.tiled
    have hend2 : x.addr + 8 + x.size = s.brk := hend
    refine ⟨(s, 0), [], [], ?_, rfl, rfl, by simp, by simp⟩
    simp only [coalesce_calls, get_next_physical_block, hgx, METADATA_SIZE]
    rw [if_neg (by omega)]
  | cons y t ih =>
    intro s l1 x fl fuel h hx hf
    obtain ⟨f, rfl⟩ : ∃ f, fuel = f + 1 := ⟨fuel - 1, by omega⟩
    have hxm : x ∈ l1 ++ x :: y :: t := by simp
    have hym : y ∈ l1 ++ x :: y :: t := by simp
    obtain ⟨_, _, _, _, _, hgx, _⟩ := WF_block h hxm
    obtain ⟨_, hye, _, _, _, _, hfy⟩ := WF_block h hym
    obtain ⟨_, _, _, hya, _⟩ := Tiled_split.mp h.tiled
    have hya2 : y.addr = x.addr + 8 + x.size := hya
    have hnext : get_next_physical_block s x.addr = y.addr := by
      simp only [get_next_physical_block, hgx, METADATA_SIZE]; omega
    by_cases hy : y.free = true
    · have h2 : WF s ((l1 ++ [x]) ++ y :: t) fl := by simpa using h
      obtain ⟨s1, f1, f2, hrem, hfl, hwf1, _⟩ :=
        remove_WF h2 hy (show fl.length ≤ f by omega)
      have hwf1b : WF s1 (l1 ++ x :: { addr := y.addr, size := y.size, free := false } :: t)
          (f1 ++ f2) := by simpa using hwf1
      have hmerge := merge_WF hwf1b hx rfl
      have hlen : t.length + (f1 ++ f2).length < f := by
        rw [hfl] at hf
        simp only [List.length_cons, List.length_append] at hf ⊢
        omega
      obtain ⟨r, run, rest, hco, ht, hcount, hrun, hrest⟩ :=
        ih _ l1 { addr := x.addr, size := x.size + 8 + y.size, free := true } (f1 ++ f2) f
          hmerge rfl hlen
      refine ⟨(r.1, r.2 + 1), y :: run, rest, ?_, by rw [ht]; rfl, ?_, ?_, hrest⟩
      · simp only [coalesce_calls, hnext]
        rw [if_pos ⟨by omega, by rw [hfy]; exact hy⟩, hrem]
        simp only
        have hco2 : coalesce_calls f
            (set_size_and_status s1 x.addr
              ((get_size s1 x.addr + METADATA_SIZE + get_size s1 y.addr) % 2 ^ 64) true)
            x.addr = some r := hco
        rw [hco2]; rfl
      · simp only [List.length_cons, hcount]
      · intro z hz
        rcases List.mem_cons.mp hz with rfl | hz
        · exact hy
        · exact hrun z hz
    · simp only [Bool.not_eq_true] at hy
      refine ⟨(s, 0), [], y :: t, ?_, rfl, rfl, by simp, ?_⟩
      · simp only [coalesce_calls, hnext]
        rw [if_neg (by rw [hfy, hy]; simp)]
      · intro z hz
        simp only [List.head?_cons, Option.some.injEq] at hz
        rw [← hz]; exact hy

theorem free_run_unique : ∀ (run run2 rest rest2 : List Block),
    run ++ rest = run2 ++ rest2 → (∀ y ∈ run, y.free = true) → (∀ y ∈ run2, y.free = true) →
    (∀ y, rest.head? = some y → y.free = false) →
    (∀ y, rest2.head? = some y → y.free = false) → run = run2 := by
  intro run
  induction run with
  | nil =>
    intro run2 rest rest2 he _ h2 h3 _
    cases run2 with
    | nil => rfl
    | cons z t =>
      simp only [List.nil_append, List.cons_append] at he
      have := h3 z (by rw [he]; rfl)
      rw [h2 z (List.mem_cons_self _ _)] at this
      exact absurd this (by simp)
  | cons y t ih =>
    intro run2 rest rest2 he h1 h2 h3 h4
    cases run2 with
    | nil =>
      simp only [List.nil_append, List.cons_append] at he
      have := h4 y (by rw [← he]; rfl)
      rw [h1 y (List.mem_cons_self _ _)] at this
      exact absurd this (by simp)
    | cons z t2 =>
      simp only [List.cons_append, List.cons.injEq] at he
      obtain ⟨rfl, he2⟩ := he
      rw [ih t2 rest rest2 he2 (fun w hw => h1 w (List.mem_cons_of_mem _ hw))
        (fun w hw => h2 w (List.mem_cons_of_mem _ hw)) h3 h4]

theorem absorbed_grows (size : Nat) :
    ∀ run : List Block, (∀ y ∈ run, 24 ≤ y.size) →
      size + 32 * run.length ≤ absorbed size run := by
  intro run
  induction run with
  | nil => intro _; simp [absorbed]
  | cons y t ih =>
    intro hall
    have h1 := ih (fun w hw => hall w (List.mem_cons_of_mem _ hw))
    have h2 := hall y (List.mem_cons_self _ _)
    simp only [absorbed, List.map_cons, List.sum_cons, List.length_cons] at h1 ⊢
    omega

theorem mymalloc_returns {s : AllocState} {bs : List Block} {fl : List Nat} (h : WF s bs fl)
    (n : Nat) (ok : Bool) {fuel : Nat} (hf : bs.length < fuel) :
    ∃ r, mymalloc fuel s n ok = some r := by
  by_cases hn : n = 0
  · exact ⟨(s, 0), by simp [mymalloc, hn]⟩
  have hflen := WF_fl_length h
  rcases first_fit_WF h (request_size n) (show fl.length < fuel by omega) with
    ⟨hff, _⟩ | ⟨l1, x, l2, f1, f2, hbs, hfl, hxf, hx0, hff, _, _⟩
  · rw [mymalloc_nofit ok hn hff]
    exact ⟨_, rfl⟩
  · subst hbs
    obtain ⟨s1, _, _, hrem, _⟩ := remove_WF h hxf (show fl.length ≤ fuel by omega)
    rw [mymalloc_fit ok hn hx0 hff hrem]
    exact ⟨_, rfl⟩

/-- The words `coalesce` may write: the header of the block it grows, the
headers of the free blocks after it, and the link words of free-list
nodes.  Every other word of memory is left as it was. -/
theorem coalesce_frame :
    ∀ (l2 : List Block) (s : AllocState) (l1 : List Block) (x : Block) (fl : List Nat)
      (fuel : Nat) (s2 : AllocState), WF s (l1 ++ x :: l2) fl → x.free = true →
      l2.length + fl.length < fuel → coalesce fuel s x.addr = some s2 →
      ∀ a, a ≠ x.addr → (∀ y ∈ l2, y.free = true → a ≠ y.addr) → (∀ c ∈ fl, a ≠ c + 8) →
        s2.mem a = s.mem a := by
  intro l2
  induction l2 with
  | nil =>
    intro s l1 x fl fuel s2 h hx hf hco a _ _ _
    obtain ⟨f, rfl⟩ : ∃ f, fuel = f + 1 := ⟨fuel - 1, by omega⟩
    have hxm : x ∈ l1 ++ [x] := by simp
    obtain ⟨_, _, _, _, _, hgx, _⟩ := WF_block h hxm
    obtain ⟨_, _, _, hend⟩ := Tiled_split.mp h.tiled
    have hend2 : x.addr + 8 + x.size = s.brk := hend
    simp only [coalesce, get_next_physical_block, hgx, METADATA_SIZE] at hco
    rw [if_neg (by omega)] at hco
    simp only [Option.some.injEq] at hco
    rw [← hco]
  | cons y t ih =>
    intro s l1 x fl fuel s2 h hx hf hco a hax hay hac
    obtain ⟨f, rfl⟩ : ∃ f, fuel = f + 1 := ⟨fuel - 1, by omega⟩
    have hxm : x ∈ l1 ++ x :: y :: t := by simp
    have hym : y ∈ l1 ++ x :: y :: t := by simp
    obtain ⟨_, _, _, _, _, hgx, _⟩ := WF_block h hxm
    obtain ⟨_, hye, _, _, _, _, hfy⟩ := WF_block h hym
    obtain ⟨_, _, _, hya, _⟩ := Tiled_split.mp h.tiled
    have hya2 : y.addr = x.addr + 8 + x.size := hya
    have hnext : get_next_physical_block s x.addr = y.addr := by
      simp only [get_next_physical_block, hgx, METADATA_SIZE]; omega
    by_cases hy : y.free = true
    · have h2 : WF s ((l1 ++ [x]) ++ y :: t) fl := by simpa using h
      obtain ⟨s1, f1, f2, hrem, hfl, hwf1, _, _, _, _, _, hframe⟩ :=
        remove_WF h2 hy (show fl.length ≤ f by omega)
      have hwf1b : WF s1 (l1 ++ x :: { addr := y.addr, size := y.size, free := false } :: t)
          (f1 ++ f2) := by simpa using hwf1
      have hmerge := merge_WF hwf1b hx rfl
      have hlen : t.length + (f1 ++ f2).length < f := by
        rw [hfl] at hf
        simp only [List.length_cons, List.length_append] at hf ⊢
        omega
      simp only [coalesce, hnext] at hco
      rw [if_pos ⟨by omega, by rw [hfy]; exact hy⟩, hrem] at hco
      have hco2 : coalesce f
          (set_size_and_status s1 x.addr
            ((get_size s1 x.addr + METADATA_SIZE + get_size s1 y.addr) % 2 ^ 64) true)
          x.addr = some s2 := hco
      have hstep := ih _ l1 { addr := x.addr, size := x.size + 8 + y.size, free := true }
        (f1 ++ f2) f s2 hmerge rfl hlen hco2 a hax
        (fun z hz hzf => hay z (List.mem_cons_of_mem _ hz) hzf)
        (fun c hc => hac c (by
          rw [hfl]
          rcases List.mem_append.mp hc with h1 | h1
          · exact List.mem_append_left _ h1
          · exact List.mem_append_right _ (List.mem_cons_of_mem _ h1)))
      rw [hstep]
      simp only [set_size_and_status_mem]
      rw [Function.update_apply, if_neg hax]
      exact hframe a (hay y (List.mem_cons_self _ _) hy)
        (fun c hc => hac c (by rw [hfl]; exact List.mem_append_left _ hc))
    · simp only [coalesce, hnext] at hco
      rw [if_neg (by rw [hfy]; exact fun hc => hy hc.2)] at hco
      simp only [Option.some.injEq] at hco
      rw [← hco]

/-- The words `myfree` may write: the header and the first payload word of
the released block, the headers of the free blocks after it, and the link
words of free-list nodes. -/
theorem myfree_frame {s s2 : AllocState} {l1 l2 : List Block} {x : Block} {fl : List Nat}
    (h : WF s (l1 ++ x :: l2) fl) (hx : x.free = false) {fuel : Nat}
    (hf : l2.length + fl.length + 1 < fuel) (hfree : myfree fuel s (x.addr + 8) = some s2) :
    ∀ a, a ≠ x.addr → a ≠ x.addr + 8 → (∀ y ∈ l2, y.free = true → a ≠ y.addr) →
      (∀ c ∈ fl, a ≠ c + 8) → s2.mem a = s.mem a := by
  intro a hax hax8 hay hac
  have hins := insert_WF h hx
  have hx0 := (WF_block h (show x ∈ l1 ++ x :: l2 by simp)).1
  simp only [myfree, METADATA_SIZE] at hfree
  rw [if_neg (by omega), Nat.add_sub_cancel] at hfree
  have := coalesce_frame l2 _ l1 { addr := x.addr, size := x.size, free := true } (x.addr :: fl)
    fuel s2 hins rfl (by simp only [List.length_cons]; omega) hfree a hax hay
    (fun c hc => by
      rcases List.mem_cons.mp hc with rfl | hc
      · exact hax8
      · exact hac c hc)
  rw [this]
  simp only [insert_to_freelist_mem]
  rw [Function.update_apply, if_neg hax8, Function.update_apply, if_neg hax]

/-- `myfree` leaves every word of every other allocated block as it was,
header and payload. -/
theorem myfree_keeps_allocated {s s2 : AllocState} {l1 l2 : List Block} {x : Block}
    {fl : List Nat} (h : WF s (l1 ++ x :: l2) fl) (hx : x.free = false) {fuel : Nat}
    (hf : l2.length + fl.length + 1 < fuel) (hfree : myfree fuel s (x.addr + 8) = some s2) :
    ∀ y ∈ l1 ++ l2, y.free = false → ∀ a, y.addr ≤ a → a < y.addr + 8 + y.size →
      s2.mem a = s.mem a := by
  intro y hy hyf a ha1 ha2
  have hym : y ∈ l1 ++ x :: l2 := mem_middle.mpr (Or.inr hy)
  have hxm : x ∈ l1 ++ x :: l2 := by simp
  have hxsz := (WF_block h hxm).2.2.1
  obtain ⟨_, hsep⟩ := Tiled_sep h.tiled y hy
  apply myfree_frame h hx hf hfree a
  · omega
  · omega
  · intro z hz hzf
    have hzm : z ∈ l1 ++ x :: l2 := by simp [hz]
    have hzs := (WF_block h hzm).2.2.1
    rcases Tiled_apart h.tiled y hym z hzm with h1 | h1 | h1
    · rw [h1, hzf] at hyf; exact absurd hyf (by simp)
    · omega
    · omega
  · intro c hc
    obtain ⟨z, hzm, hzf, hza⟩ := (WF_free_mem h).mp hc
    have hzs := (WF_block h hzm).2.2.1
    rcases Tiled_apart h.tiled y hym z hzm with h1 | h1 | h1
    · rw [h1, hzf] at hyf; exact absurd hyf (by simp)
    · omega
    · omega

theorem heap_big_free_WF :
    WF heap_big_free
      ([] ++ { addr := 4096, size := 104, free := true } ::
        [{ addr := 4208, size := 24, free := false }]) [4096] := by
  refine ⟨by decide, by decide, ⟨rfl, by decide, by decide, rfl, by decide, by decide, rfl⟩,
    ?_, ⟨rfl, by decide, rfl⟩, List.Perm.refl _⟩
  intro b hb
  simp only [List.nil_append, List.mem_cons, List.mem_singleton, List.not_mem_nil,
    or_false] at hb
  rcases hb with rfl | rfl <;> rfl

/-- C16 (as stated, refuted): on the empty heap no free-list block
qualifies for `mymalloc(32)`, but when `sbrk` refuses the request the heap
does not grow and no block is returned: the result is `NULL` with the break
where it was. -/
theorem refused_growth_returns_null :
    heap0.free_list = 0 ∧
      (mymalloc 8 heap0 32 false).map (fun r => (r.2, r.1.brk, r.1.heap_start)) =
        some (0, 4096, 0) := by
  constructor <;> rfl

/-- C16 (amended): on a well-formed heap, for a request `0 < n <= 2 ^ 63 - 16`
(so that the normalized size `R` plus the header is an increment `sbrk`
reads as positive), `mymalloc(n)` returns for enough fuel.  If some
free-list block has a recorded payload of at least `R`, it returns the
payload of the first such block `x` in free-list order, the heap does not
grow, and the other entries `f1 ++ f2` of the free list keep their order
(the remainder of a split is put in front of them).  If none has, it calls
`sbrk(R + header)`: when `sbrk` does not fail the heap has grown by exactly
`R + header`, the new block lies at the old heap end, is allocated with
payload `R` and is returned, and the free list is unchanged; when `sbrk`
fails, `mymalloc` returns `NULL` and changes nothing. -/
theorem first_fit_selection {s : AllocState} {bs : List Block} {fl : List Nat}
    (h : WF s bs fl) {n : Nat} (hn : 0 < n) (hle : n ≤ 2 ^ 63 - 16) (ok : Bool) {fuel : Nat}
    (hf : bs.length < fuel) :
    (∃ l1 x l2 f1 f2, bs = l1 ++ x :: l2 ∧ fl = f1 ++ x.addr :: f2 ∧
      (∀ a ∈ f1, get_size s a < request_size n) ∧ request_size n ≤ get_size s x.addr ∧
      ∃ s2 bs2, mymalloc fuel s n ok = some (s2, x.addr + METADATA_SIZE) ∧ s2.brk = s.brk ∧
        (WF s2 bs2 (f1 ++ f2) ∨
          WF s2 bs2 ((x.addr + METADATA_SIZE + request_size n) :: (f1 ++ f2)))) ∨
    ((∀ a ∈ fl, get_size s a < request_size n) ∧
      (((sbrk s (request_size n + METADATA_SIZE) ok).2 ≠ SBRK_FAILED ∧
          ∃ s2, mymalloc fuel s n ok = some (s2, s.brk + METADATA_SIZE) ∧
            s2.brk = s.brk + (request_size n + METADATA_SIZE) ∧
            get_size s2 s.brk = request_size n ∧ is_free s2 s.brk = false ∧
            s2.free_list = s.free_list ∧
            WF s2 (bs ++ [{ addr := s.brk, size := request_size n, free := false }]) fl) ∨
        ((sbrk s (request_size n + METADATA_SIZE) ok).2 = SBRK_FAILED ∧
          mymalloc fuel s n ok = some (s, 0)))) := by
  simp only [METADATA_SIZE]
  have hsmall := request_size_small hle
  have hbrk := h.brk_lt
  have hne : s.brk ≠ SBRK_FAILED := by simp only [SBRK_FAILED]; omega
  rcases mymalloc_spec h hn hle ok hf with
    ⟨hall, ⟨hok, hroom, s2, hm, hwf, hb, hfl⟩ | ⟨hno, hm⟩⟩ |
    ⟨l1, x, l2, f1, f2, hbs, hfl, hxf, hfirst, hfit, s2, hm, hb, hcase⟩
  · right
    have hans : (sbrk s (request_size n + 8) ok).2 ≠ SBRK_FAILED := by
      rcases sbrk_pos_cases s (request_size n + 8) ok hsmall with
        ⟨h0, _⟩ | ⟨_, _, _, hr⟩ | ⟨_, hno, _⟩
      · omega
      · rw [hr]; exact hne
      · exact absurd ⟨hok, hroom⟩ hno
    refine ⟨hall, Or.inl ⟨hans, s2, hm, hb, ?_, ?_, hfl, hwf⟩⟩
    · exact (WF_block hwf (show ({ addr := s.brk, size := request_size n, free := false } :
        Block) ∈ bs ++ [{ addr := s.brk, size := request_size n, free := false }] by
          simp)).2.2.2.2.2.1
    · exact (WF_block hwf (show ({ addr := s.brk, size := request_size n, free := false } :
        Block) ∈ bs ++ [{ addr := s.brk, size := request_size n, free := false }] by
          simp)).2.2.2.2.2.2
  · right
    have hans : (sbrk s (request_size n + 8) ok).2 = SBRK_FAILED := by
      rcases sbrk_pos_cases s (request_size n + 8) ok hsmall with
        ⟨h0, _⟩ | ⟨_, hok, hroom, _⟩ | ⟨_, _, hr⟩
      · omega
      · exact absurd ⟨hok, hroom⟩ hno
      · rw [hr]
    exact ⟨hall, Or.inr ⟨hans, hm⟩⟩
  · left
    have hgx := (WF_block h (show x ∈ bs by rw [hbs]; simp)).2.2.2.2.2.1
    refine ⟨l1, x, l2, f1, f2, hbs, hfl, hfirst, by rw [hgx]; exact hfit, s2, ?_⟩
    rcases hcase with ⟨_, hwf⟩ | ⟨_, hwf⟩
    · exact ⟨_, hm, hb, Or.inr hwf⟩
    · exact ⟨_, hm, hb, Or.inl hwf⟩

/-- C16 witness: `mymalloc(8)` on the heap with one free block of payload 24
before an allocated block. -/
theorem first_fit_selection_witness :
    (∃ l1 x l2 f1 f2, ([{ addr := 4096, size := 24, free := true }] ++
        { addr := 4128, size := 40, free := false } :: [] : List Block) = l1 ++ x :: l2 ∧
      [4096] = f1 ++ x.addr :: f2 ∧
      (∀ a ∈ f1, get_size heap_one_free a < request_size 8) ∧
      request_size 8 ≤ get_size heap_one_free x.addr ∧
      ∃ s2 bs2, mymalloc 8 heap_one_free 8 true = some (s2, x.addr + METADATA_SIZE) ∧
        s2.brk = heap_one_free.brk ∧
        (WF s2 bs2 (f1 ++ f2) ∨
          WF s2 bs2 ((x.addr + METADATA_SIZE + request_size 8) :: (f1 ++ f2)))) ∨
    ((∀ a ∈ [4096], get_size heap_one_free a < request_size 8) ∧
      (((sbrk heap_one_free (request_size 8 + METADATA_SIZE) true).2 ≠ SBRK_FAILED ∧
          ∃ s2, mymalloc 8 heap_one_free 8 true =
              some (s2, heap_one_free.brk + METADATA_SIZE) ∧
            s2.brk = heap_one_free.brk + (request_size 8 + METADATA_SIZE) ∧
            get_size s2 heap_one_free.brk = request_size 8 ∧
            is_free s2 heap_one_free.brk = false ∧
            s2.free_list = heap_one_free.free_list ∧
            WF s2 (([{ addr := 4096, size := 24, free := true }] ++
                { addr := 4128, size := 40, free := false } :: [] : List Block) ++
              [{ addr := heap_one_free.brk, size := request_size 8, free := false }])
              [4096]) ∨
        ((sbrk heap_one_free (request_size 8 + METADATA_SIZE) true).2 = SBRK_FAILED ∧
          mymalloc 8 heap_one_free 8 true = some (heap_one_free, 0)))) :=
  first_fit_selection heap_one_free_WF (by decide) (by decide) true (by decide)

/-- C17: on a well-formed heap, when the first-fit scan of `mymalloc(n)`
selects the free block `x` of payload `S` for the normalized request `R`,
the call returns the payload of `x`, and `x` is split exactly when
`S >= R + header + MIN_ALLOC`.  When split, `x` has payload `R` and is
allocated, and the block that begins right after it, at
`x + header + R`, is free with payload `S - R - header`, is the head of the
free list and links to the old list; so `R + header + remainder = S`.
When not split, `x` keeps payload `S`, is allocated, and the heap has the
same blocks as before. -/
theorem split_policy {s : AllocState} {l1 l2 : List Block} {x : Block} {fl : List Nat}
    (h : WF s (l1 ++ x :: l2) fl) (hx : x.free = true) {n : Nat} (hn : 0 < n)
    (ok : Bool) {fuel : Nat} (hf : fl.length < fuel)
    (hff : first_fit fuel s (request_size n) s.free_list = some x.addr) :
    ∃ s2 f1 f2, mymalloc fuel s n ok = some (s2, x.addr + METADATA_SIZE) ∧
      fl = f1 ++ x.addr :: f2 ∧ get_size s x.addr = x.size ∧
      (get_size s2 x.addr ≠ x.size ↔ request_size n + METADATA_SIZE + MIN_ALLOC ≤ x.size) ∧
      (request_size n + METADATA_SIZE + MIN_ALLOC ≤ x.size →
        get_size s2 x.addr = request_size n ∧ is_free s2 x.addr = false ∧
        s2.free_list = x.addr + METADATA_SIZE + request_size n ∧
        get_size s2 (x.addr + METADATA_SIZE + request_size n) =
          x.size - request_size n - METADATA_SIZE ∧
        is_free s2 (x.addr + METADATA_SIZE + request_size n) = true ∧
        FreeChain s2.mem s2.free_list
          ((x.addr + METADATA_SIZE + request_size n) :: (f1 ++ f2)) ∧
        request_size n + METADATA_SIZE + (x.size - request_size n - METADATA_SIZE) = x.size) ∧
      (x.size < request_size n + METADATA_SIZE + MIN_ALLOC →
        get_size s2 x.addr = x.size ∧ is_free s2 x.addr = false ∧
        WF s2 (l1 ++ { addr := x.addr, size := x.size, free := false } :: l2) (f1 ++ f2)) := by
  have hn0 : n ≠ 0 := by omega
  obtain ⟨hx0, _, _, _, hxs, hgx, _⟩ := WF_block h (show x ∈ l1 ++ x :: l2 by simp)
  have hRS : request_size n ≤ x.size := by
    obtain ⟨b, hb, hcase⟩ := first_fit_spec s (request_size n) fl s.free_list fuel h.chain hf
    rw [hff] at hb
    simp only [Option.some.injEq] at hb
    subst hb
    rcases hcase with ⟨h0, _⟩ | ⟨_, _, _, _, _, hge⟩
    · omega
    · rw [hgx] at hge; exact hge
  obtain ⟨s1, f1, f2, hrem, hfl, hwf1, _⟩ := remove_WF h hx (show fl.length ≤ fuel by omega)
  obtain ⟨_, _, _, _, _, hgs1, hfr1⟩ := WF_block hwf1
    (show ({ addr := x.addr, size := x.size, free := false } : Block)
      ∈ l1 ++ { addr := x.addr, size := x.size, free := false } :: l2 by simp)
  simp only at hgs1 hfr1
  refine ⟨split_block s1 x.addr (request_size n), f1, f2,
    mymalloc_fit ok hn0 (by omega) hff hrem, hfl, hgx, ?_⟩
  simp only [METADATA_SIZE, MIN_ALLOC]
  by_cases hsplit : request_size n + 32 ≤ x.size
  · obtain ⟨r1, r2, r3, r4, r5, r6⟩ := split_block_reads hgs1 hxs hsplit
    refine ⟨⟨fun _ => by omega, fun _ => by rw [r1]; omega⟩,
      fun _ => ⟨r1, r2, r3, r4, r5, ?_, by omega⟩, fun hc => by omega⟩
    rw [r3]
    refine ⟨rfl, by omega, ?_⟩
    have r6b : (split_block s1 x.addr (request_size n)).mem (x.addr + 8 + request_size n + 8) =
        s1.free_list := r6
    rw [r6b]
    apply FreeChain_frame s1.mem _ _ _ _ hwf1.chain
    intro a ha
    obtain ⟨y, hy, _, hya⟩ := WF_fl_other hwf1 rfl a ha
    obtain ⟨_, hsep⟩ := Tiled_sep hwf1.tiled y hy
    simp only at hsep
    rw [split_block_eq hgs1 hxs hsplit]
    simp only [insert_to_freelist_mem, set_size_and_status_mem]
    rw [Function.update_apply, if_neg (by omega), Function.update_apply, if_neg (by omega),
      Function.update_apply, if_neg (by omega), Function.update_apply, if_neg (by omega)]
  · rw [split_block_none (by rw [hgs1]; omega) (by omega)]
    exact ⟨⟨fun hne => absurd hgs1 hne, fun hc => by omega⟩, fun hc => by omega,
      fun _ => ⟨hgs1, hfr1, hwf1⟩⟩

/-- C17 witness: `mymalloc(16)` on the heap whose only free block has payload
104: the block is split into payloads 24 and 72. -/
theorem split_policy_witness :
    ∃ s2 f1 f2, mymalloc 8 heap_big_free 16 true = some (s2, 4096 + METADATA_SIZE) ∧
      [4096] = f1 ++ 4096 :: f2 ∧ get_size heap_big_free 4096 = 104 ∧
      (get_size s2 4096 ≠ 104 ↔ request_size 16 + METADATA_SIZE + MIN_ALLOC ≤ 104) ∧
      (request_size 16 + METADATA_SIZE + MIN_ALLOC ≤ 104 →
        get_size s2 4096 = request_size 16 ∧ is_free s2 4096 = false ∧
        s2.free_list = 4096 + METADATA_SIZE + request_size 16 ∧
        get_size s2 (4096 + METADATA_SIZE + request_size 16) =
          104 - request_size 16 - METADATA_SIZE ∧
        is_free s2 (4096 + METADATA_SIZE + request_size 16) = true ∧
        FreeChain s2.mem s2.free_list
          ((4096 + METADATA_SIZE + request_size 16) :: (f1 ++ f2)) ∧
        request_size 16 + METADATA_SIZE + (104 - request_size 16 - METADATA_SIZE) = 104) ∧
      (104 < request_size 16 + METADATA_SIZE + MIN_ALLOC →
        get_size s2 4096 = 104 ∧ is_free s2 4096 = false ∧
        WF s2 ([] ++ { addr := 4096, size := 104, free := false } ::
          [{ addr := 4208, size := 24, free := false }]) (f1 ++ f2)) :=
  split_policy heap_big_free_WF rfl (by decide) true (by decide) rfl

theorem heap_four_WF :
    WF heap_four
      ([{ addr := 4096, size := 24, free := true }] ++
        { addr := 4128, size := 24, free := false } ::
          [{ addr := 4160, size := 24, free := true },
            { addr := 4192, size := 24, free := false }]) [4096, 4160] := by
  refine ⟨by decide, by decide,
    ⟨rfl, by decide, by decide, rfl, by decide, by decide, rfl, by decide, by decide, rfl,
      by decide, by decide, rfl⟩,
    ?_, ⟨rfl, by decide, rfl, by decide, rfl⟩, List.Perm.refl _⟩
  intro b hb
  simp only [List.singleton_append, List.mem_cons, List.mem_singleton, List.not_mem_nil,
    or_false] at hb
  rcases hb with rfl | rfl | rfl | rfl <;> rfl

/-- C18 (as stated, refuted): on the heap of four blocks of payload 24 at
4096, 4128, 4160 and 4192, the first and the third free, `myfree` of the
second block at 4128 rewrites a word of the free block physically before
it: the free-list link at 4104, inside the block at 4096, pointed to the
block at 4160 and is `NULL` afterwards, because that block was absorbed. -/
theorem release_rewrites_earlier_link :
    (is_free heap_four 4096, get_size heap_four 4096, is_free heap_four 4128,
      heap_four.free_list, heap_four.mem 4104) = (true, 24, false, 4096, 4160) ∧
    (myfree 8 heap_four (4128 + METADATA_SIZE)).map
      (fun s2 => (s2.mem 4104, s2.free_list, get_size s2 4128)) = some (0, 4128, 56) := by
  constructor <;> rfl

/-- C18: on a well-formed heap, `myfree(p)` for the payload pointer `p` of
the allocated block `x` returns, for enough fuel, with `x` marked free and
at the head of the free list.  `x` has absorbed `run`, the maximal run of
free blocks among the blocks `l2` that follow it up to `heap_end`: its
payload is the old one plus header and payload of every block of `run`,
no block of `run` is on the free list any more, and every other entry of
the free list is still there.  The block that now follows `x`, if there is
one, starts where `x` ends and is allocated; the blocks `l1` before `x` are
the same blocks with the same headers, and every other allocated block of
the heap keeps every word of its header and payload.  The only words
written are the header of `x`, the headers of the free blocks after it, and
free-list links: the first payload word of `x` and of blocks that were on
the free list.  The heap bounds are unchanged.  `myfree(NULL)` changes
nothing. -/
theorem release_postcondition {s : AllocState} {l1 l2 : List Block} {x : Block}
    {fl : List Nat} (h : WF s (l1 ++ x :: l2) fl) (hx : x.free = false) {fuel : Nat}
    (hf : l2.length + fl.length + 1 < fuel) :
    myfree fuel s 0 = some s ∧
    ∃ s2 run rest fl2, myfree fuel s (x.addr + METADATA_SIZE) = some s2 ∧
      l2 = run ++ rest ∧ (∀ y ∈ run, y.free = true) ∧
      (∀ y, rest.head? = some y → y.free = false) ∧
      WF s2 (l1 ++ { addr := x.addr, size := absorbed x.size run, free := true } :: rest) fl2 ∧
      is_free s2 x.addr = true ∧ s2.free_list = x.addr ∧
      get_size s2 x.addr = x.size + (run.map (fun y => METADATA_SIZE + y.size)).sum ∧
      (∀ y ∈ run, y.addr ∉ fl2) ∧
      (∀ a ∈ fl, (∀ y ∈ run, y.addr ≠ a) → a ∈ fl2) ∧
      (∀ a ∈ fl2, a = x.addr ∨ a ∈ fl) ∧
      (∀ y, rest.head? = some y →
        y.addr = get_next_physical_block s2 x.addr ∧ y.addr < s2.brk ∧
          is_free s2 y.addr = false) ∧
      (rest = [] → get_next_physical_block s2 x.addr = s2.brk) ∧
      (∀ y ∈ l1, s2.mem y.addr = s.mem y.addr ∧ get_size s2 y.addr = y.size ∧
        is_free s2 y.addr = y.free) ∧
      (∀ y ∈ l1 ++ l2, y.free = false → ∀ a, y.addr ≤ a →
        a < y.addr + METADATA_SIZE + y.size → s2.mem a = s.mem a) ∧
      (∀ a, a ≠ x.addr → a ≠ x.addr + METADATA_SIZE →
        (∀ y ∈ l2, y.free = true → a ≠ y.addr) → (∀ c ∈ fl, a ≠ c + METADATA_SIZE) →
        s2.mem a = s.mem a) ∧
      s2.brk = s.brk ∧ s2.heap_start = s.heap_start := by
  refine ⟨by simp [myfree], ?_⟩
  obtain ⟨s2, run, rest, fl2, hfree, hl2, hrun, hrest, hwf, hsub, hbrk, hhs, hhead⟩ :=
    myfree_spec h hx hf
  have hkeep := myfree_keeps_allocated h hx hf hfree
  have hframe := myfree_frame h hx hf hfree
  subst hl2
  have hxm : ({ addr := x.addr, size := absorbed x.size run, free := true } : Block) ∈
      l1 ++ { addr := x.addr, size := absorbed x.size run, free := true } :: rest := by simp
  obtain ⟨_, _, _, _, _, hgx, hfx⟩ := WF_block hwf hxm
  simp only at hgx hfx
  have hnext : get_next_physical_block s2 x.addr = x.addr + 8 + absorbed x.size run := by
    simp only [get_next_physical_block, METADATA_SIZE, hgx]
  obtain ⟨_, _, _, htail⟩ := Tiled_split.mp hwf.tiled
  simp only at htail
  refine ⟨s2, run, rest, fl2, hfree, rfl, hrun, hrest, hwf, hfx, hhead, ?_, ?_, ?_, ?_, ?_, ?_,
    ?_, hkeep, hframe, hbrk, hhs⟩
  · rw [hgx]; simp only [absorbed, METADATA_SIZE]
  · intro y hy hmem
    obtain ⟨b, hb, _, hba⟩ := (WF_free_mem hwf).mp hmem
    obtain ⟨a1, a2, a3⟩ := run_addr_apart h.tiled y hy
    rcases mem_middle.mp hb with rfl | hb
    · simp only at hba; omega
    · rcases List.mem_append.mp hb with h1 | h1
      · have := a1 b h1; omega
      · have := a3 b h1; omega
  · intro a ha hno
    obtain ⟨b, hb, hbf, hba⟩ := (WF_free_mem h).mp ha
    apply (WF_free_mem hwf).mpr
    rcases mem_middle.mp hb with rfl | hb
    · rw [hx] at hbf; exact absurd hbf (by simp)
    · rcases List.mem_append.mp hb with h1 | h1
      · exact ⟨b, by simp [h1], hbf, hba⟩
      · rcases List.mem_append.mp h1 with h2 | h2
        · exact absurd hba (hno b h2)
        · exact ⟨b, by simp [h2], hbf, hba⟩
  · intro a ha
    exact List.mem_cons.mp (hsub.subset ha)
  · intro y hy
    cases rest with
    | nil => simp at hy
    | cons z t =>
      simp only [List.head?_cons, Option.some.injEq] at hy
      subst hy
      obtain ⟨_, hend, _, _, _, _, hfz⟩ := WF_block hwf (show z ∈ l1 ++
        { addr := x.addr, size := absorbed x.size run, free := true } :: z :: t by simp)
      refine ⟨?_, by omega, ?_⟩
      · rw [hnext]; exact htail.1
      · rw [hfz]; exact hrest z rfl
  · intro hr
    subst hr
    rw [hnext]; exact htail
  · intro y hy
    obtain ⟨_, _, _, _, _, hg, hfy⟩ := WF_block hwf (show y ∈ l1 ++
      { addr := x.addr, size := absorbed x.size run, free := true } :: rest by simp [hy])
    refine ⟨?_, hg, hfy⟩
    rw [hwf.headers y (by simp [hy]), h.headers y (by simp [hy])]

/-- C18 witness: on the heap of four blocks of payload 24, the first and
the third free, releasing the second block absorbs the third: `run` is the
free block at 4160 and `rest` the allocated block at 4192. -/
theorem release_postcondition_witness :
    myfree 8 heap_four 0 = some heap_four ∧
    ∃ s2 run rest fl2, myfree 8 heap_four (4128 + METADATA_SIZE) = some s2 ∧
      [({ addr := 4160, size := 24, free := true } : Block),
        { addr := 4192, size := 24, free := false }] = run ++ rest ∧
      (∀ y ∈ run, y.free = true) ∧
      (∀ y, rest.head? = some y → y.free = false) ∧
      WF s2 ([{ addr := 4096, size := 24, free := true }] ++
        { addr := 4128, size := absorbed 24 run, free := true } :: rest) fl2 ∧
      is_free s2 4128 = true ∧ s2.free_list = 4128 ∧
      get_size s2 4128 = 24 + (run.map (fun y => METADATA_SIZE + y.size)).sum ∧
      (∀ y ∈ run, y.addr ∉ fl2) ∧
      (∀ a ∈ [4096, 4160], (∀ y ∈ run, y.addr ≠ a) → a ∈ fl2) ∧
      (∀ a ∈ fl2, a = 4128 ∨ a ∈ [4096, 4160]) ∧
      (∀ y, rest.head? = some y →
        y.addr = get_next_physical_block s2 4128 ∧ y.addr < s2.brk ∧
          is_free s2 y.addr = false) ∧
      (rest = [] → get_next_physical_block s2 4128 = s2.brk) ∧
      (∀ y ∈ [({ addr := 4096, size := 24, free := true } : Block)],
        s2.mem y.addr = heap_four.mem y.addr ∧ get_size s2 y.addr = y.size ∧
        is_free s2 y.addr = y.free) ∧
      (∀ y ∈ [({ addr := 4096, size := 24, free := true } : Block)] ++
          [{ addr := 4160, size := 24, free := true },
            { addr := 4192, size := 24, free := false }], y.free = false →
        ∀ a, y.addr ≤ a → a < y.addr + METADATA_SIZE + y.size →
          s2.mem a = heap_four.mem a) ∧
      (∀ a, a ≠ 4128 → a ≠ 4128 + METADATA_SIZE →
        (∀ y ∈ [({ addr := 4160, size := 24, free := true } : Block),
            { addr := 4192, size := 24, free := false }], y.free = true → a ≠ y.addr) →
        (∀ c ∈ [4096, 4160], a ≠ c + METADATA_SIZE) →
        s2.mem a = heap_four.mem a) ∧
      s2.brk = heap_four.brk ∧ s2.heap_start = heap_four.heap_start :=
  release_postcondition heap_four_WF rfl (by decide)

/-- C19 (failing input): after `alloc(SIZE_MAX) = p0; alloc(24) = p1;
release(p1); release(p0)` the free list is `4096 -> 4104 -> NULL`: the block
of `p1 = 4112`, whose header is at 4104, is on the free list, but its free
bit is clear, because `release(p0)` stored the free-list link of the empty
block of `p0` in that header. -/
theorem free_list_holds_unmarked_block :
    script_stale_link.map (fun r => (r.2.1, r.2.2, r.1.free_list,
      get_next_freelist r.1 r.1.free_list,
      get_next_freelist r.1 (get_next_freelist r.1 r.1.free_list),
      is_free r.1 (r.2.2 - METADATA_SIZE), r.1.mem (r.2.2 - METADATA_SIZE))) =
    some (4104, 4112, 4096, 4104, 0, false, 4104) := by rfl

/-- C20: on a well-formed heap `mymalloc` and `myfree` return for a fuel
given by the size of the heap.  The first-fit scan and the scan of
`remove_from_freelist` examine a list of free-list nodes without
repetition, so each node at most once.  `coalesce` on the released block
`x` makes `c` recursive calls with `c` at most the number of blocks after
`x`: every call moves the end of `x` up by at least a header and a
minimal payload, and the end never passes `heap_end`. -/
theorem alloc_terminates {s : AllocState} {bs : List Block} {fl : List Nat}
    (h : WF s bs fl) :
    (∀ n ok fuel, bs.length < fuel → ∃ r, mymalloc fuel s n ok = some r) ∧
    (∀ R fuel, fl.length < fuel →
      ∃ r, first_fit_visits fuel s R s.free_list = some r ∧
        first_fit fuel s R s.free_list = some r.1 ∧ r.2.Nodup ∧ r.2.Sublist fl) ∧
    (∀ b fuel, fl.length < fuel →
      ∃ r, find_prev_visits fuel s b s.free_list = some r ∧
        find_prev fuel s b s.free_list = some r.1 ∧ r.2.Nodup ∧ r.2.Sublist fl) ∧
    ∀ l1 x l2 fuel, bs = l1 ++ x :: l2 → x.free = false → l2.length + fl.length + 1 < fuel →
      ∃ s2 c, myfree fuel s (x.addr + METADATA_SIZE) = some s2 ∧
        coalesce_calls fuel (insert_to_freelist s x.addr) x.addr = some (s2, c) ∧
        c ≤ l2.length ∧
        get_next_physical_block s x.addr + (METADATA_SIZE + MIN_ALLOC) * c ≤
          get_next_physical_block s2 x.addr ∧
        get_next_physical_block s2 x.addr ≤ s2.brk := by
  have hnd := WF_fl_nodup h
  refine ⟨fun n ok fuel hf => mymalloc_returns h n ok hf, ?_, ?_, ?_⟩
  · intro R fuel hf
    obtain ⟨r, hr, hp⟩ := first_fit_visits_chain s R fl s.free_list fuel h.chain hf
    refine ⟨r, hr, ?_, hnd.sublist hp.sublist, hp.sublist⟩
    rw [← first_fit_visits_fst, hr]; rfl
  · intro b fuel hf
    obtain ⟨r, hr, hp⟩ := find_prev_visits_chain s b fl s.free_list fuel h.chain hf
    refine ⟨r, hr, ?_, hnd.sublist hp.sublist, hp.sublist⟩
    rw [← find_prev_visits_fst, hr]; rfl
  · intro l1 x l2 fuel hbs hx hf
    subst hbs
    obtain ⟨s2, run, rest, fl2, hfree, hl2, hrun, hrest, hwf, _, _, _, _⟩ := myfree_spec h hx hf
    have hins := insert_WF h hx
    obtain ⟨r, run2, rest2, hco, hl22, hcount, hrun2, hrest2⟩ :=
      coalesce_calls_spec l2 _ l1 { addr := x.addr, size := x.size, free := true }
        (x.addr :: fl) fuel hins rfl (by simp only [List.length_cons]; omega)
    have hco2 : coalesce_calls fuel (insert_to_freelist s x.addr) x.addr = some r := hco
    have hsame : run2 = run :=
      free_run_unique run2 run rest2 rest (by rw [← hl22, ← hl2]) hrun2 hrun hrest2 hrest
    subst hsame
    have hr1 : r.1 = s2 := by
      have e := coalesce_calls_fst fuel (insert_to_freelist s x.addr) x.addr
      rw [hco2] at e
      have hfree2 : coalesce fuel (insert_to_freelist s x.addr) x.addr = some s2 := by
        have := hfree
        simp only [myfree, METADATA_SIZE] at this
        rw [if_neg (by omega), Nat.add_sub_cancel] at this
        exact this
      rw [hfree2] at e
      simpa using e
    obtain ⟨_, _, _, _, _, hgx, _⟩ := WF_block h (show x ∈ l1 ++ x :: l2 by simp)
    obtain ⟨_, hend, _, _, _, hgx2, _⟩ := WF_block hwf
      (show ({ addr := x.addr, size := absorbed x.size run2, free := true } : Block) ∈
        l1 ++ { addr := x.addr, size := absorbed x.size run2, free := true } :: rest by simp)
    simp only at hend hgx2
    have hsizes : ∀ y ∈ run2, 24 ≤ y.size := by
      intro y hy
      exact (WF_block h (show y ∈ l1 ++ x :: l2 by rw [hl2]; simp [hy])).2.2.1
    have hgrow := absorbed_grows x.size run2 hsizes
    refine ⟨s2, r.2, hfree, ?_, ?_, ?_, ?_⟩
    · rw [hco2, ← hr1]
    · rw [hcount, hl2]; simp
    · simp only [get_next_physical_block, METADATA_SIZE, MIN_ALLOC, hgx, hgx2, hcount]
      omega
    · simp only [get_next_physical_block, METADATA_SIZE, hgx2]
      omega

/-- C20 witness: the heap with a free block of payload 24 before an allocated
block of payload 40. -/
theorem alloc_terminates_witness :
    (∀ n ok fuel, ([{ addr := 4096, size := 24, free := true }] ++
        { addr := 4128, size := 40, free := false } :: [] : List Block).length < fuel →
      ∃ r, mymalloc fuel heap_one_free n ok = some r) ∧
    (∀ R fuel, [4096].length < fuel →
      ∃ r, first_fit_visits fuel heap_one_free R heap_one_free.free_list = some r ∧
        first_fit fuel heap_one_free R heap_one_free.free_list = some r.1 ∧ r.2.Nodup ∧
        r.2.Sublist [4096]) ∧
    (∀ b fuel, [4096].length < fuel →
      ∃ r, find_prev_visits fuel heap_one_free b heap_one_free.free_list = some r ∧
        find_prev fuel heap_one_free b heap_one_free.free_list = some r.1 ∧ r.2.Nodup ∧
        r.2.Sublist [4096]) ∧
    ∀ l1 x l2 fuel, ([{ addr := 4096, size := 24, free := true }] ++
        { addr := 4128, size := 40, free := false } :: [] : List Block) = l1 ++ x :: l2 →
      x.free = false → l2.length + [4096].length + 1 < fuel →
      ∃ s2 c, myfree fuel heap_one_free (x.addr + METADATA_SIZE) = some s2 ∧
        coalesce_calls fuel (insert_to_freelist heap_one_free x.addr) x.addr = some (s2, c) ∧
        c ≤ l2.length ∧
        get_next_physical_block heap_one_free x.addr + (METADATA_SIZE + MIN_ALLOC) * c ≤
          get_next_physical_block s2 x.addr ∧
        get_next_physical_block s2 x.addr ≤ s2.brk :=
  alloc_terminates heap_one_free_WF

end Alloc

namespace KV

/-! ## Key-value store: chains and lookup -/

theorem IsChain_ne_zero (ht : hashtable_t) :
    ∀ (l : List Nat) (prev head : Nat), IsChain ht prev head l → ∀ p ∈ l, p ≠ 0 := by
  intro l
  induction l with
  | nil => intro _ _ _ p hp; simp at hp
  | cons a rest ih =>
    intro prev head h p hp
    obtain ⟨_, ha, _, hrest⟩ := h
    rcases List.mem_cons.mp hp with rfl | hp
    · exact ha
    · exact ih _ _ hrest p hp

theorem IsChain_frame (ht ht2 : hashtable_t) :
    ∀ (l : List Nat) (prev head : Nat),
      (∀ p ∈ l, (ht2.node p).next = (ht.node p).next ∧ (ht2.node p).prev = (ht.node p).prev) →
      IsChain ht prev head l → IsChain ht2 prev head l := by
  intro l
  induction l with
  | nil => intro _ _ _ h; exact h
  | cons a rest ih =>
    intro prev head hag h
    obtain ⟨h1, h2, h3, h4⟩ := h
    have ha := hag a (List.mem_cons_self _ _)
    refine ⟨h1, h2, by rw [ha.2]; exact h3, ?_⟩
    rw [ha.1]
    exact ih _ _ (fun p hp => hag p (List.mem_cons_of_mem _ hp)) h4

theorem IsChain_functional (ht : hashtable_t) :
    ∀ (l l2 : List Nat) (prev prev2 head : Nat),
      IsChain ht prev head l → IsChain ht prev2 head l2 → l = l2 := by
  intro l
  induction l with
  | nil =>
    intro l2 _ _ head h h2
    cases l2 with
    | nil => rfl
    | cons b t =>
      obtain ⟨e, hb, _⟩ := h2
      have h0 : head = 0 := h
      omega
  | cons a rest ih =>
    intro l2 prev prev2 head h h2
    obtain ⟨e, ha, _, hrest⟩ := h
    cases l2 with
    | nil =>
      have h0 : head = 0 := h2
      omega
    | cons b t =>
      obtain ⟨e2, _, _, hrest2⟩ := h2
      have hab : a = b := by omega
      subst hab
      rw [ih t _ _ _ hrest hrest2]

theorem find_item_spec (ht : hashtable_t) (key : Key) :
    ∀ (l : List Nat) (prev head fuel : Nat), IsChain ht prev head l → l.length < fuel →
      ∃ p, find_item ht key fuel head = some p ∧
        ((p = 0 ∧ ∀ q ∈ l, (ht.node q).key ≠ key) ∨ (p ∈ l ∧ (ht.node p).key = key)) := by
  intro l
  induction l with
  | nil =>
    intro prev head fuel h hf
    have h0 : head = 0 := h
    obtain ⟨f, rfl⟩ : ∃ f, fuel = f + 1 := ⟨fuel - 1, by simp at hf; omega⟩
    refine ⟨0, ?_, Or.inl ⟨rfl, by simp⟩⟩
    simp [find_item, h0]
  | cons a rest ih =>
    intro prev head fuel h hf
    obtain ⟨e, ha, _, hrest⟩ := h
    obtain ⟨f, rfl⟩ : ∃ f, fuel = f + 1 := ⟨fuel - 1, by simp at hf; omega⟩
    subst e
    by_cases hk : (ht.node head).key = key
    · refine ⟨head, ?_, Or.inr ⟨List.mem_cons_self _ _, hk⟩⟩
      simp [find_item, hk]
    · obtain ⟨p, hp, hcase⟩ := ih _ _ f hrest (by simp at hf; omega)
      refine ⟨p, ?_, ?_⟩
      · simp [find_item, hk, ha, hp]
      · rcases hcase with ⟨h0, hall⟩ | ⟨hm, hkey⟩
        · left
          refine ⟨h0, ?_⟩
          intro q hq
          rcases List.mem_cons.mp hq with rfl | hq
          · exact hk
          · exact hall q hq
        · right; exact ⟨List.mem_cons_of_mem _ hm, hkey⟩

theorem TableInv_ne_zero {hash : Key → Nat} {ht : hashtable_t} {ch : Nat → List Nat}
    (h : TableInv hash ht ch) {b p : Nat} (hb : b < HT_CAPACITY) (hp : p ∈ ch b) : p ≠ 0 :=
  IsChain_ne_zero ht _ _ _ (h.chains b hb) p hp

theorem TableInv_nodup {hash : Key → Nat} {ht : hashtable_t} {ch : Nat → List Nat}
    (h : TableInv hash ht ch) {b : Nat} (hb : b < HT_CAPACITY) : (ch b).Nodup :=
  List.Nodup.of_map _ (h.unique b hb)

theorem TableInv_same_bucket {hash : Key → Nat} {ht : hashtable_t} {ch : Nat → List Nat}
    (h : TableInv hash ht ch) {b b2 p : Nat} (hb : b < HT_CAPACITY) (hb2 : b2 < HT_CAPACITY)
    (hp : p ∈ ch b) (hp2 : p ∈ ch b2) : b = b2 := by
  rw [← h.hashed b hb p hp, ← h.hashed b2 hb2 p hp2]

theorem TableInv_key_inj {hash : Key → Nat} {ht : hashtable_t} {ch : Nat → List Nat}
    (h : TableInv hash ht ch) {b p q : Nat} (hb : b < HT_CAPACITY)
    (hp : p ∈ ch b) (hq : q ∈ ch b) (hk : (ht.node p).key = (ht.node q).key) : p = q :=
  List.inj_on_of_nodup_map (h.unique b hb) hp hq hk

theorem TableInv_inTable_iff {hash : Key → Nat} {ht : hashtable_t} {ch : Nat → List Nat}
    (h : TableInv hash ht ch) (p : Nat) :
    InTable ht p ↔ ∃ b, b < HT_CAPACITY ∧ p ∈ ch b := by
  constructor
  · rintro ⟨b, l, hb, hl, hp⟩
    have := IsChain_functional ht _ _ _ _ _ hl (h.chains b hb)
    subst this
    exact ⟨b, hb, hp⟩
  · rintro ⟨b, hb, hp⟩
    exact ⟨b, ch b, hb, h.chains b hb, hp⟩

theorem bucket_lt (hash : Key → Nat) (k : Key) : hash k % HT_CAPACITY < HT_CAPACITY :=
  Nat.mod_lt _ (by decide)

theorem TableInv_holds_iff {hash : Key → Nat} {ht : hashtable_t} {ch : Nat → List Nat}
    (h : TableInv hash ht ch) (k : Key) (value : Option (List Nat)) (size : Nat) :
    Holds ht k value size ↔ ∃ p ∈ ch (hash k % HT_CAPACITY), (ht.node p).key = k ∧
      (ht.node p).value = value ∧ (ht.node p).value_size = size := by
  constructor
  · rintro ⟨p, hin, hk, hv, hs⟩
    obtain ⟨b, hb, hp⟩ := (TableInv_inTable_iff h p).mp hin
    have := h.hashed b hb p hp
    rw [hk] at this
    rw [this]
    exact ⟨p, hp, hk, hv, hs⟩
  · rintro ⟨p, hp, hk, hv, hs⟩
    exact ⟨p, (TableInv_inTable_iff h p).mpr ⟨_, bucket_lt hash k, hp⟩, hk, hv, hs⟩

theorem TableInv_hasKey_iff {hash : Key → Nat} {ht : hashtable_t} {ch : Nat → List Nat}
    (h : TableInv hash ht ch) (k : Key) :
    HasKey ht k ↔ ∃ p ∈ ch (hash k % HT_CAPACITY), (ht.node p).key = k := by
  constructor
  · rintro ⟨p, hin, hk⟩
    obtain ⟨b, hb, hp⟩ := (TableInv_inTable_iff h p).mp hin
    have := h.hashed b hb p hp
    rw [hk] at this
    rw [this]
    exact ⟨p, hp, hk⟩
  · rintro ⟨p, hp, hk⟩
    exact ⟨p, (TableInv_inTable_iff h p).mpr ⟨_, bucket_lt hash k, hp⟩, hk⟩

theorem init_TableInv (hash : Key → Nat) (node0 : Nat → hash_item_t) :
    TableInv hash (init_hashtable node0) (fun _ => []) := by
  refine ⟨rfl, ?_, ?_, ?_⟩
  · intro b _; rfl
  · intro b _ p hp; simp at hp
  · intro b _; simp

theorem IsChain_head_mem (ht : hashtable_t) {prev head : Nat} {l : List Nat}
    (h : IsChain ht prev head l) (h0 : head ≠ 0) : head ∈ l := by
  cases l with
  | nil => exact absurd h h0
  | cons a t => obtain ⟨e, _⟩ := h; rw [e]; exact List.mem_cons_self _ _

theorem TableInv_find {hash : Key → Nat} {ht : hashtable_t} {ch : Nat → List Nat}
    (h : TableInv hash ht ch) (k : Key) {fuel : Nat}
    (hf : (ch (hash k % HT_CAPACITY)).length < fuel) :
    ∃ p, find_item ht k fuel (ht.items (hash k % ht.capacity)) = some p ∧
      ((p = 0 ∧ ¬ HasKey ht k) ∨
        (p ≠ 0 ∧ p ∈ ch (hash k % HT_CAPACITY) ∧ (ht.node p).key = k)) := by
  rw [h.cap]
  obtain ⟨p, hp, hcase⟩ := find_item_spec ht k _ _ _ fuel (h.chains _ (bucket_lt hash k)) hf
  refine ⟨p, hp, ?_⟩
  rcases hcase with ⟨h0, hall⟩ | ⟨hm, hk⟩
  · left
    refine ⟨h0, ?_⟩
    rw [TableInv_hasKey_iff h]
    rintro ⟨q, hq, hqk⟩
    exact hall q hq hqk
  · right
    exact ⟨TableInv_ne_zero h (bucket_lt hash k) hm, hm, hk⟩

theorem IsChain_links (ht : hashtable_t) (p : Nat) (l2 : List Nat) :
    ∀ (l1 : List Nat) (prev head : Nat), IsChain ht prev head (l1 ++ p :: l2) →
      ((ht.node p).next ≠ 0 → (ht.node p).next ∈ l2) ∧
      (l1 = [] → (ht.node p).prev = prev) ∧ (l1 ≠ [] → (ht.node p).prev ∈ l1) := by
  intro l1
  induction l1 with
  | nil =>
    intro prev head h
    obtain ⟨_, _, hprev, hrest⟩ := h
    exact ⟨IsChain_head_mem ht hrest, fun _ => hprev, fun hne => absurd rfl hne⟩
  | cons c t ih =>
    intro prev head h
    obtain ⟨_, _, _, hrest⟩ := h
    obtain ⟨h1, h2, h3⟩ := ih _ _ hrest
    refine ⟨h1, fun e => by simp at e, fun _ => ?_⟩
    by_cases ht0 : t = []
    · rw [h2 ht0]; exact List.mem_cons_self _ _
    · exact List.mem_cons_of_mem _ (h3 ht0)

theorem IsChain_remove (ht ht2 : hashtable_t) (p : Nat) (l2 : List Nat)
    (hnext : ∀ x, (ht2.node x).next =
      if x = (ht.node p).prev ∧ (ht.node p).prev ≠ 0 then (ht.node p).next else (ht.node x).next)
    (hprev : ∀ x, (ht2.node x).prev =
      if x = (ht.node p).next ∧ (ht.node p).next ≠ 0 then (ht.node p).prev else (ht.node x).prev) :
    ∀ (l1 : List Nat) (prev head : Nat), IsChain ht prev head (l1 ++ p :: l2) →
      (l1 ++ p :: l2).Nodup → prev ∉ l1 ++ p :: l2 →
      IsChain ht2 prev (if l1 = [] then (ht.node p).next else head) (l1 ++ l2) := by
  intro l1
  induction l1 with
  | nil =>
    intro prev head h hnd hpn
    obtain ⟨_, _, hpp, hrest⟩ := h
    simp only [List.nil_append, if_true] at *
    cases l2 with
    | nil => exact hrest
    | cons q t =>
      obtain ⟨e, hq, hqp, hrest2⟩ := hrest
      have hqprev : q ≠ prev := by
        intro e2; apply hpn; rw [← e2]; simp
      have hnq : (ht2.node q).next = (ht.node q).next := by
        rw [hnext q, hpp, if_neg]; intro hc; exact hqprev hc.1
      refine ⟨e, hq, ?_, ?_⟩
      · rw [hprev q, if_pos ⟨e.symm, by rw [e]; exact hq⟩, hpp]
      · rw [hnq]
        apply IsChain_frame ht ht2 _ _ _ _ hrest2
        intro x hx
        have hxq : x ≠ q := by
          intro e2; subst e2
          have := (List.nodup_cons.mp (List.nodup_cons.mp hnd).2).1
          exact this hx
        have hxprev : x ≠ prev := by
          intro e2; apply hpn; rw [← e2]; simp [hx]
        constructor
        · rw [hnext x, hpp, if_neg]; intro hc; exact hxprev hc.1
        · rw [hprev x, e, if_neg]; intro hc; exact hxq hc.1
  | cons c t ih =>
    intro prev head h hnd hpn
    obtain ⟨e, hc, hcp, hrest⟩ := h
    have hlinks := IsChain_links ht p l2 t _ _ hrest
    have hnd2 : (t ++ p :: l2).Nodup := (List.nodup_cons.mp hnd).2
    have hcnot : c ∉ t ++ p :: l2 := (List.nodup_cons.mp hnd).1
    simp only [List.cons_append, if_false, List.cons_ne_nil]
    have hcnext : c ≠ (ht.node p).next ∨ (ht.node p).next = 0 := by
      by_cases h0 : (ht.node p).next = 0
      · right; exact h0
      · left; intro e2; apply hcnot; rw [e2]; simp [hlinks.1 h0]
    refine ⟨e, hc, ?_, ?_⟩
    · rw [hprev c, if_neg, hcp]
      intro hcc; rcases hcnext with h1 | h1
      · exact h1 hcc.1
      · exact hcc.2 h1
    · have ih2 := ih c (ht.node c).next hrest hnd2 hcnot
      by_cases ht0 : t = []
      · subst ht0
        have hpc : (ht.node p).prev = c := hlinks.2.1 rfl
        rw [hnext c, if_pos ⟨hpc.symm, by rw [hpc]; exact hc⟩]
        simpa using ih2
      · have hpc : (ht.node p).prev ≠ c := by
          intro e2; apply hcnot; rw [← e2]; simp [hlinks.2.2 ht0]
        rw [hnext c, if_neg (fun hcc => hpc hcc.1.symm)]
        simpa [ht0] using ih2

theorem del_TableInv {hash : Key → Nat} {ht ht2 : hashtable_t} {ch : Nat → List Nat}
    (h : TableInv hash ht ch) {k : Key} {p : Nat} {l1 l2 : List Nat}
    (hsplit : ch (hash k % HT_CAPACITY) = l1 ++ p :: l2)
    (hcap : ht2.capacity = ht.capacity)
    (hitems : ht2.items = if (ht.node p).prev ≠ 0 then ht.items
      else Function.update ht.items (hash k % HT_CAPACITY) (ht.node p).next)
    (hnext : ∀ x, (ht2.node x).next =
      if x = (ht.node p).prev ∧ (ht.node p).prev ≠ 0 then (ht.node p).next else (ht.node x).next)
    (hprev : ∀ x, (ht2.node x).prev =
      if x = (ht.node p).next ∧ (ht.node p).next ≠ 0 then (ht.node p).prev else (ht.node x).prev)
    (hkey : ∀ x, (ht2.node x).key = (ht.node x).key) :
    TableInv hash ht2 (Function.update ch (hash k % HT_CAPACITY) (l1 ++ l2)) := by
  have hbk := bucket_lt hash k
  set bk := hash k % HT_CAPACITY with hbkdef
  have hch := h.chains bk hbk
  have hnd := TableInv_nodup h hbk
  rw [hsplit] at hch hnd
  have hz : (0 : Nat) ∉ l1 ++ p :: l2 := by
    intro h0
    exact IsChain_ne_zero ht _ _ _ hch 0 h0 rfl
  have hlinks := IsChain_links ht p l2 l1 _ _ hch
  have hrem := IsChain_remove ht ht2 p l2 hnext hprev l1 0 _ hch hnd hz
  have hmemch : ∀ x, x ∈ l1 ++ p :: l2 → x ∈ ch bk := by intro x hx; rw [hsplit]; exact hx
  have hsub : ∀ x, x ∈ l1 ++ l2 → x ∈ ch bk := by
    intro x hx; apply hmemch
    rcases List.mem_append.mp hx with hx | hx
    · exact List.mem_append_left _ hx
    · exact List.mem_append_right _ (List.mem_cons_of_mem _ hx)
  refine ⟨by rw [hcap]; exact h.cap, ?_, ?_, ?_⟩
  · intro b hb
    by_cases hbb : b = bk
    · subst hbb
      simp only [Function.update_same]
      by_cases hl1 : l1 = []
      · have hp0 : (ht.node p).prev = 0 := hlinks.2.1 hl1
        rw [hitems, hp0]
        simp only [ne_eq, not_true_eq_false, if_false, Function.update_same]
        simpa [hl1] using hrem
      · have hp0 : (ht.node p).prev ≠ 0 := by
          intro e; apply hz; rw [← e]; exact List.mem_append_left _ (hlinks.2.2 hl1)
        rw [hitems, if_pos hp0]
        simpa [hl1] using hrem
    · simp only [Function.update_noteq hbb]
      have hib : ht2.items b = ht.items b := by
        rw [hitems]; split
        · rfl
        · rw [Function.update_noteq hbb]
      rw [hib]
      apply IsChain_frame ht ht2 _ _ _ _ (h.chains b hb)
      intro x hx
      have hxn : ∀ y, y ∈ l1 ++ p :: l2 → x ≠ y := by
        intro y hy e
        exact hbb (TableInv_same_bucket h hb hbk hx (e ▸ hmemch y hy))
      constructor
      · rw [hnext x, if_neg]
        rintro ⟨e, h0⟩
        have : l1 ≠ [] := by
          intro hl1; exact h0 (hlinks.2.1 hl1)
        exact hxn _ (List.mem_append_left _ (hlinks.2.2 this)) e
      · rw [hprev x, if_neg]
        rintro ⟨e, h0⟩
        exact hxn _ (List.mem_append_right _ (List.mem_cons_of_mem _ (hlinks.1 h0))) e
  · intro b hb x hx
    rw [hkey]
    by_cases hbb : b = bk
    · subst hbb
      simp only [Function.update_same] at hx
      exact h.hashed bk hbk x (hsub x hx)
    · simp only [Function.update_noteq hbb] at hx
      exact h.hashed b hb x hx
  · intro b hb
    have hfun : (fun x => (ht2.node x).key) = (fun x => (ht.node x).key) := funext hkey
    rw [hfun]
    by_cases hbb : b = bk
    · subst hbb
      simp only [Function.update_same]
      have hu := h.unique bk hbk
      rw [hsplit] at hu
      refine List.Nodup.sublist ?_ hu
      apply List.Sublist.map
      exact List.Sublist.append_left (List.sublist_cons_self _ _) _
    · simp only [Function.update_noteq hbb]
      exact h.unique b hb

theorem set_hit_TableInv {hash : Key → Nat} {ht ht2 : hashtable_t} {ch : Nat → List Nat}
    (h : TableInv hash ht ch)
    (hcap : ht2.capacity = ht.capacity) (hitems : ht2.items = ht.items)
    (hnode : ∀ x, (ht2.node x).key = (ht.node x).key ∧ (ht2.node x).next = (ht.node x).next ∧
      (ht2.node x).prev = (ht.node x).prev) :
    TableInv hash ht2 ch := by
  refine ⟨by rw [hcap]; exact h.cap, ?_, ?_, ?_⟩
  · intro b hb
    rw [hitems]
    exact IsChain_frame ht ht2 _ _ _ (fun x _ => ⟨(hnode x).2.1, (hnode x).2.2⟩) (h.chains b hb)
  · intro b hb x hx
    rw [(hnode x).1]; exact h.hashed b hb x hx
  · intro b hb
    have hfun : (fun x => (ht2.node x).key) = (fun x => (ht.node x).key) :=
      funext (fun x => (hnode x).1)
    rw [hfun]; exact h.unique b hb

/-- The table `del_request` leaves when it unlinks the item `p` of bucket `bucket`. -/
theorem del_request_found (hash : Key → Nat) (fuel : Nat) (ht : hashtable_t) (req : request)
    {p : Nat} (hp0 : p ≠ 0)
    (hfind : find_item ht req.key fuel (ht.items (hash req.key % ht.capacity)) = some p) :
    ∃ o, del_request hash fuel ht req = some o ∧ o.ret = 0 ∧
      o.connection_close = req.connection_close ∧
      responses o.trace = [(Status.OK, 0, [])] ∧
      o.ht.request_count = ht.request_count + 1 ∧
      o.ht.capacity = ht.capacity ∧
      (o.ht.items = if (ht.node p).prev ≠ 0 then ht.items
        else Function.update ht.items (hash req.key % ht.capacity) (ht.node p).next) ∧
      (∀ x, (o.ht.node x).next =
        if x = (ht.node p).prev ∧ (ht.node p).prev ≠ 0 then (ht.node p).next
        else (ht.node x).next) ∧
      (∀ x, (o.ht.node x).prev =
        if x = (ht.node p).next ∧ (ht.node p).next ≠ 0 then (ht.node p).prev
        else (ht.node x).prev) ∧
      (∀ x, (o.ht.node x).key = (ht.node x).key ∧ (o.ht.node x).value = (ht.node x).value ∧
        (o.ht.node x).value_size = (ht.node x).value_size) := by
  simp only [del_request, hfind, hp0, if_false]
  refine ⟨_, rfl, rfl, rfl, rfl, ?_, ?_, ?_, ?_, ?_, ?_⟩
  · by_cases h1 : (ht.node p).prev = 0 <;> by_cases h2 : (ht.node p).next = 0 <;> simp [h1, h2]
  · by_cases h1 : (ht.node p).prev = 0 <;> by_cases h2 : (ht.node p).next = 0 <;> simp [h1, h2]
  · by_cases h1 : (ht.node p).prev = 0 <;> by_cases h2 : (ht.node p).next = 0 <;> simp [h1, h2]
  · intro x
    by_cases h1 : (ht.node p).prev = 0 <;> by_cases h2 : (ht.node p).next = 0 <;>
      simp [h1, h2, Function.update_apply] <;> split_ifs <;> simp_all
  · intro x
    by_cases h1 : (ht.node p).prev = 0 <;> by_cases h2 : (ht.node p).next = 0 <;>
      simp [h1, h2, Function.update_apply] <;> split_ifs <;> simp_all
  · intro x
    by_cases h1 : (ht.node p).prev = 0 <;> by_cases h2 : (ht.node p).next = 0 <;>
      simp [h1, h2, Function.update_apply] <;> split_ifs <;> simp_all

theorem del_request_absent (hash : Key → Nat) (fuel : Nat) (ht : hashtable_t) (req : request)
    (hfind : find_item ht req.key fuel (ht.items (hash req.key % ht.capacity)) = some 0) :
    ∃ o, del_request hash fuel ht req = some o ∧ o.ret = -1 ∧
      o.connection_close = req.connection_close ∧ o.ht = ht ∧
      responses o.trace = [(Status.KEY_ERROR, 0, [])] := by
  simp only [del_request, hfind, if_true]
  exact ⟨_, rfl, rfl, rfl, rfl, rfl⟩

theorem del_request_spec {hash : Key → Nat} {ht : hashtable_t} {ch : Nat → List Nat}
    (h : TableInv hash ht ch) (req : request) {fuel : Nat}
    (hf : (ch (hash req.key % HT_CAPACITY)).length < fuel) :
    ∃ o, del_request hash fuel ht req = some o ∧
      o.connection_close = req.connection_close ∧
      (∃ ch2, TableInv hash o.ht ch2 ∧ ∀ b, (ch2 b).length ≤ (ch b).length) ∧
      ¬ HasKey o.ht req.key ∧
      (∀ k2, k2 ≠ req.key → ∀ v s, Holds o.ht k2 v s ↔ Holds ht k2 v s) ∧
      ((¬ HasKey ht req.key ∧ o.ht = ht ∧ o.ret = -1 ∧
          responses o.trace = [(Status.KEY_ERROR, 0, [])]) ∨
        (HasKey ht req.key ∧ o.ret = 0 ∧ responses o.trace = [(Status.OK, 0, [])] ∧
          o.ht.request_count = ht.request_count + 1)) := by
  obtain ⟨p, hfind, hcase⟩ := TableInv_find h req.key hf
  rcases hcase with ⟨hp0, hno⟩ | ⟨hp0, hpm, hpk⟩
  · subst hp0
    obtain ⟨o, ho, hret, hcc, hht, hresp⟩ := del_request_absent hash fuel ht req hfind
    refine ⟨o, ho, hcc, ⟨ch, hht ▸ h, fun _ => le_refl _⟩, hht ▸ hno, ?_,
      Or.inl ⟨hno, hht, hret, hresp⟩⟩
    intro _ _ _ _; rw [hht]
  · obtain ⟨o, ho, hret, hcc, hresp, hcount, hcap, hitems, hnext, hprev, hnode⟩ :=
      del_request_found hash fuel ht req hp0 hfind
    obtain ⟨l1, l2, hsplit⟩ := List.append_of_mem hpm
    rw [h.cap] at hitems
    have hinv := del_TableInv h hsplit hcap hitems hnext hprev (fun x => (hnode x).1)
    have hnd := TableInv_nodup h (bucket_lt hash req.key)
    rw [hsplit] at hnd
    have hpnot : p ∉ l1 ++ l2 := by
      intro hm
      have h1 := List.nodup_middle.mp hnd
      exact (List.nodup_cons.mp h1).1 hm
    have hhas : HasKey ht req.key := (TableInv_hasKey_iff h _).mpr ⟨p, hpm, hpk⟩
    refine ⟨o, ho, hcc, ⟨_, hinv, ?_⟩, ?_, ?_, Or.inr ⟨hhas, hret, hresp, hcount⟩⟩
    · intro b
      by_cases hb : b = hash req.key % HT_CAPACITY
      · subst hb; simp [hsplit]
      · simp [Function.update_noteq hb]
    · rw [TableInv_hasKey_iff hinv]
      rintro ⟨q, hq, hqk⟩
      simp only [Function.update_same] at hq
      rw [(hnode q).1] at hqk
      have hqm : q ∈ ch (hash req.key % HT_CAPACITY) := by
        rw [hsplit]
        rcases List.mem_append.mp hq with hq | hq
        · exact List.mem_append_left _ hq
        · exact List.mem_append_right _ (List.mem_cons_of_mem _ hq)
      have := TableInv_key_inj h (bucket_lt hash req.key) hqm hpm (by rw [hqk, hpk])
      subst this
      exact hpnot hq
    · intro k2 hk2 v s
      rw [TableInv_holds_iff hinv, TableInv_holds_iff h]
      have hmem : ∀ q, (ht.node q).key = k2 →
          (q ∈ Function.update ch (hash req.key % HT_CAPACITY) (l1 ++ l2) (hash k2 % HT_CAPACITY) ↔
            q ∈ ch (hash k2 % HT_CAPACITY)) := by
        intro q hqk
        by_cases hb : hash k2 % HT_CAPACITY = hash req.key % HT_CAPACITY
        · rw [hb]
          simp only [Function.update_same, hsplit, List.mem_append, List.mem_cons]
          constructor
          · rintro (hq | hq)
            · exact Or.inl hq
            · exact Or.inr (Or.inr hq)
          · rintro (hq | hq | hq)
            · exact Or.inl hq
            · subst hq; exact absurd (hqk.symm.trans hpk) hk2
            · exact Or.inr hq
        · rw [Function.update_noteq hb]
      constructor
      · rintro ⟨q, hq, hqk, hqv, hqs⟩
        rw [(hnode q).1] at hqk
        rw [(hnode q).2.1] at hqv
        rw [(hnode q).2.2] at hqs
        exact ⟨q, (hmem q hqk).mp hq, hqk, hqv, hqs⟩
      · rintro ⟨q, hq, hqk, hqv, hqs⟩
        refine ⟨q, (hmem q hqk).mpr hq, ?_, ?_, ?_⟩
        · rw [(hnode q).1]; exact hqk
        · rw [(hnode q).2.1]; exact hqv
        · rw [(hnode q).2.2]; exact hqs

theorem read_all_delivers (expected : Nat) :
    ∀ (reads : List ReadResult) (got : Nat) (buf : List Nat),
      (∀ x ∈ reads, 0 < x.r ∧ x.r = (x.bytes.length : Int)) →
      expected = got + ((reads.map (fun x => x.bytes)).flatten).length →
      read_all expected reads got buf =
        some (expected, buf ++ (reads.map (fun x => x.bytes)).flatten) := by
  intro reads
  induction reads with
  | nil =>
    intro got buf _ he
    simp at he
    simp [read_all, he]
  | cons x rest ih =>
    intro got buf hall he
    have hx := hall x (List.mem_cons_self _ _)
    have hlen : 0 < x.bytes.length := by
      have := hx.1; rw [hx.2] at this; exact_mod_cast this
    simp only [List.map_cons, List.flatten_cons, List.length_append] at he
    have hlt : got < expected := by omega
    have hnot : ¬ x.r ≤ 0 := by omega
    have htn : x.r.toNat = x.bytes.length := by rw [hx.2]; simp
    simp only [read_all, hlt, if_true, hnot, if_false, htn]
    rw [ih (got + x.bytes.length) (buf ++ x.bytes)
      (fun y hy => hall y (List.mem_cons_of_mem _ hy)) (by omega)]
    simp

/-- What `set_request` does on each of its paths, once the lookup loop has
returned `p`. -/
theorem set_request_paths (hash : Key → Nat) (fuel : Nat) (ht : hashtable_t) (req : request)
    (env : SetEnv) {p : Nat}
    (hfind : find_item ht req.key fuel (ht.items (hash req.key % ht.capacity)) = some p) :
    (BufferFails req env →
      set_request hash fuel ht req env = some (.returned
        { ht := ht, connection_close := req.connection_close, ret := -1,
          trace := [.send_response .STORE_ERROR 0 none] })) ∧
    (¬ BufferFails req env → PayloadFails req env →
      set_request hash fuel ht req env = some (.returned
        { ht := ht, connection_close := true, ret := -1, trace := [] })) ∧
    (¬ BufferFails req env → ¬ PayloadFails req env → p = 0 → env.new_item = 0 →
      set_request hash fuel ht req env = some (.returned
        { ht := ht, connection_close := req.connection_close, ret := -1,
          trace := [.mutex_lock (hash req.key % ht.capacity),
            .mutex_unlock (hash req.key % ht.capacity),
            .send_response .STORE_ERROR 0 none] })) ∧
    (¬ BufferFails req env → ¬ PayloadFails req env → p = 0 → env.new_item ≠ 0 →
      set_request hash fuel ht req env =
        some (.crashed [.mutex_lock (hash req.key % ht.capacity)])) ∧
    (¬ BufferFails req env → ¬ PayloadFails req env → p ≠ 0 →
      ∃ got bytes, read_all req.msg_len env.reads 0 [] = some (got, bytes) ∧
        set_request hash fuel ht req env = some (.returned
          { ht := { ht with
              node := Function.update ht.node p
                { ht.node p with value := (if req.msg_len ≠ 0 then some bytes else none),
                                 value_size := got },
              request_count := ht.request_count + 1 },
            connection_close := req.connection_close, ret := to_int got,
            trace := [.mutex_lock (hash req.key % ht.capacity), .rwlock_wrlock p,
              .rwlock_unlock p, .mutex_unlock (hash req.key % ht.capacity),
              .send_response .OK 0 none] })) := by
  simp only [BufferFails, PayloadFails]
  by_cases hmal : req.msg_len ≠ 0 ∧ env.malloc_ok = false
  · refine ⟨fun _ => ?_, fun h => absurd hmal h, fun h => absurd hmal h,
      fun h => absurd hmal h, fun h => absurd hmal h⟩
    simp only [set_request]
    rw [if_pos hmal]
  · refine ⟨fun h => absurd h hmal, ?_⟩
    cases hread : read_all req.msg_len env.reads 0 [] with
    | none =>
      refine ⟨fun _ _ => ?_, fun _ h => absurd (Or.inl rfl) h, fun _ h => absurd (Or.inl rfl) h,
        fun _ h => absurd (Or.inl rfl) h⟩
      simp only [set_request]
      rw [if_neg hmal, hread]
    | some gb =>
      obtain ⟨got, bytes⟩ := gb
      by_cases hcheck : env.check < 0
      · refine ⟨fun _ _ => ?_, fun _ h => absurd (Or.inr hcheck) h,
          fun _ h => absurd (Or.inr hcheck) h, fun _ h => absurd (Or.inr hcheck) h⟩
        simp only [set_request]
        rw [if_neg hmal, hread]
        simp only
        rw [if_pos hcheck]
      · have hpay : ¬ (some (got, bytes) = none ∨ env.check < 0) := by
          rintro (h | h)
          · exact absurd h (by simp)
          · exact hcheck h
        refine ⟨fun _ h => absurd h hpay, fun _ _ hp hnew => ?_, fun _ _ hp hnew => ?_,
          fun _ _ hp => ⟨got, bytes, rfl, ?_⟩⟩
        · simp only [set_request]
          rw [if_neg hmal, hread]
          simp only
          rw [if_neg hcheck, hfind]
          simp only
          rw [if_pos hp, if_pos hnew]
        · simp only [set_request]
          rw [if_neg hmal, hread]
          simp only
          rw [if_neg hcheck, hfind]
          simp only
          rw [if_pos hp, if_neg hnew]
        · simp only [set_request]
          rw [if_neg hmal, hread]
          simp only
          rw [if_neg hcheck, hfind]
          simp only
          rw [if_neg hp]

/-- The item `p` of the table gets a new value and size: the invariant and
what the table holds under the other keys are unchanged. -/
theorem set_hit_holds {hash : Key → Nat} {ht ht2 : hashtable_t} {ch : Nat → List Nat}
    (h : TableInv hash ht ch) {p : Nat} {k : Key} {buf : Option (List Nat)} {got : Nat}
    (hpm : p ∈ ch (hash k % HT_CAPACITY)) (hpk : (ht.node p).key = k)
    (hcap : ht2.capacity = ht.capacity) (hitems : ht2.items = ht.items)
    (hnode : ht2.node = Function.update ht.node p
      { ht.node p with value := buf, value_size := got }) :
    TableInv hash ht2 ch ∧
      (∀ k2, k2 ≠ k → ∀ v s, Holds ht2 k2 v s ↔ Holds ht k2 v s) ∧
      Holds ht2 k buf got := by
  have hinv : TableInv hash ht2 ch := by
    apply set_hit_TableInv h hcap hitems
    intro x
    rw [hnode]
    by_cases hx : x = p
    · subst hx; simp
    · simp [Function.update_noteq hx]
  refine ⟨hinv, ?_, ?_⟩
  · intro k2 hk2 v s
    rw [TableInv_holds_iff hinv, TableInv_holds_iff h]
    have hq : ∀ q, (ht.node q).key = k2 ∨ (ht2.node q).key = k2 → ht2.node q = ht.node q := by
      intro q hqk
      have hqp : q ≠ p := by
        rintro rfl
        rcases hqk with hqk | hqk
        · exact hk2 (hqk.symm.trans hpk)
        · rw [hnode] at hqk; simp at hqk; exact hk2 (hqk.symm.trans hpk)
      rw [hnode, Function.update_noteq hqp]
    constructor
    · rintro ⟨q, hqm, hqk, hqv, hqs⟩
      have := hq q (Or.inr hqk)
      rw [this] at hqk hqv hqs
      exact ⟨q, hqm, hqk, hqv, hqs⟩
    · rintro ⟨q, hqm, hqk, hqv, hqs⟩
      have := hq q (Or.inl hqk)
      rw [← this] at hqk hqv hqs
      exact ⟨q, hqm, hqk, hqv, hqs⟩
  · rw [TableInv_holds_iff hinv]
    refine ⟨p, hpm, ?_, ?_, ?_⟩ <;> rw [hnode] <;> simp [hpk]

/-- On a table that satisfies the invariant, with fuel for the lookup:
`set_request` dies exactly when it has to create an item and `calloc`
returns one; otherwise it returns, the invariant holds again, the other
keys are unaffected, and either nothing changed and the return value is
`-1`, or the key was there and now holds the payload. -/
theorem set_request_spec {hash : Key → Nat} {ht : hashtable_t} {ch : Nat → List Nat}
    (h : TableInv hash ht ch) (req : request) (env : SetEnv)
    {fuel : Nat} (hf : (ch (hash req.key % HT_CAPACITY)).length < fuel) :
    (CreatesItem ht req env →
      set_request hash fuel ht req env =
        some (.crashed [.mutex_lock (hash req.key % HT_CAPACITY)])) ∧
    (¬ CreatesItem ht req env →
      ∃ o, set_request hash fuel ht req env = some (.returned o) ∧
        TableInv hash o.ht ch ∧
        (∀ k2, k2 ≠ req.key → ∀ v s, Holds o.ht k2 v s ↔ Holds ht k2 v s) ∧
        ((o.ht = ht ∧ o.ret = -1 ∧ ¬ (¬ BufferFails req env ∧ ¬ PayloadFails req env ∧
            HasKey ht req.key)) ∨
          (HasKey ht req.key ∧
            ∃ got bytes, read_all req.msg_len env.reads 0 [] = some (got, bytes) ∧
              ¬ env.check < 0 ∧ ¬ BufferFails req env ∧
              Holds o.ht req.key (if req.msg_len ≠ 0 then some bytes else none) got ∧
              o.ret = to_int got ∧ o.connection_close = req.connection_close ∧
              responses o.trace = [(Status.OK, 0, [])] ∧
              o.ht.request_count = ht.request_count + 1))) := by
  obtain ⟨p, hfind, hcase⟩ := TableInv_find h req.key hf
  obtain ⟨pA, pB, pD, pF, pE⟩ := set_request_paths hash fuel ht req env hfind
  have hsame : ∀ {o : Outcome}, o.ht = ht →
      TableInv hash o.ht ch ∧
        ∀ k2, k2 ≠ req.key → ∀ v s, Holds o.ht k2 v s ↔ Holds ht k2 v s := by
    intro o e
    rw [e]
    exact ⟨h, fun _ _ _ _ => Iff.rfl⟩
  constructor
  · rintro ⟨hA, hB, hno, hnew⟩
    have hp0 : p = 0 := by
      rcases hcase with ⟨hp0, _⟩ | ⟨_, hpm, hpk⟩
      · exact hp0
      · exact absurd ((TableInv_hasKey_iff h _).mpr ⟨p, hpm, hpk⟩) hno
    rw [pF hA hB hp0 hnew, h.cap]
  · intro hnc
    by_cases hA : BufferFails req env
    · exact ⟨_, pA hA, (hsame rfl).1, (hsame rfl).2, Or.inl ⟨rfl, rfl, fun hc => hc.1 hA⟩⟩
    by_cases hB : PayloadFails req env
    · exact ⟨_, pB hA hB, (hsame rfl).1, (hsame rfl).2, Or.inl ⟨rfl, rfl, fun hc => hc.2.1 hB⟩⟩
    rcases hcase with ⟨hp0, hno⟩ | ⟨hp0, hpm, hpk⟩
    · have hnew : env.new_item = 0 := by
        by_contra hne
        exact hnc ⟨hA, hB, hno, hne⟩
      exact ⟨_, pD hA hB hp0 hnew, (hsame rfl).1, (hsame rfl).2,
        Or.inl ⟨rfl, rfl, fun hc => hno hc.2.2⟩⟩
    · obtain ⟨got, bytes, hread, hset⟩ := pE hA hB hp0
      obtain ⟨hinv, hothers, hholds⟩ :=
        @set_hit_holds hash ht
          { ht with
              node := Function.update ht.node p
                { ht.node p with value := (if req.msg_len ≠ 0 then some bytes else none),
                                 value_size := got },
              request_count := ht.request_count + 1 } ch h p req.key
          (if req.msg_len ≠ 0 then some bytes else none) got hpm hpk rfl rfl rfl
      refine ⟨_, hset, hinv, hothers, Or.inr ⟨(TableInv_hasKey_iff h _).mpr ⟨p, hpm, hpk⟩,
        got, bytes, hread, fun hc => hB (Or.inr hc), hA, hholds, rfl, rfl, rfl, rfl⟩⟩

theorem find_item_mono (ht : hashtable_t) (key : Key) :
    ∀ (fuel fuel2 head p : Nat), find_item ht key fuel head = some p → fuel ≤ fuel2 →
      find_item ht key fuel2 head = some p := by
  intro fuel
  induction fuel with
  | zero => intro _ _ _ h; simp [find_item] at h
  | succ f ih =>
    intro fuel2 head p h hle
    obtain ⟨g, rfl⟩ : ∃ g, fuel2 = g + 1 := ⟨fuel2 - 1, by omega⟩
    simp only [find_item] at h ⊢
    split
    · rename_i hc
      rw [if_pos hc] at h
      exact ih _ _ _ h (by omega)
    · rename_i hc
      rw [if_neg hc] at h
      exact h

theorem get_request_mono (hash : Key → Nat) {fuel fuel2 : Nat} {ht : hashtable_t}
    {req : request} {ok : Bool} {o : Outcome}
    (h : get_request hash fuel ht req ok = some o) (hle : fuel ≤ fuel2) :
    get_request hash fuel2 ht req ok = some o := by
  simp only [get_request] at h ⊢
  cases hfind : find_item ht req.key fuel (ht.items (hash req.key % ht.capacity)) with
  | none => rw [hfind] at h; simp at h
  | some p =>
    rw [hfind] at h
    rw [find_item_mono ht req.key _ _ _ _ hfind hle]
    exact h

theorem del_request_mono (hash : Key → Nat) {fuel fuel2 : Nat} {ht : hashtable_t}
    {req : request} {o : Outcome}
    (h : del_request hash fuel ht req = some o) (hle : fuel ≤ fuel2) :
    del_request hash fuel2 ht req = some o := by
  simp only [del_request] at h ⊢
  cases hfind : find_item ht req.key fuel (ht.items (hash req.key % ht.capacity)) with
  | none => rw [hfind] at h; simp at h
  | some p =>
    rw [hfind] at h
    rw [find_item_mono ht req.key _ _ _ _ hfind hle]
    exact h

theorem set_request_mono (hash : Key → Nat) {fuel fuel2 : Nat} {ht : hashtable_t}
    {req : request} {env : SetEnv} {r : SetResult}
    (h : set_request hash fuel ht req env = some r) (hle : fuel ≤ fuel2) :
    set_request hash fuel2 ht req env = some r := by
  simp only [set_request] at h ⊢
  by_cases hmal : req.msg_len ≠ 0 ∧ env.malloc_ok = false
  · rw [if_pos hmal] at h ⊢; exact h
  · rw [if_neg hmal] at h ⊢
    cases hread : read_all req.msg_len env.reads 0 [] with
    | none => rw [hread] at h; exact h
    | some gb =>
      obtain ⟨got, bytes⟩ := gb
      rw [hread] at h
      simp only at h ⊢
      by_cases hcheck : env.check < 0
      · rw [if_pos hcheck] at h ⊢; exact h
      · rw [if_neg hcheck] at h ⊢
        cases hfind : find_item ht req.key fuel (ht.items (hash req.key % ht.capacity)) with
        | none => rw [hfind] at h; simp at h
        | some p =>
          rw [hfind] at h
          rw [find_item_mono ht req.key _ _ _ _ hfind hle]
          exact h

theorem get_request_spec {hash : Key → Nat} {ht : hashtable_t} {ch : Nat → List Nat}
    (h : TableInv hash ht ch) (req : request) (ok : Bool) {fuel : Nat}
    (hf : (ch (hash req.key % HT_CAPACITY)).length < fuel) :
    ∃ o, get_request hash fuel ht req ok = some o ∧
      o.ht.capacity = ht.capacity ∧ o.ht.items = ht.items ∧ o.ht.node = ht.node ∧
      o.connection_close = req.connection_close ∧
      ((¬ HasKey ht req.key ∧ o.ret = -1 ∧ o.ht = ht ∧
          responses o.trace = [(Status.KEY_ERROR, 0, [])]) ∨
        ∃ p, p ∈ ch (hash req.key % HT_CAPACITY) ∧ (ht.node p).key = req.key ∧
          (((ht.node p).value ≠ none ∧ 0 < (ht.node p).value_size ∧ ok = false ∧
              o.ret = -1 ∧ o.ht = ht ∧ responses o.trace = [(Status.STORE_ERROR, 0, [])]) ∨
            ((ht.node p).value ≠ none ∧ 0 < (ht.node p).value_size ∧ ok = true ∧
              o.ret = 0 ∧ o.ht.request_count = ht.request_count + 1 ∧
              responses o.trace = [(Status.OK, (ht.node p).value_size,
                ((ht.node p).value.getD []).take (ht.node p).value_size)]) ∨
            (¬ ((ht.node p).value ≠ none ∧ 0 < (ht.node p).value_size) ∧
              o.ret = 0 ∧ o.ht.request_count = ht.request_count + 1 ∧
              responses o.trace = [(Status.OK, 0, [])]))) := by
  obtain ⟨p, hfind, hcase⟩ := TableInv_find h req.key hf
  simp only [get_request]
  rw [hfind]
  rcases hcase with ⟨hp0, hno⟩ | ⟨hp0, hpm, hpk⟩
  · subst hp0
    simp only [if_true]
    exact ⟨_, rfl, rfl, rfl, rfl, rfl, Or.inl ⟨hno, rfl, rfl, rfl⟩⟩
  · simp only [hp0, if_false]
    by_cases hv : (ht.node p).value ≠ none ∧ 0 < (ht.node p).value_size
    · rw [if_pos hv]
      cases ok with
      | false =>
        simp only [if_true]
        exact ⟨_, rfl, rfl, rfl, rfl, rfl, Or.inr ⟨p, hpm, hpk, Or.inl ⟨hv.1, hv.2, trivial, rfl, rfl, rfl⟩⟩⟩
      | true =>
        simp only [Bool.true_eq_false, if_false]
        exact ⟨_, rfl, rfl, rfl, rfl, rfl,
          Or.inr ⟨p, hpm, hpk, Or.inr (Or.inl ⟨hv.1, hv.2, trivial, rfl, rfl, rfl⟩)⟩⟩
    · rw [if_neg hv]
      exact ⟨_, rfl, rfl, rfl, rfl, rfl,
        Or.inr ⟨p, hpm, hpk, Or.inr (Or.inr ⟨hv, rfl, rfl, rfl⟩)⟩⟩

theorem Holds_congr {ht ht2 : hashtable_t} (hitems : ht2.items = ht.items)
    (hnode : ht2.node = ht.node) (k : Key) (v : Option (List Nat)) (s : Nat) :
    Holds ht2 k v s ↔ Holds ht k v s := by
  have hch : ∀ l prev head, IsChain ht2 prev head l ↔ IsChain ht prev head l := by
    intro l prev head
    constructor
    · exact IsChain_frame ht2 ht l prev head (fun p _ => by rw [hnode]; exact ⟨rfl, rfl⟩)
    · exact IsChain_frame ht ht2 l prev head (fun p _ => by rw [hnode]; exact ⟨rfl, rfl⟩)
  unfold Holds InTable
  simp only [hitems, hnode, hch]

theorem HasKey_iff_Holds (ht : hashtable_t) (k : Key) :
    HasKey ht k ↔ ∃ v s, Holds ht k v s := by
  constructor
  · rintro ⟨p, hp, hk⟩; exact ⟨_, _, p, hp, hk, rfl, rfl⟩
  · rintro ⟨_, _, p, hp, hk, _, _⟩; exact ⟨p, hp, hk⟩

theorem get_step {hash : Key → Nat} {ht : hashtable_t} {ch : Nat → List Nat}
    (h : TableInv hash ht ch) {fuel : Nat} {req : request} {ok : Bool} {o : Outcome}
    (ho : get_request hash fuel ht req ok = some o) :
    TableInv hash o.ht ch ∧ ∀ k v s, Holds o.ht k v s ↔ Holds ht k v s := by
  obtain ⟨o2, ho2, hcap, hitems, hnode, _⟩ :=
    get_request_spec h req ok (Nat.lt_succ_of_le (le_max_right fuel _))
  have := get_request_mono hash ho (Nat.le_succ_of_le (le_max_left fuel
    (ch (hash req.key % HT_CAPACITY)).length))
  rw [this] at ho2
  cases ho2
  exact ⟨set_hit_TableInv h hcap hitems (fun x => by rw [hnode]; exact ⟨rfl, rfl, rfl⟩),
    Holds_congr hitems hnode⟩

theorem set_step {hash : Key → Nat} {ht : hashtable_t} {ch : Nat → List Nat}
    (h : TableInv hash ht ch) {fuel : Nat} {req : request} {env : SetEnv} {o : Outcome}
    (ho : set_request hash fuel ht req env = some (.returned o)) :
    TableInv hash o.ht ch ∧
      ∀ k2, k2 ≠ req.key → ∀ v s, Holds o.ht k2 v s ↔ Holds ht k2 v s := by
  have hmono := set_request_mono hash ho (Nat.le_succ_of_le (le_max_left fuel
    (ch (hash req.key % HT_CAPACITY)).length))
  obtain ⟨hcr, hret⟩ :=
    set_request_spec h req env (Nat.lt_succ_of_le (le_max_right fuel
      (ch (hash req.key % HT_CAPACITY)).length))
  by_cases hc : CreatesItem ht req env
  · rw [hcr hc] at hmono
    exact absurd hmono (by simp)
  · obtain ⟨o2, ho2, hinv, hholds, _⟩ := hret hc
    rw [hmono] at ho2
    simp only [Option.some.injEq, SetResult.returned.injEq] at ho2
    subst ho2
    exact ⟨hinv, hholds⟩

theorem del_step {hash : Key → Nat} {ht : hashtable_t} {ch : Nat → List Nat}
    (h : TableInv hash ht ch) {fuel : Nat} {req : request} {o : Outcome}
    (ho : del_request hash fuel ht req = some o) :
    (∃ ch2, TableInv hash o.ht ch2) ∧ ¬ HasKey o.ht req.key ∧
      ∀ k2, k2 ≠ req.key → ∀ v s, Holds o.ht k2 v s ↔ Holds ht k2 v s := by
  obtain ⟨o2, ho2, _, ⟨ch2, hinv, _⟩, hno, hholds, _⟩ :=
    del_request_spec h req (Nat.lt_succ_of_le (le_max_right fuel _))
  have := del_request_mono hash ho (Nat.le_succ_of_le (le_max_left fuel
    (ch (hash req.key % HT_CAPACITY)).length))
  rw [this] at ho2
  cases ho2
  exact ⟨⟨ch2, hinv⟩, hno, hholds⟩

theorem Reachable_inv {hash : Key → Nat} {ht : hashtable_t} (hr : Reachable hash ht) :
    ∃ ch, TableInv hash ht ch := by
  induction hr with
  | init node0 => exact ⟨_, init_TableInv hash node0⟩
  | get fuel req ok _ ho ih =>
    obtain ⟨ch, h⟩ := ih
    exact ⟨ch, (get_step h ho).1⟩
  | set fuel req env _ ho ih =>
    obtain ⟨ch, h⟩ := ih
    exact ⟨ch, (set_step h ho).1⟩
  | del fuel req _ ho ih =>
    obtain ⟨ch, h⟩ := ih
    exact (del_step h ho).1

theorem Steps_inv {hash : Key → Nat} {allow : Op → Key → Prop} {ht ht2 : hashtable_t}
    (hs : Steps hash allow ht ht2) (h : ∃ ch, TableInv hash ht ch) :
    ∃ ch2, TableInv hash ht2 ch2 := by
  induction hs with
  | refl => exact h
  | get fuel req ok _ _ ho ih =>
    obtain ⟨ch, h1⟩ := ih
    exact ⟨ch, (get_step h1 ho).1⟩
  | set fuel req env _ _ ho ih =>
    obtain ⟨ch, h1⟩ := ih
    exact ⟨ch, (set_step h1 ho).1⟩
  | del fuel req _ _ ho ih =>
    obtain ⟨ch, h1⟩ := ih
    exact (del_step h1 ho).1

theorem Steps_reachable {hash : Key → Nat} {allow : Op → Key → Prop} {ht ht2 : hashtable_t}
    (hs : Steps hash allow ht ht2) (h : Reachable hash ht) : Reachable hash ht2 := by
  induction hs with
  | refl => exact h
  | get fuel req ok _ _ ho ih => exact Reachable.get fuel req ok ih ho
  | set fuel req env _ _ ho ih => exact Reachable.set fuel req env ih ho
  | del fuel req _ _ ho ih => exact Reachable.del fuel req ih ho

/-- Requests on other keys leave what the table holds under `k` unchanged. -/
theorem Steps_holds {hash : Key → Nat} {k : Key} {ht ht2 : hashtable_t}
    (hs : Steps hash (fun _ key => key ≠ k) ht ht2) (h : ∃ ch, TableInv hash ht ch)
    (v : Option (List Nat)) (s : Nat) : Holds ht2 k v s ↔ Holds ht k v s := by
  induction hs with
  | refl => exact Iff.rfl
  | get fuel req ok hs1 _ ho ih =>
    obtain ⟨ch, h1⟩ := Steps_inv hs1 h
    exact ((get_step h1 ho).2 k v s).trans ih
  | set fuel req env hs1 hk ho ih =>
    obtain ⟨ch, h1⟩ := Steps_inv hs1 h
    exact ((set_step h1 ho).2 k (Ne.symm hk) v s).trans ih
  | del fuel req hs1 hk ho ih =>
    obtain ⟨ch, h1⟩ := Steps_inv hs1 h
    exact ((del_step h1 ho).2.2 k (Ne.symm hk) v s).trans ih

/-- Without a set of `k`, a key that is absent stays absent. -/
theorem Steps_absent {hash : Key → Nat} {k : Key} {ht ht2 : hashtable_t}
    (hs : Steps hash (fun op key => op = Op.set → key ≠ k) ht ht2)
    (h : ∃ ch, TableInv hash ht ch) (hno : ¬ HasKey ht k) : ¬ HasKey ht2 k := by
  induction hs with
  | refl => exact hno
  | get fuel req ok hs1 _ ho ih =>
    obtain ⟨ch, h1⟩ := Steps_inv hs1 h
    rw [HasKey_iff_Holds] at ih ⊢
    rintro ⟨v, s, hh⟩
    exact ih ⟨v, s, ((get_step h1 ho).2 k v s).mp hh⟩
  | set fuel req env hs1 hk ho ih =>
    obtain ⟨ch, h1⟩ := Steps_inv hs1 h
    rw [HasKey_iff_Holds] at ih ⊢
    rintro ⟨v, s, hh⟩
    exact ih ⟨v, s, ((set_step h1 ho).2 k (Ne.symm (hk rfl)) v s).mp hh⟩
  | del fuel req hs1 _ ho ih =>
    obtain ⟨ch, h1⟩ := Steps_inv hs1 h
    by_cases hk : req.key = k
    · rw [← hk]; exact (del_step h1 ho).2.1
    · rw [HasKey_iff_Holds] at ih ⊢
      rintro ⟨v, s, hh⟩
      exact ih ⟨v, s, ((del_step h1 ho).2.2 k (Ne.symm hk) v s).mp hh⟩

/-! ## Key-value store: the contracts of set, get and del -/


theorem demo_table_inv : TableInv demo_hash demo_table demo_chains := by
  refine ⟨rfl, ?_, ?_, ?_⟩
  · intro b _
    by_cases hb : b = 120
    · subst hb
      exact ⟨rfl, by decide, rfl, rfl⟩
    · simp [demo_table, demo_chains, hb, IsChain]
  · intro b _ p hp
    by_cases hb : b = 120
    · subst hb
      simp only [demo_chains, if_true, List.mem_singleton] at hp
      subst hp
      rfl
    · simp [demo_chains, hb] at hp
  · intro b _
    by_cases hb : b = 120
    · subst hb
      simp [demo_chains]
    · simp [demo_chains, hb]

theorem demo_table_hasKey : HasKey demo_table key_x :=
  ⟨8, ⟨120, [8], by decide, ⟨rfl, by decide, rfl, rfl⟩, by simp⟩, rfl⟩

/-- No call that returns links an item: the tables the handlers produce
from the empty table hold no key. -/
theorem Reachable_no_key {hash : Key → Nat} {ht : hashtable_t} (hr : Reachable hash ht)
    (k : Key) : ¬ HasKey ht k := by
  induction hr generalizing k with
  | init node0 =>
    rw [TableInv_hasKey_iff (init_TableInv hash node0)]
    rintro ⟨p, hp, _⟩
    simp at hp
  | get fuel req ok hr1 ho ih =>
    obtain ⟨ch, h⟩ := Reachable_inv hr1
    rw [HasKey_iff_Holds]
    rintro ⟨v, s, hh⟩
    exact ih k ((HasKey_iff_Holds _ _).mpr ⟨v, s, ((get_step h ho).2 k v s).mp hh⟩)
  | @set ht1 o1 fuel req env hr1 ho ih =>
    obtain ⟨ch, h⟩ := Reachable_inv hr1
    have hmono := set_request_mono hash ho (Nat.le_succ_of_le (le_max_left fuel
      (ch (hash req.key % HT_CAPACITY)).length))
    obtain ⟨hcr, hret⟩ :=
      set_request_spec h req env (Nat.lt_succ_of_le (le_max_right fuel
        (ch (hash req.key % HT_CAPACITY)).length))
    by_cases hc : CreatesItem ht1 req env
    · rw [hcr hc] at hmono
      exact absurd hmono (by simp)
    · obtain ⟨o2, ho2, _, _, hcase⟩ := hret hc
      rw [hmono] at ho2
      simp only [Option.some.injEq, SetResult.returned.injEq] at ho2
      subst ho2
      rcases hcase with ⟨e, _⟩ | ⟨hy, _⟩
      · rw [e]; exact ih k
      · exact absurd hy (ih req.key)
  | del fuel req hr1 ho ih =>
    obtain ⟨ch, h⟩ := Reachable_inv hr1
    by_cases hk : req.key = k
    · rw [← hk]; exact (del_step h ho).2.1
    · rw [HasKey_iff_Holds]
      rintro ⟨v, s, hh⟩
      exact ih k ((HasKey_iff_Holds _ _).mpr
        ⟨v, s, ((del_step h ho).2.2 k (Ne.symm hk) v s).mp hh⟩)

/-- Where the key is already in the table, set then get works: a
`set_request` for `k` that reads the complete payload `v` returns and
acknowledges with `OK`; after it, and after any further requests on other
keys, a `get_request` for `k` whose copy buffer is allocated sends `OK`
with length `|v|` and the bytes `v`. -/
theorem set_existing_then_get (hash : Key → Nat) {ht : hashtable_t} {ch : Nat → List Nat}
    (hinv : TableInv hash ht ch) (k : Key) (hk : HasKey ht k) (v : List Nat) (cc : Bool)
    (env : SetEnv) (hmal : env.malloc_ok = true) (hreads : Delivers env.reads v)
    (hcheck : 0 ≤ env.check) :
    ∃ N, ∀ fuel, N ≤ fuel →
      ∃ o1, set_request hash fuel ht
          { key := k, msg_len := v.length, connection_close := cc } env =
            some (.returned o1) ∧
        responses o1.trace = [(Status.OK, 0, [])] ∧
        ∀ ht2, Steps hash (fun _ key => key ≠ k) o1.ht ht2 →
          ∃ N2, ∀ fuel2, N2 ≤ fuel2 → ∀ req2 : request, req2.key = k →
            ∃ o2, get_request hash fuel2 ht2 req2 true = some o2 ∧ o2.ret = 0 ∧
              responses o2.trace = [(Status.OK, v.length, v)] := by
  refine ⟨(ch (hash k % HT_CAPACITY)).length + 1, fun fuel hfuel => ?_⟩
  have hread : read_all v.length env.reads 0 [] = some (v.length, v) := by
    have := read_all_delivers v.length env.reads 0 [] hreads.1 (by rw [hreads.2]; simp)
    rw [this, hreads.2]; simp
  have hnc : ¬ CreatesItem ht
      { key := k, msg_len := v.length, connection_close := cc } env :=
    fun hc => hc.2.2.1 hk
  obtain ⟨o1, ho1, hinv1, _, hcase⟩ :=
    (set_request_spec hinv { key := k, msg_len := v.length, connection_close := cc }
      env (show _ < fuel by simpa using hfuel)).2 hnc
  have hbuf : ¬ BufferFails { key := k, msg_len := v.length, connection_close := cc } env := by
    rintro ⟨_, h2⟩
    rw [hmal] at h2
    exact absurd h2 (by simp)
  have hpay : ¬ PayloadFails { key := k, msg_len := v.length, connection_close := cc } env := by
    rintro (h1 | h1)
    · rw [show read_all v.length env.reads 0 [] = some (v.length, v) from hread] at h1
      exact absurd h1 (by simp)
    · exact absurd h1 (by omega)
  rcases hcase with ⟨_, _, hn⟩ | ⟨_, got, bytes, hread1, _, _, hholds1, _, _, hresp1, _⟩
  · exact absurd ⟨hbuf, hpay, hk⟩ hn
  have hgb : got = v.length ∧ bytes = v := by
    have e : read_all v.length env.reads 0 [] = some (got, bytes) := hread1
    rw [hread] at e
    simp only [Option.some.injEq, Prod.mk.injEq] at e
    exact ⟨e.1.symm, e.2.symm⟩
  obtain ⟨rfl, rfl⟩ := hgb
  refine ⟨o1, ho1, hresp1, fun ht2 hsteps => ?_⟩
  obtain ⟨ch2, h2⟩ := Steps_inv hsteps ⟨ch, hinv1⟩
  have hholds2 := (Steps_holds hsteps ⟨ch, hinv1⟩ _ _).mpr hholds1
  simp only at hholds2
  refine ⟨(ch2 (hash k % HT_CAPACITY)).length + 1, fun fuel2 hfuel2 req2 hk2 => ?_⟩
  subst hk2
  obtain ⟨o2, ho2, _, _, _, _, hcase⟩ :=
    get_request_spec h2 req2 true (show _ < fuel2 by omega)
  obtain ⟨q, hqm, hqk, hqv, hqs⟩ := (TableInv_holds_iff h2 _ _ _).mp hholds2
  rcases hcase with ⟨hno, _⟩ | ⟨p, hpm, hpk, hp⟩
  · exact absurd ((TableInv_hasKey_iff h2 _).mpr ⟨q, hqm, hqk⟩) hno
  · have hpq : p = q := TableInv_key_inj h2 (bucket_lt hash req2.key) hpm hqm (by rw [hpk, hqk])
    subst hpq
    rcases hp with ⟨_, _, hok, _⟩ | ⟨hv1, hv2, _, hret, _, hresp⟩ | ⟨hv, hret, _, hresp⟩
    · exact absurd hok (by simp)
    · refine ⟨o2, ho2, hret, ?_⟩
      rw [hresp, hqs, hqv]
      have hlen : bytes.length ≠ 0 := by omega
      simp [hlen]
    · refine ⟨o2, ho2, hret, ?_⟩
      have hlen : bytes.length = 0 := by
        by_contra hne
        apply hv
        rw [hqv, hqs]
        exact ⟨by simp [hne], by omega⟩
      rw [hresp, hlen, List.length_eq_zero.mp hlen]

/-- On the table that holds `x -> hello`, `set("x", "hi")` followed by
`get("x")` sends `OK`, length 2, bytes `hi`. -/
theorem set_existing_example :
    ∃ N, ∀ fuel, N ≤ fuel →
      ∃ o1, set_request demo_hash fuel demo_table
          { key := key_x, msg_len := [104, 105].length, connection_close := false }
          demo_env_hi = some (.returned o1) ∧
        responses o1.trace = [(Status.OK, 0, [])] ∧
        ∀ ht2, Steps demo_hash (fun _ key => key ≠ key_x) o1.ht ht2 →
          ∃ N2, ∀ fuel2, N2 ≤ fuel2 → ∀ req2 : request, req2.key = key_x →
            ∃ o2, get_request demo_hash fuel2 ht2 req2 true = some o2 ∧ o2.ret = 0 ∧
              responses o2.trace = [(Status.OK, [104, 105].length, [104, 105])] :=
  set_existing_then_get demo_hash demo_table_inv key_x demo_table_hasKey [104, 105] false
    demo_env_hi rfl (by simp [Delivers, demo_env_hi]) (by decide)

/-- C1 (the code departs from the claim): `set("x", "hello")` on the empty
table, with the buffer allocated, the five bytes delivered, `check_payload`
succeeding and `calloc` returning the item at address `8`, does not return,
whatever the fuel: it takes the mutex of bucket 120 and dies in
`pthread_rwlock_init`, because `item->user` is `NULL`.  No response is sent
and the item is not linked, so no `get("x")` can follow and find it. -/
theorem set_new_key_faults :
    ∀ fuel, set_request demo_hash (fuel + 1) demo_empty req_set5 demo_env_hello =
      some (SetResult.crashed [Event.mutex_lock 120]) := by
  intro fuel
  rfl

/-- C2: in a table that satisfies the table invariant, as every table
reachable from the empty table does, `del_request` for `k` returns for
enough fuel; it sends `KEY_ERROR` and returns `-1` exactly when no item of
the table has key `k`, and then the table is unchanged; otherwise it sends
`OK` and returns `0`.  Afterwards no item has key `k`, what the table holds
under every other key is unchanged, and as long as no set of `k` follows
every `get_request` for `k` returns `-1` and sends `KEY_ERROR`. -/
theorem del_request_contract (hash : Key → Nat) {ht : hashtable_t} {ch : Nat → List Nat}
    (hinv : TableInv hash ht ch) (req : request) :
    ∃ N, ∀ fuel, N ≤ fuel →
      ∃ o, del_request hash fuel ht req = some o ∧
        ((o.ret = -1 ∧ responses o.trace = [(Status.KEY_ERROR, 0, [])]) ↔
          ¬ HasKey ht req.key) ∧
        (¬ HasKey ht req.key → o.ht = ht) ∧
        (HasKey ht req.key → o.ret = 0 ∧ responses o.trace = [(Status.OK, 0, [])]) ∧
        ¬ HasKey o.ht req.key ∧
        (∀ k2, k2 ≠ req.key → ∀ v s, Holds o.ht k2 v s ↔ Holds ht k2 v s) ∧
        ∀ ht2, Steps hash (fun op key => op = Op.set → key ≠ req.key) o.ht ht2 →
          ∃ N2, ∀ fuel2, N2 ≤ fuel2 → ∀ (req2 : request) (ok : Bool), req2.key = req.key →
            ∃ o2, get_request hash fuel2 ht2 req2 ok = some o2 ∧ o2.ret = -1 ∧
              responses o2.trace = [(Status.KEY_ERROR, 0, [])] := by
  have h := hinv
  refine ⟨(ch (hash req.key % HT_CAPACITY)).length + 1, fun fuel hfuel => ?_⟩
  obtain ⟨o, ho, _, ⟨ch1, hinv1, _⟩, hno, hholds, hcase⟩ :=
    del_request_spec h req (show _ < fuel by omega)
  refine ⟨o, ho, ?_, ?_, ?_, hno, hholds, ?_⟩
  · rcases hcase with ⟨hn, _, hret, hresp⟩ | ⟨hy, hret, _, _⟩
    · exact ⟨fun _ => hn, fun _ => ⟨hret, hresp⟩⟩
    · constructor
      · rintro ⟨h1, _⟩; rw [hret] at h1; exact absurd h1 (by decide)
      · intro hn; exact absurd hy hn
  · intro hn
    rcases hcase with ⟨_, hht, _, _⟩ | ⟨hy, _⟩
    · exact hht
    · exact absurd hy hn
  · intro hy
    rcases hcase with ⟨hn, _⟩ | ⟨_, hret, hresp, _⟩
    · exact absurd hy hn
    · exact ⟨hret, hresp⟩
  · intro ht2 hsteps
    obtain ⟨ch2, h2⟩ := Steps_inv hsteps ⟨ch1, hinv1⟩
    have hno2 := Steps_absent hsteps ⟨ch1, hinv1⟩ hno
    refine ⟨(ch2 (hash req.key % HT_CAPACITY)).length + 1, fun fuel2 hfuel2 req2 ok hk2 => ?_⟩
    obtain ⟨o2, ho2, _, _, _, _, hcase2⟩ :=
      get_request_spec h2 req2 ok (show _ < fuel2 by rw [hk2]; omega)
    rcases hcase2 with ⟨_, hret, _, hresp⟩ | ⟨p, hpm, hpk, _⟩
    · exact ⟨o2, ho2, hret, hresp⟩
    · exact absurd ((TableInv_hasKey_iff h2 _).mpr ⟨p, hpm, hpk⟩) (hk2 ▸ hno2)

/-- C2 witness: deleting `x` from the table that holds `x -> hello`. -/
theorem del_request_witness :
    ∃ N, ∀ fuel, N ≤ fuel →
      ∃ o, del_request demo_hash fuel demo_table demo_req = some o ∧
        ((o.ret = -1 ∧ responses o.trace = [(Status.KEY_ERROR, 0, [])]) ↔
          ¬ HasKey demo_table demo_req.key) ∧
        (¬ HasKey demo_table demo_req.key → o.ht = demo_table) ∧
        (HasKey demo_table demo_req.key →
          o.ret = 0 ∧ responses o.trace = [(Status.OK, 0, [])]) ∧
        ¬ HasKey o.ht demo_req.key ∧
        (∀ k2, k2 ≠ demo_req.key → ∀ v s, Holds o.ht k2 v s ↔ Holds demo_table k2 v s) ∧
        ∀ ht2, Steps demo_hash (fun op key => op = Op.set → key ≠ demo_req.key) o.ht ht2 →
          ∃ N2, ∀ fuel2, N2 ≤ fuel2 → ∀ (req2 : request) (ok : Bool),
            req2.key = demo_req.key →
            ∃ o2, get_request demo_hash fuel2 ht2 req2 ok = some o2 ∧ o2.ret = -1 ∧
              responses o2.trace = [(Status.KEY_ERROR, 0, [])] :=
  del_request_contract demo_hash demo_table_inv demo_req

end KV

namespace KV

/-! ## Key-value store: invariant, failure handling, locks and the worker -/

theorem IsChain_wellLinked (ht : hashtable_t) :
    ∀ (l : List Nat) (prev head : Nat), IsChain ht prev head l →
      (∀ h, l.head? = some h → (ht.node h).prev = prev) ∧
        (∀ t, l.getLast? = some t → (ht.node t).next = 0) ∧
        ∀ x ∈ l, l.head? ≠ some x →
          (ht.node x).prev ∈ l ∧ (ht.node (ht.node x).prev).next = x := by
  intro l
  induction l with
  | nil =>
    intro prev head _
    exact ⟨by simp, by simp, by simp⟩
  | cons p rest ih =>
    intro prev head h
    obtain ⟨_, hp0, hprev, hrest⟩ := h
    obtain ⟨ih1, ih2, ih3⟩ := ih p (ht.node p).next hrest
    refine ⟨?_, ?_, ?_⟩
    · intro h hh
      simp only [List.head?_cons, Option.some.injEq] at hh
      rw [← hh]; exact hprev
    · intro t ht2
      cases rest with
      | nil =>
        simp only [List.getLast?_singleton, Option.some.injEq] at ht2
        rw [← ht2]; exact hrest
      | cons q r =>
        rw [List.getLast?_cons_cons] at ht2
        exact ih2 t ht2
    · intro x hx hne
      simp only [List.head?_cons, ne_eq, Option.some.injEq] at hne
      rcases List.mem_cons.mp hx with rfl | hx
      · exact absurd rfl hne
      · by_cases hhead : rest.head? = some x
        · have hxp := ih1 x hhead
          rw [hxp]
          refine ⟨List.mem_cons_self _ _, ?_⟩
          cases rest with
          | nil => simp at hhead
          | cons q r =>
            simp only [List.head?_cons, Option.some.injEq] at hhead
            rw [← hhead]
            exact hrest.1
        · obtain ⟨h1, h2⟩ := ih3 x hx hhead
          exact ⟨List.mem_cons_of_mem _ h1, h2⟩

theorem TableInv_tableOK {hash : Key → Nat} {ht : hashtable_t} {ch : Nat → List Nat}
    (h : TableInv hash ht ch) : TableOK hash ht := by
  refine ⟨h.cap, ch, ?_, ?_⟩
  · intro b hb
    exact ⟨h.chains b hb, IsChain_wellLinked ht _ _ _ (h.chains b hb), h.hashed b hb⟩
  · intro b1 b2 hb1 hb2 p hp q hq hk
    have e1 := h.hashed b1 hb1 p hp
    have e2 := h.hashed b2 hb2 q hq
    rw [hk, e2] at e1
    subst e1
    exact TableInv_key_inj h hb1 hp hq hk

theorem to_int_nonneg {n : Nat} (h : n < 2 ^ 31) : 0 ≤ to_int n := by
  simp only [to_int]
  have : n % 2 ^ 32 < 2 ^ 31 := by omega
  rw [if_pos this]
  exact Int.natCast_nonneg _

theorem IsChain_drop (ht : hashtable_t) (p : Nat) (l2 : List Nat) :
    ∀ (l1 : List Nat) (prev head : Nat), IsChain ht prev head (l1 ++ p :: l2) →
      ∃ pr, IsChain ht pr p (p :: l2) := by
  intro l1
  induction l1 with
  | nil =>
    intro prev head h
    obtain ⟨_, h2, h3, h4⟩ := h
    exact ⟨prev, rfl, h2, h3, h4⟩
  | cons c t ih =>
    intro prev head h
    obtain ⟨_, _, _, hrest⟩ := h
    exact ih _ _ hrest

theorem IsChain_nodup (ht : hashtable_t) :
    ∀ (l : List Nat) (prev head : Nat), IsChain ht prev head l → l.Nodup := by
  intro l
  induction l with
  | nil => intro _ _ _; exact List.nodup_nil
  | cons p rest ih =>
    intro prev head h
    have hrest := h.2.2.2
    refine List.nodup_cons.mpr ⟨?_, ih _ _ hrest⟩
    intro hmem
    obtain ⟨a, c, hac⟩ := List.append_of_mem hmem
    rw [hac] at hrest
    obtain ⟨pr, _, _, _, hc⟩ := IsChain_drop ht p c a _ _ hrest
    have e := IsChain_functional ht _ _ _ _ _ hrest hc
    have hl := congrArg List.length e
    simp only [List.length_append, List.length_cons] at hl
    omega

/-- The table invariant in the words of the data model gives the bucket
contents of `TableInv`. -/
theorem TableOK_inv {hash : Key → Nat} {ht : hashtable_t} (h : TableOK hash ht) :
    ∃ ch, TableInv hash ht ch := by
  obtain ⟨hcap, ch, hb, hk⟩ := h
  refine ⟨ch, hcap, fun b hlt => (hb b hlt).1, fun b hlt => (hb b hlt).2.2, fun b hlt => ?_⟩
  exact List.Nodup.map_on (fun x hx y hy e => hk b b hlt hlt x hx y hy e)
    (IsChain_nodup ht _ _ _ (hb b hlt).1)

theorem LockOK_miss (inb : Nat → Nat → Prop) (b : Nat) (st : Status) (len : Nat)
    (bytes : Option (List Nat)) :
    LockOK inb [] [] [.mutex_lock b, .mutex_unlock b, .send_response st len bytes] := by
  simp [LockOK]

theorem LockOK_read (inb : Nat → Nat → Prop) {b i : Nat} (h : inb b i) (st : Status)
    (len : Nat) (bytes : Option (List Nat)) :
    LockOK inb [] [] [.mutex_lock b, .rwlock_rdlock i, .mutex_unlock b, .rwlock_unlock i,
      .send_response st len bytes] := by
  simp [LockOK, h]

theorem LockOK_write (inb : Nat → Nat → Prop) {b i : Nat} (h : inb b i) (post : List Event)
    (hpost : post = [] ∨ post = [.rwlock_destroy i])
    (st : Status) (len : Nat) (bytes : Option (List Nat)) :
    LockOK inb [] [] ([.mutex_lock b, .rwlock_wrlock i, .rwlock_unlock i,
      .mutex_unlock b] ++ post ++ [.send_response st len bytes]) := by
  rcases hpost with rfl | rfl <;> simp [LockOK, h]

theorem get_request_trace (hash : Key → Nat) (fuel : Nat) (ht : hashtable_t) (req : request)
    (ok : Bool) {p : Nat}
    (hfind : find_item ht req.key fuel (ht.items (hash req.key % ht.capacity)) = some p) :
    ∃ o, get_request hash fuel ht req ok = some o ∧
      ((p = 0 ∧ ∃ st len bytes, o.trace = [.mutex_lock (hash req.key % ht.capacity),
          .mutex_unlock (hash req.key % ht.capacity), .send_response st len bytes]) ∨
        (p ≠ 0 ∧ ∃ st len bytes, o.trace = [.mutex_lock (hash req.key % ht.capacity),
          .rwlock_rdlock p, .mutex_unlock (hash req.key % ht.capacity), .rwlock_unlock p,
          .send_response st len bytes])) := by
  simp only [get_request, hfind]
  by_cases hp : p = 0
  · rw [if_pos hp]
    exact ⟨_, rfl, Or.inl ⟨hp, _, _, _, rfl⟩⟩
  · rw [if_neg hp]
    by_cases hv : (ht.node p).value ≠ none ∧ 0 < (ht.node p).value_size
    · rw [if_pos hv]
      by_cases hok : ok = false
      · rw [if_pos hok]
        exact ⟨_, rfl, Or.inr ⟨hp, _, _, _, rfl⟩⟩
      · rw [if_neg hok]
        exact ⟨_, rfl, Or.inr ⟨hp, _, _, _, rfl⟩⟩
    · rw [if_neg hv]
      exact ⟨_, rfl, Or.inr ⟨hp, _, _, _, rfl⟩⟩

theorem del_request_trace (hash : Key → Nat) (fuel : Nat) (ht : hashtable_t) (req : request)
    {p : Nat}
    (hfind : find_item ht req.key fuel (ht.items (hash req.key % ht.capacity)) = some p) :
    ∃ o, del_request hash fuel ht req = some o ∧
      ((p = 0 ∧ ∃ st len bytes, o.trace = [.mutex_lock (hash req.key % ht.capacity),
          .mutex_unlock (hash req.key % ht.capacity), .send_response st len bytes]) ∨
        (p ≠ 0 ∧ ∃ st len bytes, o.trace = [.mutex_lock (hash req.key % ht.capacity),
          .rwlock_wrlock p, .rwlock_unlock p, .mutex_unlock (hash req.key % ht.capacity)] ++
          [.rwlock_destroy p] ++ [.send_response st len bytes])) := by
  simp only [del_request, hfind]
  by_cases hp : p = 0
  · rw [if_pos hp]
    exact ⟨_, rfl, Or.inl ⟨hp, _, _, _, rfl⟩⟩
  · rw [if_neg hp]
    exact ⟨_, rfl, Or.inr ⟨hp, _, _, _, rfl⟩⟩

/-- The handlers keep the lock discipline on every path that returns: on a
table that satisfies the invariant `get_request` and `del_request` return
for enough fuel with a trace that satisfies `LockOK`, and so does every
`set_request` that does not have to create an item. -/
theorem lock_order_on_return (hash : Key → Nat) {ht : hashtable_t} {ch : Nat → List Nat}
    (h : TableInv hash ht ch) (req : request) :
    ∃ N, ∀ fuel, N ≤ fuel →
      (∀ ok, ∃ o, get_request hash fuel ht req ok = some o ∧
        LockOK (ItemOf ht o.ht) [] [] o.trace) ∧
      (∀ env, ¬ CreatesItem ht req env →
        ∃ o, set_request hash fuel ht req env = some (.returned o) ∧
          LockOK (ItemOf ht o.ht) [] [] o.trace) ∧
      ∃ o, del_request hash fuel ht req = some o ∧ LockOK (ItemOf ht o.ht) [] [] o.trace := by
  refine ⟨(ch (hash req.key % HT_CAPACITY)).length + 1, fun fuel hfuel => ?_⟩
  obtain ⟨p, hfind, hp⟩ := TableInv_find h req.key (show _ < fuel by omega)
  have hb : hash req.key % HT_CAPACITY < HT_CAPACITY := bucket_lt hash req.key
  have hin : p ≠ 0 → InBucket ht (hash req.key % ht.capacity) p := by
    intro hp0
    rcases hp with ⟨h0, _⟩ | ⟨_, hmem, _⟩
    · exact absurd h0 hp0
    · rw [h.cap]
      exact ⟨_, h.chains _ hb, hmem⟩
  refine ⟨?_, ?_, ?_⟩
  · intro ok
    obtain ⟨o, ho, hcase⟩ := get_request_trace hash fuel ht req ok hfind
    refine ⟨o, ho, ?_⟩
    rcases hcase with ⟨_, st, len, bytes, ht1⟩ | ⟨hp0, st, len, bytes, ht1⟩
    · rw [ht1]; exact LockOK_miss _ _ _ _ _
    · rw [ht1]; exact LockOK_read _ (Or.inl (hin hp0)) _ _ _
  · intro env hnc
    obtain ⟨pA, pB, pD, _, pE⟩ := set_request_paths hash fuel ht req env hfind
    by_cases hA : BufferFails req env
    · exact ⟨_, pA hA, by simp [LockOK]⟩
    by_cases hB : PayloadFails req env
    · exact ⟨_, pB hA hB, by simp [LockOK]⟩
    by_cases hp0 : p = 0
    · have hnew : env.new_item = 0 := by
        by_contra hne
        rcases hp with ⟨_, hno⟩ | ⟨hpne, _⟩
        · exact hnc ⟨hA, hB, hno, hne⟩
        · exact hpne hp0
      exact ⟨_, pD hA hB hp0 hnew, LockOK_miss _ _ _ _ _⟩
    · obtain ⟨got, bytes, _, hset⟩ := pE hA hB hp0
      exact ⟨_, hset, LockOK_write _ (Or.inl (hin hp0)) [] (Or.inl rfl) _ _ _⟩
  · obtain ⟨o, ho, hcase⟩ := del_request_trace hash fuel ht req hfind
    refine ⟨o, ho, ?_⟩
    rcases hcase with ⟨_, st, len, bytes, ht1⟩ | ⟨hp0, st, len, bytes, ht1⟩
    · rw [ht1]; exact LockOK_miss _ _ _ _ _
    · rw [ht1]
      exact LockOK_write _ (Or.inl (hin hp0)) _ (Or.inr rfl) _ _ _

theorem wait_loop_ready {q : work_queue} (h : ¬ (q.queue_size = 0 ∧ q.shutdown = false))
    (wakes : List work_queue) : wait_loop q wakes = some q := by
  cases wakes with
  | nil => simp only [wait_loop]; rw [if_neg h]
  | cons w rest => simp only [wait_loop]; rw [if_neg h]

theorem wait_loop_left : ∀ (wakes : List work_queue) (q q1 : work_queue),
    wait_loop q wakes = some q1 → ¬ (q1.queue_size = 0 ∧ q1.shutdown = false) := by
  intro wakes
  induction wakes with
  | nil =>
    intro q q1 h
    simp only [wait_loop] at h
    split at h
    · exact absurd h (by simp)
    · simp only [Option.some.injEq] at h
      rw [← h]; assumption
  | cons w rest ih =>
    intro q q1 h
    simp only [wait_loop] at h
    split at h
    · exact ih w q1 h
    · simp only [Option.some.injEq] at h
      rw [← h]; assumption

theorem worker_iteration_job {MAX_QUEUE_SIZE : Nat} {q : work_queue} (h : 0 < q.queue_size)
    (wakes : List work_queue) :
    worker_iteration MAX_QUEUE_SIZE q wakes =
      .job (q.job_queue q.queue_head) (q.job_queue q.queue_head != 0)
        { q with queue_head := (q.queue_head + 1) % MAX_QUEUE_SIZE,
                 queue_size := q.queue_size - 1 } := by
  simp only [worker_iteration]
  rw [wait_loop_ready (by omega)]
  simp only
  rw [if_neg (by omega)]

theorem pending_step {MAX_QUEUE_SIZE : Nat} {q : work_queue} (h : 0 < q.queue_size)
    (hh : q.queue_head < MAX_QUEUE_SIZE) :
    pending MAX_QUEUE_SIZE q = q.job_queue q.queue_head ::
      pending MAX_QUEUE_SIZE { q with queue_head := (q.queue_head + 1) % MAX_QUEUE_SIZE,
                                       queue_size := q.queue_size - 1 } := by
  obtain ⟨k, hk⟩ : ∃ k, q.queue_size = k + 1 := ⟨q.queue_size - 1, by omega⟩
  simp only [pending, hk, Nat.add_sub_cancel]
  rw [List.range_succ_eq_map, List.map_cons, List.map_map]
  congr 1
  · rw [Nat.add_zero, Nat.mod_eq_of_lt hh]
  · apply List.map_congr_left
    intro i _
    simp only [Function.comp_apply]
    congr 1
    rw [Nat.mod_add_mod]
    congr 1
    omega

theorem drain_all (MAX_QUEUE_SIZE : Nat) (hM : 0 < MAX_QUEUE_SIZE) :
    ∀ (n : Nat) (q : work_queue), q.queue_size = n → q.queue_head < MAX_QUEUE_SIZE →
      (drain MAX_QUEUE_SIZE n q).1 = pending MAX_QUEUE_SIZE q ∧
        (drain MAX_QUEUE_SIZE n q).2.queue_size = 0 ∧
        (drain MAX_QUEUE_SIZE n q).2.queue_head < MAX_QUEUE_SIZE ∧
        (drain MAX_QUEUE_SIZE n q).2.shutdown = q.shutdown := by
  intro n
  induction n with
  | zero =>
    intro q hq hh
    refine ⟨?_, hq, hh, rfl⟩
    simp only [drain, pending, hq, List.range_zero, List.map_nil]
  | succ n ih =>
    intro q hq hh
    have hpos : 0 < q.queue_size := by omega
    simp only [drain]
    rw [worker_iteration_job hpos]
    simp only
    obtain ⟨i1, i2, i3, i4⟩ := ih
      { q with queue_head := (q.queue_head + 1) % MAX_QUEUE_SIZE,
               queue_size := q.queue_size - 1 } (by simp only; omega) (Nat.mod_lt _ hM)
    refine ⟨?_, i2, i3, i4⟩
    rw [pending_step hpos hh, i1]

theorem wait_loop_observed : ∀ (wakes : List work_queue) (q : work_queue),
    wait_loop q wakes = observed q wakes := by
  intro wakes
  induction wakes with
  | nil =>
    intro q
    simp only [wait_loop, observed, must_wait, List.find?]
    by_cases hc : q.queue_size = 0 ∧ q.shutdown = false
    · rw [if_pos hc]; simp [hc.1, hc.2]
    · rw [if_neg hc]
      have : (!(q.queue_size == 0 && !q.shutdown)) = true := by
        cases hs : q.shutdown <;> simp [hs] at hc ⊢
        exact hc
      rw [this]
  | cons w rest ih =>
    intro q
    simp only [wait_loop]
    by_cases hc : q.queue_size = 0 ∧ q.shutdown = false
    · rw [if_pos hc, ih w]
      simp [observed, must_wait, List.find?, hc.1, hc.2]
    · rw [if_neg hc]
      have : (!(q.queue_size == 0 && !q.shutdown)) = true := by
        cases hs : q.shutdown <;> simp [hs] at hc ⊢
        exact hc
      simp only [observed, must_wait, List.find?]
      rw [this]

/-- C11: the table invariant (items hash to their bucket, keys are unique
in the table, every chain is a well-formed doubly-linked list) holds in the
empty table and in every table the handlers produce from it; and on every
table that satisfies it, each `get_request` and `del_request` returns for
enough fuel, whether it succeeds or fails, with a table that satisfies it
again, and so does each `set_request`, except that a `set_request` which has
to create an item and gets one from `calloc` dies before it touches the
table. -/
theorem table_invariant_holds (hash : Key → Nat) :
    (∀ node0, TableOK hash (init_hashtable node0)) ∧
    (∀ ht, Reachable hash ht → TableOK hash ht) ∧
    ∀ ht, TableOK hash ht → ∀ req : request, ∃ N, ∀ fuel, N ≤ fuel →
      (∀ ok, ∃ o, get_request hash fuel ht req ok = some o ∧ TableOK hash o.ht) ∧
      (∃ o, del_request hash fuel ht req = some o ∧ TableOK hash o.ht) ∧
      ∀ env,
        (CreatesItem ht req env ∧
          ∃ trace, set_request hash fuel ht req env = some (.crashed trace)) ∨
        (¬ CreatesItem ht req env ∧
          ∃ o, set_request hash fuel ht req env = some (.returned o) ∧ TableOK hash o.ht) := by
  refine ⟨fun node0 => TableInv_tableOK (init_TableInv hash node0), fun ht hr => ?_,
    fun ht hok req => ?_⟩
  · obtain ⟨ch, h⟩ := Reachable_inv hr
    exact TableInv_tableOK h
  obtain ⟨ch, h⟩ := TableOK_inv hok
  refine ⟨(ch (hash req.key % HT_CAPACITY)).length + 1, fun fuel hfuel => ⟨?_, ?_, ?_⟩⟩
  · intro ok
    obtain ⟨o, ho, _⟩ := get_request_spec h req ok (show _ < fuel by omega)
    exact ⟨o, ho, TableInv_tableOK (get_step h ho).1⟩
  · obtain ⟨o, ho, _, ⟨ch2, h2, _⟩, _⟩ := del_request_spec h req (show _ < fuel by omega)
    exact ⟨o, ho, TableInv_tableOK h2⟩
  · intro env
    obtain ⟨hcr, hret⟩ := set_request_spec h req env (show _ < fuel by omega)
    by_cases hc : CreatesItem ht req env
    · exact Or.inl ⟨hc, _, hcr hc⟩
    · obtain ⟨o, ho, h2, _⟩ := hret hc
      exact Or.inr ⟨hc, o, ho, TableInv_tableOK h2⟩

/-- C11 witness: the requests for `x` on the table that holds `x -> hello`. -/
theorem table_invariant_witness :
    ∃ N, ∀ fuel, N ≤ fuel →
      (∀ ok, ∃ o, get_request demo_hash fuel demo_table demo_req ok = some o ∧
        TableOK demo_hash o.ht) ∧
      (∃ o, del_request demo_hash fuel demo_table demo_req = some o ∧
        TableOK demo_hash o.ht) ∧
      ∀ env,
        (CreatesItem demo_table demo_req env ∧
          ∃ trace, set_request demo_hash fuel demo_table demo_req env =
            some (.crashed trace)) ∨
        (¬ CreatesItem demo_table demo_req env ∧
          ∃ o, set_request demo_hash fuel demo_table demo_req env = some (.returned o) ∧
            TableOK demo_hash o.ht) :=
  (table_invariant_holds demo_hash).2.2 demo_table (TableInv_tableOK demo_table_inv) demo_req

/-- C13 (as stated, refuted): on the empty table, a `set("x", ...)` of five
bytes whose peer closes the connection after two returns `-1` and has sent
no response. -/
theorem short_read_sends_nothing :
    set_request demo_hash 1 demo_empty req_set5 env_short =
      some (.returned { ht := demo_empty, connection_close := true, ret := -1, trace := [] }) ∧
    responses [] = [] := by
  exact ⟨rfl, rfl⟩

/-- C13 (amended): on a table that satisfies the table invariant every
handler call that returns has sent at most one response, and which one is
settled by the request.  `get_request` and `del_request` return for enough
fuel and send exactly one: `KEY_ERROR` exactly when the key is absent,
`STORE_ERROR` (`get_request`) exactly when the copy of a non-empty value
cannot be allocated, `OK` in all other cases; the response is `OK` exactly
when the return value is not negative.  A `set_request` that does not have
to create an item returns; it sends `STORE_ERROR` exactly when an
allocation fails (the buffer, or the item of a new key), sends nothing
exactly when the payload read fails or `check_payload` reports a mismatch,
and then sets `connection_close`, and sends `OK` exactly when the key is in
the table and the payload arrived; it returns `-1` unless it sends `OK`,
and then `(int)got`, which is not negative below `2 ^ 31` bytes. -/
theorem responses_by_outcome (hash : Key → Nat) {ht : hashtable_t} {ch : Nat → List Nat}
    (hinv : TableInv hash ht ch) (req : request) :
    ∃ N, ∀ fuel, N ≤ fuel →
      (∀ ok, ∃ o, get_request hash fuel ht req ok = some o ∧
        (responses o.trace).length = 1 ∧
        (responses o.trace = [(Status.KEY_ERROR, 0, [])] ↔ ¬ HasKey ht req.key) ∧
        (responses o.trace = [(Status.STORE_ERROR, 0, [])] ↔ CopyFails ht req.key ok) ∧
        ((∃ len bytes, responses o.trace = [(Status.OK, len, bytes)]) ↔
          HasKey ht req.key ∧ ¬ CopyFails ht req.key ok) ∧
        ((∃ len bytes, responses o.trace = [(Status.OK, len, bytes)]) ↔ 0 ≤ o.ret) ∧
        (o.ret = 0 ∨ o.ret = -1)) ∧
      (∃ o, del_request hash fuel ht req = some o ∧
        (responses o.trace).length = 1 ∧
        (responses o.trace = [(Status.KEY_ERROR, 0, [])] ↔ ¬ HasKey ht req.key) ∧
        (responses o.trace = [(Status.OK, 0, [])] ↔ HasKey ht req.key) ∧
        (responses o.trace = [(Status.OK, 0, [])] ↔ 0 ≤ o.ret) ∧
        (o.ret = 0 ∨ o.ret = -1)) ∧
      ∀ env, ¬ CreatesItem ht req env →
        ∃ o, set_request hash fuel ht req env = some (.returned o) ∧
          (responses o.trace).length ≤ 1 ∧
          (responses o.trace = [(Status.STORE_ERROR, 0, [])] ↔
            BufferFails req env ∨
              (¬ PayloadFails req env ∧ ¬ HasKey ht req.key ∧ env.new_item = 0)) ∧
          (responses o.trace = [] ↔ ¬ BufferFails req env ∧ PayloadFails req env) ∧
          (responses o.trace = [(Status.OK, 0, [])] ↔
            ¬ BufferFails req env ∧ ¬ PayloadFails req env ∧ HasKey ht req.key) ∧
          (responses o.trace = [] → o.connection_close = true) ∧
          (responses o.trace ≠ [(Status.OK, 0, [])] → o.ret = -1) ∧
          (responses o.trace = [(Status.OK, 0, [])] →
            ∃ got bytes, read_all req.msg_len env.reads 0 [] = some (got, bytes) ∧
              o.ret = to_int got ∧ (got < 2 ^ 31 → 0 ≤ o.ret)) := by
  have h := hinv
  refine ⟨(ch (hash req.key % HT_CAPACITY)).length + 1, fun fuel hfuel => ⟨?_, ?_, ?_⟩⟩
  · intro ok
    obtain ⟨o, ho, _, _, _, _, hcase⟩ := get_request_spec h req ok (show _ < fuel by omega)
    refine ⟨o, ho, ?_⟩
    have huniq : ∀ {p : Nat}, p ∈ ch (hash req.key % HT_CAPACITY) → (ht.node p).key = req.key →
        ∀ v s, Holds ht req.key v s → v = (ht.node p).value ∧ s = (ht.node p).value_size := by
      intro p hpm hpk v s hh
      obtain ⟨q, hqm, hqk, hqv, hqs⟩ := (TableInv_holds_iff h _ _ _).mp hh
      have hpq : p = q := TableInv_key_inj h (bucket_lt hash req.key) hpm hqm (by rw [hpk, hqk])
      subst hpq
      exact ⟨hqv.symm, hqs.symm⟩
    rcases hcase with ⟨hno, hret, _, hresp⟩ | ⟨p, hpm, hpk, hp⟩
    · have hnc : ¬ CopyFails ht req.key ok := by
        rintro ⟨_, v, s, hh, _⟩
        exact hno ((HasKey_iff_Holds _ _).mpr ⟨v, s, hh⟩)
      rw [hresp, hret]
      refine ⟨rfl, ?_, ?_, ?_, ?_, Or.inr rfl⟩
      · exact ⟨fun _ => hno, fun _ => rfl⟩
      · exact ⟨fun e => absurd e (by simp), fun e => absurd e hnc⟩
      · exact ⟨fun ⟨_, _, e⟩ => absurd e (by simp), fun e => absurd e.1 hno⟩
      · exact ⟨fun ⟨_, _, e⟩ => absurd e (by simp), fun e => absurd e (by decide)⟩
    · have hy : HasKey ht req.key := (TableInv_hasKey_iff h _).mpr ⟨p, hpm, hpk⟩
      have hholds : Holds ht req.key (ht.node p).value (ht.node p).value_size :=
        (TableInv_holds_iff h _ _ _).mpr ⟨p, hpm, hpk, rfl, rfl⟩
      rcases hp with ⟨hv1, hv2, hok, hret, _, hresp⟩ | ⟨hv1, hv2, hok, hret, _, hresp⟩ |
        ⟨hv, hret, _, hresp⟩
      · have hc : CopyFails ht req.key ok := ⟨hok, _, _, hholds, hv1, hv2⟩
        rw [hresp, hret]
        refine ⟨rfl, ?_, ?_, ?_, ?_, Or.inr rfl⟩
        · exact ⟨fun e => absurd e (by simp), fun e => absurd hy e⟩
        · exact ⟨fun _ => hc, fun _ => rfl⟩
        · exact ⟨fun ⟨_, _, e⟩ => absurd e (by simp), fun e => absurd hc e.2⟩
        · exact ⟨fun ⟨_, _, e⟩ => absurd e (by simp), fun e => absurd e (by decide)⟩
      · have hnc : ¬ CopyFails ht req.key ok := by
          rintro ⟨hf, _⟩
          rw [hok] at hf
          exact absurd hf (by simp)
        rw [hresp, hret]
        refine ⟨rfl, ?_, ?_, ?_, ?_, Or.inl rfl⟩
        · exact ⟨fun e => absurd e (by simp), fun e => absurd hy e⟩
        · exact ⟨fun e => absurd e (by simp), fun e => absurd e hnc⟩
        · exact ⟨fun _ => ⟨hy, hnc⟩, fun _ => ⟨_, _, rfl⟩⟩
        · exact ⟨fun _ => le_refl _, fun _ => ⟨_, _, rfl⟩⟩
      · have hnc : ¬ CopyFails ht req.key ok := by
          rintro ⟨_, v, s, hh, hv1, hv2⟩
          obtain ⟨e1, e2⟩ := huniq hpm hpk v s hh
          exact hv ⟨e1 ▸ hv1, e2 ▸ hv2⟩
        rw [hresp, hret]
        refine ⟨rfl, ?_, ?_, ?_, ?_, Or.inl rfl⟩
        · exact ⟨fun e => absurd e (by simp), fun e => absurd hy e⟩
        · exact ⟨fun e => absurd e (by simp), fun e => absurd e hnc⟩
        · exact ⟨fun _ => ⟨hy, hnc⟩, fun _ => ⟨_, _, rfl⟩⟩
        · exact ⟨fun _ => le_refl _, fun _ => ⟨_, _, rfl⟩⟩
  · obtain ⟨o, ho, _, _, _, _, hcase⟩ := del_request_spec h req (show _ < fuel by omega)
    refine ⟨o, ho, ?_⟩
    rcases hcase with ⟨hno, _, hret, hresp⟩ | ⟨hy, hret, hresp, _⟩
    · rw [hresp, hret]
      refine ⟨rfl, ?_, ?_, ?_, Or.inr rfl⟩
      · exact ⟨fun _ => hno, fun _ => rfl⟩
      · exact ⟨fun e => absurd e (by simp), fun e => absurd e hno⟩
      · exact ⟨fun e => absurd e (by simp), fun e => absurd e (by decide)⟩
    · rw [hresp, hret]
      refine ⟨rfl, ?_, ?_, ?_, Or.inl rfl⟩
      · exact ⟨fun e => absurd e (by simp), fun e => absurd hy e⟩
      · exact ⟨fun _ => hy, fun _ => rfl⟩
      · exact ⟨fun _ => le_refl _, fun _ => rfl⟩
  · intro env hnc
    obtain ⟨p, hfind, hp⟩ := TableInv_find h req.key (show _ < fuel by omega)
    obtain ⟨pA, pB, pD, _, pE⟩ := set_request_paths hash fuel ht req env hfind
    by_cases hA : BufferFails req env
    · refine ⟨_, pA hA, ?_⟩
      simp only [responses, Option.getD_none]
      refine ⟨by simp, ?_, ?_, ?_, ?_, ?_, ?_⟩
      · exact ⟨fun _ => Or.inl hA, fun _ => trivial⟩
      · exact ⟨fun e => absurd e (by simp), fun e => absurd hA e.1⟩
      · exact ⟨fun e => absurd e (by simp), fun e => absurd hA e.1⟩
      · exact fun e => absurd e (by simp)
      · exact fun _ => trivial
      · exact fun e => absurd e (by simp)
    by_cases hB : PayloadFails req env
    · refine ⟨_, pB hA hB, ?_⟩
      simp only [responses]
      refine ⟨by simp, ?_, ?_, ?_, ?_, ?_, ?_⟩
      · constructor
        · exact fun e => absurd e (by simp)
        · rintro (e | e)
          · exact absurd e hA
          · exact absurd hB e.1
      · exact ⟨fun _ => ⟨hA, hB⟩, fun _ => trivial⟩
      · exact ⟨fun e => absurd e (by simp), fun e => absurd hB e.2.1⟩
      · exact fun _ => trivial
      · exact fun _ => trivial
      · exact fun e => absurd e (by simp)
    rcases hp with ⟨hp0, hno⟩ | ⟨hp0, hpm, hpk⟩
    · have hnew : env.new_item = 0 := by
        by_contra hne
        exact hnc ⟨hA, hB, hno, hne⟩
      refine ⟨_, pD hA hB hp0 hnew, ?_⟩
      simp only [responses, Option.getD_none]
      refine ⟨by simp, ?_, ?_, ?_, ?_, ?_, ?_⟩
      · exact ⟨fun _ => Or.inr ⟨hB, hno, hnew⟩, fun _ => trivial⟩
      · exact ⟨fun e => absurd e (by simp), fun e => absurd e.2 hB⟩
      · exact ⟨fun e => absurd e (by simp), fun e => absurd e.2.2 hno⟩
      · exact fun e => absurd e (by simp)
      · exact fun _ => trivial
      · exact fun e => absurd e (by simp)
    · have hy : HasKey ht req.key := (TableInv_hasKey_iff h _).mpr ⟨p, hpm, hpk⟩
      obtain ⟨got, bytes, hread, hset⟩ := pE hA hB hp0
      refine ⟨_, hset, ?_⟩
      simp only [responses, Option.getD_none]
      refine ⟨by simp, ?_, ?_, ?_, ?_, ?_, ?_⟩
      · constructor
        · exact fun e => absurd e (by simp)
        · rintro (e | e)
          · exact absurd e hA
          · exact absurd hy e.2.1
      · exact ⟨fun e => absurd e (by simp), fun e => absurd e.2 hB⟩
      · exact ⟨fun _ => ⟨hA, hB, hy⟩, fun _ => trivial⟩
      · exact fun e => absurd e (by simp)
      · exact fun e => absurd rfl e
      · exact fun _ => ⟨got, bytes, hread, rfl, fun hlt => to_int_nonneg hlt⟩

/-- C13 witness: the requests for `x` on the table that holds `x -> hello`. -/
theorem responses_by_outcome_witness :
    ∃ N, ∀ fuel, N ≤ fuel →
      (∀ ok, ∃ o, get_request demo_hash fuel demo_table demo_req ok = some o ∧
        (responses o.trace).length = 1 ∧
        (responses o.trace = [(Status.KEY_ERROR, 0, [])] ↔ ¬ HasKey demo_table demo_req.key) ∧
        (responses o.trace = [(Status.STORE_ERROR, 0, [])] ↔
          CopyFails demo_table demo_req.key ok) ∧
        ((∃ len bytes, responses o.trace = [(Status.OK, len, bytes)]) ↔
          HasKey demo_table demo_req.key ∧ ¬ CopyFails demo_table demo_req.key ok) ∧
        ((∃ len bytes, responses o.trace = [(Status.OK, len, bytes)]) ↔ 0 ≤ o.ret) ∧
        (o.ret = 0 ∨ o.ret = -1)) ∧
      (∃ o, del_request demo_hash fuel demo_table demo_req = some o ∧
        (responses o.trace).length = 1 ∧
        (responses o.trace = [(Status.KEY_ERROR, 0, [])] ↔ ¬ HasKey demo_table demo_req.key) ∧
        (responses o.trace = [(Status.OK, 0, [])] ↔ HasKey demo_table demo_req.key) ∧
        (responses o.trace = [(Status.OK, 0, [])] ↔ 0 ≤ o.ret) ∧
        (o.ret = 0 ∨ o.ret = -1)) ∧
      ∀ env, ¬ CreatesItem demo_table demo_req env →
        ∃ o, set_request demo_hash fuel demo_table demo_req env = some (.returned o) ∧
          (responses o.trace).length ≤ 1 ∧
          (responses o.trace = [(Status.STORE_ERROR, 0, [])] ↔
            BufferFails demo_req env ∨
              (¬ PayloadFails demo_req env ∧ ¬ HasKey demo_table demo_req.key ∧
                env.new_item = 0)) ∧
          (responses o.trace = [] ↔ ¬ BufferFails demo_req env ∧ PayloadFails demo_req env) ∧
          (responses o.trace = [(Status.OK, 0, [])] ↔
            ¬ BufferFails demo_req env ∧ ¬ PayloadFails demo_req env ∧
              HasKey demo_table demo_req.key) ∧
          (responses o.trace = [] → o.connection_close = true) ∧
          (responses o.trace ≠ [(Status.OK, 0, [])] → o.ret = -1) ∧
          (responses o.trace = [(Status.OK, 0, [])] →
            ∃ got bytes, read_all demo_req.msg_len env.reads 0 [] = some (got, bytes) ∧
              o.ret = to_int got ∧ (got < 2 ^ 31 → 0 ≤ o.ret)) :=
  responses_by_outcome demo_hash demo_table_inv demo_req

/-- C14 (the code departs from the claim): `set("x", "hello")` on the empty
table, with every allocation succeeding and the payload delivered, takes
the mutex of bucket 120 and dies in `pthread_rwlock_init` before any
unlock: the call ends with that mutex held, locked once and never
released. -/
theorem set_new_key_holds_mutex :
    ∃ trace, set_request demo_hash 1 demo_empty req_set5 demo_env_hello =
        some (SetResult.crashed trace) ∧
      held_mutexes [] trace = [120] ∧ ¬ LockOK (ItemOf demo_empty demo_empty) [] [] trace :=
  ⟨[Event.mutex_lock 120], rfl, rfl, by simp [LockOK]⟩

/-- C15: one iteration of `worker_thread`, for a queue capacity
`MAX_QUEUE_SIZE > 0`, started on a queue `q` with
`queue_head < MAX_QUEUE_SIZE` and woken, each time it waits, on the next of
the states `wakes`.  The iteration acts on the first state it sees that is
not empty or has `shutdown` set, and blocks when there is none.  It leaves
the loop exactly when that state has `shutdown` set and `queue_size == 0`.
When that state has `queue_size > 0`, `shutdown` set or not, it takes
`job_queue[queue_head]` of that state, advances `queue_head` modulo
`MAX_QUEUE_SIZE` (which stays below `MAX_QUEUE_SIZE`) and decrements
`queue_size`; it calls `main_job` when the handle is not `NULL`.  In
particular, on entry with `queue_size > 0` it takes `q.job_queue[q.queue_head]`
without waiting.  So `queue_size` iterations take the waiting handles
oldest first and leave the queue empty, and the next iteration leaves the
loop when `shutdown` is set. -/
theorem worker_dequeue_step (MAX_QUEUE_SIZE : Nat) (hM : 0 < MAX_QUEUE_SIZE)
    (q : work_queue) (hh : q.queue_head < MAX_QUEUE_SIZE) (wakes : List work_queue) :
    (worker_iteration MAX_QUEUE_SIZE q wakes = .blocked ↔ observed q wakes = none) ∧
    (worker_iteration MAX_QUEUE_SIZE q wakes = .stop ↔
      ∃ q1, observed q wakes = some q1 ∧ q1.shutdown = true ∧ q1.queue_size = 0) ∧
    (∀ q1, observed q wakes = some q1 → 0 < q1.queue_size →
      worker_iteration MAX_QUEUE_SIZE q wakes =
        .job (q1.job_queue q1.queue_head) (q1.job_queue q1.queue_head != 0)
          { job_queue := q1.job_queue, queue_head := (q1.queue_head + 1) % MAX_QUEUE_SIZE,
            queue_size := q1.queue_size - 1, shutdown := q1.shutdown } ∧
        (q1.queue_head + 1) % MAX_QUEUE_SIZE < MAX_QUEUE_SIZE) ∧
    (q.shutdown = true ∧ q.queue_size = 0 →
      worker_iteration MAX_QUEUE_SIZE q wakes = .stop) ∧
    (0 < q.queue_size →
      worker_iteration MAX_QUEUE_SIZE q wakes =
        .job (q.job_queue q.queue_head) (q.job_queue q.queue_head != 0)
          { job_queue := q.job_queue, queue_head := (q.queue_head + 1) % MAX_QUEUE_SIZE,
            queue_size := q.queue_size - 1, shutdown := q.shutdown }) ∧
    (drain MAX_QUEUE_SIZE q.queue_size q).1 = pending MAX_QUEUE_SIZE q ∧
    (drain MAX_QUEUE_SIZE q.queue_size q).2.queue_size = 0 ∧
    (drain MAX_QUEUE_SIZE q.queue_size q).2.queue_head < MAX_QUEUE_SIZE ∧
    (q.shutdown = true →
      worker_iteration MAX_QUEUE_SIZE (drain MAX_QUEUE_SIZE q.queue_size q).2 [] = .stop) := by
  have hready : ∀ {r : work_queue}, r.shutdown = true ∧ r.queue_size = 0 →
      ∀ wakes, worker_iteration MAX_QUEUE_SIZE r wakes = .stop := by
    intro r hr wakes
    simp only [worker_iteration]
    rw [wait_loop_ready (by rw [hr.1]; simp)]
    simp only
    rw [if_pos hr]
  obtain ⟨d1, d2, d3, d4⟩ := drain_all MAX_QUEUE_SIZE hM q.queue_size q rfl hh
  refine ⟨?_, ?_, ?_, fun hc => hready hc wakes, fun hpos => worker_iteration_job hpos wakes,
    d1, d2, d3, fun hs => hready ⟨by rw [d4]; exact hs, d2⟩ []⟩
  · simp only [worker_iteration]
    rw [wait_loop_observed]
    cases hw : observed q wakes with
    | none => simp
    | some q1 =>
      simp only
      by_cases hc : q1.shutdown = true ∧ q1.queue_size = 0
      · rw [if_pos hc]; simp
      · rw [if_neg hc]; simp
  · simp only [worker_iteration]
    rw [wait_loop_observed]
    cases hw : observed q wakes with
    | none => simp
    | some q1 =>
      simp only [Option.some.injEq, exists_eq_left']
      by_cases hc : q1.shutdown = true ∧ q1.queue_size = 0
      · rw [if_pos hc]; simp [hc]
      · rw [if_neg hc]; simp [hc]
  · intro q1 hobs hpos
    refine ⟨?_, Nat.mod_lt _ hM⟩
    simp only [worker_iteration]
    rw [wait_loop_observed, hobs]
    simp only
    rw [if_neg (by omega)]

/-- C15 witness: a worker that enters on an empty queue of capacity 4, is
woken once with nothing to do and then on a queue with `queue_head = 3`
that holds two handles, takes the handle `13` of slot 3 and wraps
`queue_head` to `0`. -/
theorem worker_dequeue_witness :
    worker_iteration 4 demo_idle [demo_idle, demo_queue] =
      .job 13 true
        { job_queue := demo_queue.job_queue, queue_head := 0, queue_size := 1,
          shutdown := true } ∧
    (3 + 1) % 4 < 4 :=
  (worker_dequeue_step 4 (by decide) demo_idle (by decide) [demo_idle, demo_queue]).2.2.1
    demo_queue rfl (by decide)

end KV
